import Mathlib

/-!
The chord matcher and degree mapper of `musicpp`.

A shallow embedding of the harmonic-analysis core of `musicpp`
(`notes.hpp`, `intervals.hpp`, `degree.hpp`, `chords.hpp`, `scales.hpp`).

Conventions of the embedding:

* `std::int8_t` values are integers; every `static_cast<std::int8_t>` of the
  source is the explicit two's-complement wrap `wrap8`.
* C++ `/` and `%` on `int` truncate toward zero: `Int.tdiv` and `Int.tmod`.
* `std::uint16_t` bit sets are natural numbers with `&&&`, `|||`, `<<<`.
* `std::array<T, N>` is a list; the template parameter `N` is its length.
* `std::string` is `String`; text is built from character lists so that every
  function evaluates by unfolding.
* `while` loops take a fuel argument and return `none` when it runs out.
-/

namespace musicpp

/-! ## Machine integers -/

/-- Conversion to `std::int8_t`: reduction modulo 256 into `[-128, 127]`. -/
def wrap8 (x : Int) : Int := (x + 128) % 256 - 128

/-- The value is representable as `std::int8_t`. -/
def fits8 (x : Int) : Prop := -128 ≤ x ∧ x ≤ 127

instance (x : Int) : Decidable (fits8 x) := by
  unfold fits8; infer_instance

/-- Number of set bits among the low 16 bits (`std::popcount` on `std::uint16_t`). -/
def popcount (x : Nat) : Nat := ((List.range 16).filter (fun i => x.testBit i)).length

/-! ## intervals.hpp -/

structure interval where
  fifths : Int
  octaves : Int
deriving DecidableEq, Repr

namespace interval

/-- The source operator `interval::operator()(oct_offset)`. -/
def shift (iv : interval) (oct_offset : Int) : interval :=
  ⟨iv.fifths, wrap8 (iv.octaves + oct_offset)⟩

/-- The source operator `operator+(interval, interval)`. -/
def add (lhs rhs : interval) : interval :=
  ⟨wrap8 (lhs.fifths + rhs.fifths), wrap8 (lhs.octaves + rhs.octaves)⟩

/-- The source operator `operator-(interval, interval)`. -/
def sub (lhs rhs : interval) : interval :=
  ⟨wrap8 (lhs.fifths - rhs.fifths), wrap8 (lhs.octaves - rhs.octaves)⟩

/-- Semitone class of the interval, `interval::semitones`. -/
def semitones (iv : interval) : Int :=
  let s := wrap8 ((iv.fifths * 7).tmod 12)
  wrap8 ((s + 12).tmod 12)

/-- Signed size in semitones, `fifths * 7 + octaves * 12` (not a source function;
the amount by which adding the interval moves the absolute pitch). -/
def size (iv : interval) : Int := iv.fifths * 7 + iv.octaves * 12

end interval

namespace intervals

def P1 : interval := ⟨0, 0⟩
def P4 : interval := ⟨-1, 1⟩
def P5 : interval := ⟨1, 0⟩
def P8 : interval := ⟨0, 1⟩
def m2 : interval := ⟨-5, 3⟩
def M2 : interval := ⟨2, -1⟩
def m3 : interval := ⟨-3, 2⟩
def M3 : interval := ⟨4, -2⟩
def m6 : interval := ⟨-4, 3⟩
def M6 : interval := ⟨3, -1⟩
def m7 : interval := ⟨-2, 2⟩
def M7 : interval := ⟨5, -2⟩
def A1 : interval := ⟨7, -4⟩
def A2 : interval := ⟨9, -5⟩
def A4 : interval := ⟨6, -3⟩
def d5 : interval := ⟨-6, 4⟩
def A5 : interval := ⟨8, -4⟩
def d7 : interval := ⟨-9, 6⟩
def m9 : interval := m2.shift 1
def M9 : interval := M2.shift 1
def A9 : interval := A2.shift 1
def P11 : interval := P4.shift 1
def A11 : interval := A4.shift 1
def M13 : interval := M6.shift 1
def m13 : interval := m6.shift 1

end intervals

/-! ## notes.hpp -/

inductive accidental_preference where
  | natural
  | sharp
  | flat
deriving DecidableEq, Repr

structure note where
  m_fifth : Int
  m_octave : Int
deriving DecidableEq, Repr

namespace note

/-- The source operator `operator+(note, interval)`. -/
def add (lhs : note) (rhs : interval) : note :=
  ⟨wrap8 (lhs.m_fifth + rhs.fifths), wrap8 (lhs.m_octave + rhs.octaves)⟩

/-- The source operator `note::operator()(octave)`. -/
def at_octave (n : note) (octave : Int) : note := n.add ⟨0, octave⟩

/-- Absolute ordinal pitch, `note::get_midi_pitch`. -/
def get_midi_pitch (n : note) : Int :=
  wrap8 (n.m_fifth * 7 + n.m_octave * 12 + 12)

/-- Pitch class, `note::get_pitch`. -/
def get_pitch (n : note) : Int :=
  let pitch := wrap8 ((n.m_fifth * 7).tmod 12)
  wrap8 ((pitch + 12).tmod 12)

/-- Enharmonic comparison, `note::is_enharmonic`. -/
def is_enharmonic (n other : note) : Bool := n.get_pitch == other.get_pitch

/-- Canonical respelling, `note::simplify`. -/
def simplify (n : note) (pref : accidental_preference := accidental_preference.natural) : note :=
  let offset : Int :=
    if pref = accidental_preference.sharp then 1
    else if pref = accidental_preference.flat then 6
    else 5
  let shifted := n.m_fifth + offset
  let adjust := if shifted ≥ 0 then shifted.tdiv 12 else (shifted - 11).tdiv 12
  ⟨wrap8 (n.m_fifth - adjust * 12), wrap8 (n.m_octave + adjust * 7)⟩

/-- Letter name with accidentals and no octave, `note::pitch_name`. -/
def pitch_name (n : note) : String :=
  let names : List String := ["F", "C", "G", "D", "A", "E", "B"]
  let shifted_fifth := n.m_fifth + 1
  let base_index := ((shifted_fifth.tmod 7) + 7).tmod 7
  let accidentals :=
    if shifted_fifth ≥ 0 then shifted_fifth.tdiv 7 else (shifted_fifth - 6).tdiv 7
  let result := names.getD base_index.toNat ""
  if accidentals > 0 then
    result ++ String.mk (List.replicate accidentals.toNat '#')
  else if accidentals < 0 then
    result ++ String.mk (List.replicate (-accidentals).toNat 'b')
  else result

end note

namespace notes

def C : note := ⟨0, 0⟩
def G : note := ⟨1, 0⟩
def D : note := ⟨2, -1⟩
def A : note := ⟨3, -1⟩
def E : note := ⟨4, -2⟩
def B : note := ⟨5, -2⟩
def Fs : note := ⟨6, -3⟩
def Cs : note := ⟨7, -4⟩
def Gs : note := ⟨8, -4⟩
def Ds : note := ⟨9, -5⟩
def As : note := ⟨10, -5⟩
def F : note := ⟨-1, 1⟩
def Bb : note := ⟨-2, 2⟩
def Eb : note := ⟨-3, 2⟩
def Ab : note := ⟨-4, 3⟩
def Db : note := ⟨-5, 3⟩
def Gb : note := ⟨-6, 4⟩

end notes

/-! ## degree.hpp -/

structure degree where
  num : Int
  alter : Int
deriving DecidableEq, Repr

/-- Alteration sign of a degree, the source member `degree::prefix`. -/
def degree.prefix_of (d : degree) : String :=
  if d.alter = -1 then "b" else if d.alter = 1 then "#" else ""

/-! ## chords.hpp: patterns -/

/-- A `chord_pattern<N>` is the list of its `N` intervals. -/
abbrev chord_pattern := List interval

namespace chord_pattern

/-- The source member `chord_pattern::inversion<M>`: rotate left by `M`, then
raise the last `M` tones by an octave. -/
def inversion (p : chord_pattern) (M : Nat) : chord_pattern :=
  p.drop M ++ (p.take M).map (fun iv => iv.add intervals.P8)

/-- The source member `chord_pattern::alter<I>`. -/
def alter (p : chord_pattern) (I : Nat) (new_interval : interval) : chord_pattern :=
  p.set I new_interval

/-- The source member `chord_pattern::omit<I>`. -/
def omit_at (p : chord_pattern) (I : Nat) : chord_pattern :=
  p.take I ++ p.drop (I + 1)

/-- The source member `chord_pattern::add`. -/
def add (p : chord_pattern) (iv : interval) : chord_pattern := p ++ [iv]

end chord_pattern

/-- A `chord_instance<N>` is the list of its `N` notes. -/
abbrev chord_instance := List note

/-- The source operator `operator+(note, chord_pattern)`. -/
def chord_of (n : note) (pattern : chord_pattern) : chord_instance :=
  pattern.map (fun iv => n.add iv)

namespace chord_patterns
open intervals

def major_triad : chord_pattern := [P1, M3, P5]
def minor_triad : chord_pattern := [P1, m3, P5]
def diminished_triad : chord_pattern := [P1, m3, d5]
def augmented_triad : chord_pattern := [P1, M3, A5]
def sus2 : chord_pattern := [P1, M2, P5]
def sus4 : chord_pattern := [P1, P4, P5]

def maj6 := major_triad.add M6
def min6 := minor_triad.add M6

def dom7 := major_triad.add m7
def maj7 := major_triad.add M7
def min7 := minor_triad.add m7
def min_maj7 := minor_triad.add M7
def dim7 := diminished_triad.add d7
def half_dim7 := diminished_triad.add m7
def aug7 := augmented_triad.add m7
def aug_maj7 := augmented_triad.add M7
def dom7sus4 := sus4.add m7

def dom7_sharp5 := dom7.alter 2 A5
def dom7_flat5 := dom7.alter 2 d5
def dom7_sharp9 := dom7.add A9
def dom7_flat9 := dom7.add m9
def dom7_sharp5_sharp9 := dom7_sharp5.add A9
def dom7_sharp5_flat9 := dom7_sharp5.add m9
def dom7_flat5_flat9 := dom7_flat5.add m9

def maj6_9 := maj6.add M9
def min6_9 := min6.add M9
def dom9 := dom7.add M9
def maj9 := maj7.add M9
def min9 := min7.add M9
def min_maj9 := min_maj7.add M9
def aug9 := aug7.add M9
def dom9sus4 := dom7sus4.add M9

def dom9_sharp11 := dom9.add A11
def dom9_flat13 := dom9.add m13
def dom9_sharp5 := dom9.alter 2 A5
def dom9_flat5 := dom9.alter 2 d5

def dom11 := dom9.add P11
def maj11 := maj9.add P11
def min11 := min9.add P11

def dom13 := dom11.add M13
def maj13 := maj11.add M13
def min13 := min11.add M13
def dom13_sharp11 := dom13.alter 4 A11

def power_chord := major_triad.omit_at 1
def dom9_no5 := dom9.omit_at 2
def dom11_no3 := dom11.omit_at 1
def dom13_no5 := dom13.omit_at 2
def dom13_no5_no11 := dom13_no5.omit_at 3

def add9 := major_triad.add M9
def min_add9 := minor_triad.add M9
def add11 := major_triad.add P11
def add13 := major_triad.add M13

end chord_patterns

/-! ## chords.hpp: catalog -/

structure chord_info where
  name : String
  pitch_class_set : Nat
  tone_count : Nat
  interval_semitones : List Int
deriving DecidableEq, Repr

/-- Semitone offset of a pattern tone as `make_chord_info` computes it. -/
def pattern_semitone (iv : interval) : Int :=
  (((iv.fifths * 7).tmod 12) + 12).tmod 12

/-- The source function `detail::make_chord_info`: the bit set is the union of
the tones' semitone bits, the semitone table holds the first seven tones and
is padded with `-1`. -/
def make_chord_info (name : String) (pattern : chord_pattern) : chord_info :=
  let pcs := pattern.foldl
    (fun acc iv => (acc ||| (1 <<< (pattern_semitone iv).toNat)) % 65536) 0
  let semis := (pattern.take 7).map (fun iv => wrap8 (pattern_semitone iv))
  ⟨name, pcs, pattern.length % 256, semis ++ List.replicate (7 - semis.length) (-1)⟩

/-- The source function `detail::semitone_to_omission_name`. -/
def semitone_to_omission_name (semi : Int) : String :=
  if semi = 1 ∨ semi = 2 then "no9"
  else if semi = 3 ∨ semi = 4 then "no3"
  else if semi = 5 then "no11"
  else if semi = 6 ∨ semi = 7 then "no5"
  else if semi = 8 ∨ semi = 9 then "no13"
  else if semi = 10 ∨ semi = 11 then "no7"
  else "no?"

/-- The source function `detail::detect_inversion`: the first index
`1 ≤ i < min tone_count 7` whose semitone equals `bass_semi`, else `0`. -/
def detect_inversion (bass_semi : Int) (info : chord_info) : Int :=
  match ((List.range (min info.tone_count 7)).drop 1).find?
      (fun i => info.interval_semitones.getD i (-1) == bass_semi) with
  | some i => (i : Int)
  | none => 0

/-- The quality names and patterns registered in `detail::chord_db`, in order. -/
def chord_catalog : List (String × chord_pattern) :=
  [ ("13", chord_patterns.dom13),
    ("maj13", chord_patterns.maj13),
    ("m13", chord_patterns.min13),
    ("13#11", chord_patterns.dom13_sharp11),
    ("11", chord_patterns.dom11),
    ("maj11", chord_patterns.maj11),
    ("m11", chord_patterns.min11),
    ("9#11", chord_patterns.dom9_sharp11),
    ("9b13", chord_patterns.dom9_flat13),
    ("9", chord_patterns.dom9),
    ("maj9", chord_patterns.maj9),
    ("m9", chord_patterns.min9),
    ("m(maj9)", chord_patterns.min_maj9),
    ("aug9", chord_patterns.aug9),
    ("9sus4", chord_patterns.dom9sus4),
    ("9b5", chord_patterns.dom9_flat5),
    ("6/9", chord_patterns.maj6_9),
    ("m6/9", chord_patterns.min6_9),
    ("7b9", chord_patterns.dom7_flat9),
    ("7#9", chord_patterns.dom7_sharp9),
    ("7#5b9", chord_patterns.dom7_sharp5_flat9),
    ("7#5#9", chord_patterns.dom7_sharp5_sharp9),
    ("7b5b9", chord_patterns.dom7_flat5_flat9),
    ("add9", chord_patterns.add9),
    ("m(add9)", chord_patterns.min_add9),
    ("add11", chord_patterns.add11),
    ("6", chord_patterns.maj6),
    ("m6", chord_patterns.min6),
    ("7", chord_patterns.dom7),
    ("maj7", chord_patterns.maj7),
    ("m7", chord_patterns.min7),
    ("m(maj7)", chord_patterns.min_maj7),
    ("dim7", chord_patterns.dim7),
    ("m7b5", chord_patterns.half_dim7),
    ("aug7", chord_patterns.aug7),
    ("maj7#5", chord_patterns.aug_maj7),
    ("7sus4", chord_patterns.dom7sus4),
    ("7b5", chord_patterns.dom7_flat5),
    ("", chord_patterns.major_triad),
    ("m", chord_patterns.minor_triad),
    ("dim", chord_patterns.diminished_triad),
    ("aug", chord_patterns.augmented_triad),
    ("sus2", chord_patterns.sus2),
    ("sus4", chord_patterns.sus4),
    ("5", chord_patterns.power_chord) ]

/-- The table `detail::chord_db`. -/
def chord_db : List chord_info :=
  chord_catalog.map (fun e => make_chord_info e.1 e.2)

/-! ## chords.hpp: matcher -/

structure match_result where
  info : chord_info
  omissions : List String
deriving DecidableEq, Repr

/-- The omission-tolerant test of `find_matches` for one catalog entry
(the body of the second loop). -/
def omission_match (input_pcs input_count : Nat) (info : chord_info) : Option match_result :=
  if info.tone_count ≤ input_count then none
  else if (input_pcs &&& info.pitch_class_set) ≠ input_pcs then none
  else
    let omitted_bits := (info.pitch_class_set &&& (input_pcs ^^^ 65535)) % 65536
    let omitted_count := popcount omitted_bits
    if omitted_count > 2 then none
    else if omitted_bits &&& 1 ≠ 0 then none
    else
      let omissions :=
        ((info.interval_semitones.take (min info.tone_count 7)).filter
          (fun (semi : Int) => decide (semi ≥ 0) && (omitted_bits &&& (1 <<< semi.toNat) != 0))).map
          semitone_to_omission_name
      if omissions.length = omitted_count then some ⟨info, omissions⟩ else none

/-- The source function `detail::find_matches`. -/
def find_matches (input_pcs input_count : Nat) : List match_result :=
  let results := (chord_db.filter (fun info => input_pcs == info.pitch_class_set)).map
    (fun info => (⟨info, []⟩ : match_result))
  if ¬ results.isEmpty then results
  else if input_pcs &&& 1 = 0 then results
  else chord_db.filterMap (omission_match input_pcs input_count)

structure chord_analysis where
  root : note
  quality : String
  bass : Option note
  inversion : Int
  omissions : List String
deriving DecidableEq, Repr

/-- The source function `detail::build_analysis`. -/
def build_analysis (root_note : note) (m : match_result) (lowest : note) : chord_analysis :=
  let root_pitch := root_note.get_pitch
  if root_pitch ≠ lowest.get_pitch then
    let bass_semi := wrap8 ((lowest.get_pitch - root_pitch + 12).tmod 12)
    ⟨root_note.simplify, m.info.name, some lowest, detect_inversion bass_semi m.info, m.omissions⟩
  else
    ⟨root_note.simplify, m.info.name, none, 0, m.omissions⟩

/-- The lambda `build_pcs` of `analyze_all` (and the loop of `analyze_with_root`):
the pitch-class set of the notes relative to `root_pitch`. -/
def build_pcs (notes : List note) (root_pitch : Int) : Nat :=
  notes.foldl
    (fun set n => (set ||| (1 <<< ((n.get_pitch - root_pitch + 12).tmod 12).toNat)) % 65536) 0

/-- Ordering of the notes by ascending absolute pitch. -/
def midi_le (a b : note) : Prop := a.get_midi_pitch ≤ b.get_midi_pitch

instance : DecidableRel midi_le := fun a b => by
  unfold midi_le; infer_instance

/-- The notes in the order `notes[order[0]], notes[order[1]], ...` of
`analyze_all`, where `order` is the index array sorted by `get_midi_pitch`.
`std::ranges::sort` leaves the order of notes of equal pitch unspecified; the
embedding keeps them in input order. -/
def sorted_notes (notes : List note) : List note := notes.insertionSort midi_le

/-- The candidate-root loop of `analyze_all`: walks the sorted notes, skips a
pitch class already in `tried`, and appends the analyses of every match. -/
def candidate_loop (notes : List note) (input_count : Nat) (lowest : note) :
    List note → Nat → List chord_analysis
  | [], _ => []
  | n :: rest, tried =>
    let pc := n.get_pitch
    if tried &&& (1 <<< pc.toNat) ≠ 0 then
      candidate_loop notes input_count lowest rest tried
    else
      (find_matches (build_pcs notes pc) input_count).map (fun m => build_analysis n m lowest)
        ++ candidate_loop notes input_count lowest rest ((tried ||| (1 <<< pc.toNat)) % 65536)

/-- The comparator of the final `stable_sort` of `analyze_all`; `size()` of a
`std::string` is its length in bytes. -/
def analysis_less (a b : chord_analysis) : Bool :=
  if a.omissions.length ≠ b.omissions.length then a.omissions.length < b.omissions.length
  else if a.inversion ≠ b.inversion then a.inversion < b.inversion
  else a.quality.utf8ByteSize < b.quality.utf8ByteSize

/-- The order `a` may stand before `b` after the stable sort: `b` is not less than `a`. -/
def analysis_le (a b : chord_analysis) : Prop := analysis_less b a = false

instance : DecidableRel analysis_le := fun a b => by
  unfold analysis_le; infer_instance

/-- The interpretations of `analyze_all` in generation order, before ranking.
The source indexes `order[0]`, which does not exist for an empty note array;
the embedding gives the empty list there. -/
def generated (notes : List note) : List chord_analysis :=
  match sorted_notes notes with
  | [] => []
  | lowest :: rest =>
    let input_count := popcount (build_pcs notes lowest.get_pitch)
    candidate_loop notes input_count lowest (lowest :: rest) 0

/-- The source function `detail::analyze_all` (`chord_instance::analyze()`). -/
def analyze_all (notes : List note) : List chord_analysis :=
  (generated notes).insertionSort analysis_le

/-- The first note of minimum absolute pitch (`std::ranges::min_element`). -/
def min_element : List note → Option note
  | [] => none
  | n :: rest =>
    some (rest.foldl (fun best x => if x.get_midi_pitch < best.get_midi_pitch then x else best) n)

/-- The source function `detail::analyze_with_root`
(`chord_instance::analyze(root)`). The source dereferences the minimum of the
notes, which does not exist for an empty array; the embedding gives `none`. -/
def analyze_with_root (notes : List note) (root : note) : Option chord_analysis :=
  let set := build_pcs notes root.get_pitch
  match min_element notes with
  | none => none
  | some lowest =>
    let input_count := popcount set
    match find_matches set input_count with
    | m :: _ => some (build_analysis root m lowest)
    | [] => none

/-! ## chords.hpp: degree mapper -/

/-- The source test `std::string::starts_with`. -/
def starts_with (s pre : String) : Bool := pre.data.isPrefixOf s.data

/-- The source call `std::string::substr(k)`: the text without its first `k` characters. -/
def substr_from (s : String) (k : Nat) : String := String.mk (s.data.drop k)

/-- The omission labels joined by commas (the loops of `chord_analysis::str`
and `make_degree_analysis`). -/
def join_commas : List String → String
  | [] => ""
  | [x] => x
  | x :: y :: rest => x ++ "," ++ join_commas (y :: rest)

/-- The parenthesized omission list, empty text when there is no omission. -/
def omission_text (omissions : List String) : String :=
  if omissions.isEmpty then "" else "(" ++ join_commas omissions ++ ")"

/-- The source member `chord_analysis::str`. -/
def chord_analysis.str (a : chord_analysis) : String :=
  let result := a.root.simplify.pitch_name ++ a.quality ++ omission_text a.omissions
  match a.bass with
  | some b => result ++ "/" ++ b.simplify.pitch_name
  | none => result

/-- An `analysis_result` is the list of its interpretations. -/
abbrev analysis_result := List chord_analysis

/-- The texts joined by `" | "` (the loop of `analysis_result::str`). -/
def join_bars : List String → String
  | [] => ""
  | [x] => x
  | x :: y :: rest => x ++ " | " ++ join_bars (y :: rest)

/-- The source member `analysis_result::str`. -/
def analysis_result.str (r : analysis_result) : String :=
  if r.isEmpty then "?" else join_bars (r.map chord_analysis.str)

structure degree_analysis where
  chord : chord_analysis
  deg : degree
  roman_numeral : String
deriving DecidableEq, Repr

def roman_upper : List String := ["I", "II", "III", "IV", "V", "VI", "VII"]
def roman_lower : List String := ["i", "ii", "iii", "iv", "v", "vi", "vii"]

/-- The source function `detail::is_major_quality`. -/
def is_major_quality (quality : String) : Bool :=
  if quality.data.isEmpty then true
  else if starts_with quality "maj" then true
  else if quality.data.head? = some 'm' then false
  else if starts_with quality "dim" then false
  else true

/-- The source function `detail::roman_quality_suffix`. -/
def roman_quality_suffix (quality : String) : String :=
  if quality.data.isEmpty then ""
  else if quality = "m" then ""
  else if quality = "dim" then "°"
  else if quality = "aug" then "+"
  else if quality = "m7b5" then "ø7"
  else if quality = "dim7" then "°7"
  else if starts_with quality "maj" then quality
  else if starts_with quality "m(" then substr_from quality 1
  else if quality.data.head? = some 'm' then substr_from quality 1
  else if starts_with quality "aug" then "+" ++ substr_from quality 3
  else quality

/-- First loop of `make_degree_analysis`: the first scale index from `i` on
whose note has pitch class `root_pitch`. -/
def exact_search (root_pitch : Int) : List note → Nat → Option Nat
  | [], _ => none
  | n :: rest, i =>
    if n.get_pitch = root_pitch then some i else exact_search root_pitch rest (i + 1)

/-- Second loop of `make_degree_analysis`: the first scale index from `i` on
whose note lies one semitone below (`+1`) or above (`-1`) the root. -/
def chromatic_search (root_pitch : Int) : List note → Nat → Option (Nat × Int)
  | [], _ => none
  | n :: rest, i =>
    let diff := (root_pitch - n.get_pitch + 12).tmod 12
    if diff = 1 then some (i, 1)
    else if diff = 11 then some (i, -1)
    else chromatic_search root_pitch rest (i + 1)

/-- The pair `(deg_idx, chromatic_offset)` after the two search loops of
`make_degree_analysis`; `deg_idx = -1` when neither loop finds a position. -/
def degree_search (root_pitch : Int) (scale_notes : List note) : Int × Int :=
  match exact_search root_pitch scale_notes 0 with
  | some i => ((i : Int), 0)
  | none =>
    match chromatic_search root_pitch scale_notes 0 with
    | some (i, off) => ((i : Int), off)
    | none => (-1, 0)

/-- The source function `detail::make_degree_analysis`. -/
def make_degree_analysis (ca : chord_analysis) (scale_notes : List note) : degree_analysis :=
  let root_pitch := ca.root.simplify.get_pitch
  let found := degree_search root_pitch scale_notes
  let deg_idx := found.1
  let chromatic_offset := found.2
  if deg_idx ≥ 0 ∧ deg_idx < (scale_notes.length : Int) then
    let deg : degree := ⟨deg_idx + 1, chromatic_offset⟩
    let roman_idx := (deg_idx.tmod 7).toNat
    let numeral :=
      if roman_idx < 7 then
        if is_major_quality ca.quality then roman_upper.getD roman_idx ""
        else roman_lower.getD roman_idx ""
      else "?"
    ⟨ca, deg, deg.prefix_of ++ numeral ++ roman_quality_suffix ca.quality
      ++ omission_text ca.omissions⟩
  else
    ⟨ca, ⟨0, 0⟩, ca.str⟩

/-- The source function `detail::analyze_in_key` (`chord_instance::analyze(key)`). -/
def analyze_in_key (notes scale_notes : List note) : List degree_analysis :=
  (analyze_all notes).map (fun ca => make_degree_analysis ca scale_notes)

/-- The source function `detail::analyze_in_key_with_root`. -/
def analyze_in_key_with_root (notes : List note) (root : note) (scale_notes : List note) :
    Option degree_analysis :=
  match analyze_with_root notes root with
  | none => none
  | some ca => some (make_degree_analysis ca scale_notes)

/-! ## scales.hpp -/

/-- A `scale_pattern<N>` is the list of its `N` intervals. -/
abbrev scale_pattern := List interval

structure scale_instance where
  root : note
  notes : List note
deriving DecidableEq, Repr

/-- The source operator `operator+(note, scale_pattern)`. -/
def scale_of (root : note) (pattern : scale_pattern) : scale_instance :=
  ⟨root, pattern.map (fun iv => root.add iv)⟩

/-- The source member `scale_pattern::mode<M>`: the pattern rotated to start
at position `M` and measured from that interval, an interval that descends
raised by an octave. `M < N` is checked by the source at compile time; the
embedding reads the unison for a position outside the pattern. -/
def scale_pattern.mode (p : scale_pattern) (M : Nat) : scale_pattern :=
  let offset := p.getD M ⟨0, 0⟩
  (List.range p.length).map (fun i =>
    let iv := (p.getD ((i + M) % p.length) ⟨0, 0⟩).sub offset
    if iv.fifths * 4 + iv.octaves * 7 < 0 then iv.add intervals.P8 else iv)

namespace scale_patterns
open intervals

def major : scale_pattern := [P1, M2, M3, P4, P5, M6, M7]
def dorian : scale_pattern := major.mode 1
def phrygian : scale_pattern := major.mode 2
def lydian : scale_pattern := major.mode 3
def mixolydian : scale_pattern := major.mode 4
def natural_minor : scale_pattern := major.mode 5
def locrian : scale_pattern := major.mode 6

end scale_patterns

/-- The loops `while (cond(n)) n = n + P8;` of `scale_instance::chord_on`;
`none` when the fuel runs out before the condition fails. -/
def raise_while (cond : note → Bool) : Nat → note → Option note
  | 0, _ => none
  | fuel + 1, n => if cond n then raise_while cond fuel (n.add intervals.P8) else some n

/-- The tone loop of `scale_instance::chord_on` from tone `i` on, with `k`
tones still to place and `prev` the tone placed last. -/
def chord_on_loop (fuel : Nat) (s : scale_instance) (d : Nat) :
    Nat → Nat → Option note → Option (List note)
  | 0, _, _ => some []
  | k + 1, i, prev =>
    let n := s.notes.getD ((d + i * 2) % s.notes.length) ⟨0, 0⟩
    let cond : note → Bool := fun x =>
      match prev with
      | some p => decide (x.get_midi_pitch ≤ p.get_midi_pitch)
      | none => decide (x.get_midi_pitch < s.root.get_midi_pitch)
    match raise_while cond fuel n with
    | none => none
    | some x =>
      match chord_on_loop fuel s d k (i + 1) (some x) with
      | none => none
      | some rest => some (x :: rest)

/-- The source member `scale_instance::chord_on<Deg, Tones>`. A degree outside
`1..N` is rejected by the source at compile time; the embedding gives `none`,
as it does when a loop does not end within the fuel. -/
def scale_instance.chord_on (fuel : Nat) (s : scale_instance) (deg : degree) (tones : Nat) :
    Option (List note) :=
  if deg.num ≥ 1 ∧ deg.num ≤ (s.notes.length : Int) then
    chord_on_loop fuel s (deg.num - 1).toNat tones 0 none
  else none

namespace scale_patterns
open intervals

def chromatic : scale_pattern := [P1, m2, M2, m3, M3, P4, d5, P5, m6, M6, m7, M7]

end scale_patterns

/-! ## chords.hpp: slash chords -/

/-- The source member `chord_instance::contains_enharmonic`. -/
def contains_enharmonic (ch : chord_instance) (target : note) : Bool :=
  ch.any (fun n => n.is_enharmonic target)

structure slash_chord_instance where
  chord : chord_instance
  bass : note
deriving DecidableEq, Repr

deriving instance DecidableEq for Except

/-- The loop `for (auto &n : chord) while (n <= bass) n = n + P8;` of the
constructor; `none` when a `while` does not end within the fuel. -/
def raise_all (fuel : Nat) (bass : note) : List note → Option (List note)
  | [] => some []
  | n :: rest =>
    match raise_while (fun x => decide (x.get_midi_pitch ≤ bass.get_midi_pitch)) fuel n with
    | none => none
    | some x =>
      match raise_all fuel bass rest with
      | none => none
      | some r => some (x :: r)

/-- The text the constructor of `slash_chord_instance` throws. -/
def slash_violation : String := "slash chord bass must be lower than all chord tones"

/-- The constructor `slash_chord_instance::slash_chord_instance` (`chord / bass`):
`some (Except.ok s)` when it returns `s`, `some (Except.error msg)` when it
throws `msg`, `none` when a loop does not end within the fuel. The source calls
`chord.lowest()`, which dereferences the minimum of the tones and does not
exist for an empty chord; the embedding gives `none` there. -/
def slash_chord_instance.make (fuel : Nat) (ch : chord_instance) (bass_note : note) :
    Option (Except String slash_chord_instance) :=
  let corrected : Option chord_instance :=
    if contains_enharmonic ch bass_note then raise_all fuel bass_note ch else some ch
  match corrected with
  | none => none
  | some chord =>
    match min_element chord with
    | none => none
    | some low =>
      if bass_note.get_midi_pitch ≥ low.get_midi_pitch then some (Except.error slash_violation)
      else some (Except.ok ⟨chord, bass_note⟩)

/-- The source member `slash_chord_instance::all_notes`. -/
def slash_chord_instance.all_notes (s : slash_chord_instance) : List note :=
  s.bass :: s.chord

/-! ## Relations used to state the results -/

/-- No `std::int8_t` conversion wraps when the pattern `p` is added to `R`:
both coordinates and the absolute pitch of every resulting note are
representable. -/
def no_overflow (R : note) (p : List interval) : Prop :=
  ∀ iv ∈ p, fits8 (R.m_fifth + iv.fifths) ∧ fits8 (R.m_octave + iv.octaves) ∧
    fits8 ((R.m_fifth + iv.fifths) * 7 + (R.m_octave + iv.octaves) * 12 + 12)

instance (R : note) (p : List interval) : Decidable (no_overflow R p) := by
  unfold no_overflow; infer_instance

/-- The interpretation `b` is `a` moved along the note map `T`: same quality,
inversion and omissions, root pitch class shifted by `k`, bass mapped by `T`. -/
def analysis_shift (k : Int) (T : note → note) (a b : chord_analysis) : Prop :=
  b.quality = a.quality ∧ b.inversion = a.inversion ∧ b.omissions = a.omissions ∧
    b.root.get_pitch = (a.root.get_pitch + k) % 12 ∧ b.bass = a.bass.map T

/-- Transposition of a note by the coordinates of `R`. -/
def transpose_by (R : note) (n : note) : note := n.add ⟨R.m_fifth, R.m_octave⟩

/-- The analysis of the chord `R + Q.pattern` contains the root-position reading:
root of `R`'s pitch class, quality `Q`, no omission, inversion 0. -/
def root_position_found (R : note) (Q : String × chord_pattern) : Prop :=
  ∃ a ∈ analyze_all (chord_of R Q.2),
    a.root.get_pitch = R.get_pitch ∧ a.quality = Q.1 ∧ a.omissions = [] ∧ a.inversion = 0

instance (R : note) (Q : String × chord_pattern) : Decidable (root_position_found R Q) := by
  unfold root_position_found; infer_instance

/-- The analysis of the voicing `R + Q.pattern.inversion<M>()` contains the
reading with root of `R`'s pitch class, quality `Q`, inversion `M`, and as bass
the `M`-th pattern tone above `R`, which is the lowest sounding note. -/
def inversion_found (R : note) (Q : String × chord_pattern) (M : Nat) : Prop :=
  ∃ a ∈ analyze_all (chord_of R (Q.2.inversion M)),
    a.root.get_pitch = R.get_pitch ∧ a.quality = Q.1 ∧ a.inversion = (M : Int) ∧
    a.bass = some (R.add (Q.2.getD M intervals.P1)) ∧
    ∀ n ∈ chord_of R (Q.2.inversion M),
      (R.add (Q.2.getD M intervals.P1)).get_midi_pitch ≤ n.get_midi_pitch

instance (R : note) (Q : String × chord_pattern) (M : Nat) : Decidable (inversion_found R Q M) := by
  unfold inversion_found; infer_instance

/-- The analysis of `R + Q.pattern` without tone `t` contains a reading with
root of `R`'s pitch class and quality `Q` whose only omission is the label of
tone `t`'s semitone offset. -/
def omission_found (R : note) (Q : String × chord_pattern) (t : Nat) : Prop :=
  ∃ a ∈ analyze_all (chord_of R (Q.2.omit_at t)),
    a.root.get_pitch = R.get_pitch ∧ a.quality = Q.1 ∧
    a.omissions = [semitone_to_omission_name (Q.2.getD t intervals.P1).semitones]

instance (R : note) (Q : String × chord_pattern) (t : Nat) : Decidable (omission_found R Q t) := by
  unfold omission_found; infer_instance

/-- The pitch-class set of the pattern is the set of some catalog quality. -/
def is_catalog_set (p : chord_pattern) : Prop :=
  ∃ info ∈ chord_db, info.pitch_class_set = (make_chord_info "" p).pitch_class_set

instance (p : chord_pattern) : Decidable (is_catalog_set p) := by
  unfold is_catalog_set; infer_instance

/-- Number of pitch classes of the quality set that the input set lacks. -/
def missing_count (quality_pcs input_pcs : Nat) : Nat :=
  ((List.range 16).filter (fun i => quality_pcs.testBit i && !input_pcs.testBit i)).length

/-- The ranking tuple (number of omissions, inversion, size of the quality name). -/
def rank_key (a : chord_analysis) : Nat × Int × Nat :=
  (a.omissions.length, a.inversion, a.quality.utf8ByteSize)

/-- Lexicographic order on ranking tuples. -/
def key_le (x y : Nat × Int × Nat) : Prop :=
  x.1 < y.1 ∨ (x.1 = y.1 ∧ (x.2.1 < y.2.1 ∨ (x.2.1 = y.2.1 ∧ x.2.2 ≤ y.2.2)))

/-- The notes of a list that are the first of their pitch class, in list
order; `seen` holds the pitch classes met before. -/
def candidate_roots : List note → List Int → List note
  | [], _ => []
  | n :: rest, seen =>
    if n.get_pitch ∈ seen then candidate_roots rest seen
    else n :: candidate_roots rest (n.get_pitch :: seen)

/-- Generation order in words: for every candidate root, by ascending absolute
pitch, the analyses of its matches in the order `find_matches` returns them. -/
def generated_in_order (notes : List note) : List chord_analysis :=
  match sorted_notes notes with
  | [] => []
  | lowest :: rest =>
    (candidate_roots (lowest :: rest) []).flatMap (fun n =>
      (find_matches (build_pcs notes n.get_pitch)
        (popcount (build_pcs notes lowest.get_pitch))).map
        (fun m => build_analysis n m lowest))

/-- Degree and roman numeral that `make_degree_analysis` gives an interpretation. -/
def reading (scale_notes : List note) (a : chord_analysis) : degree × String :=
  ((make_degree_analysis a scale_notes).deg, (make_degree_analysis a scale_notes).roman_numeral)

/-- Degree and roman numeral of the first interpretation of
`K.chord_on<d, 3>().analyze(K)`; `none` when `chord_on` does not return within
the fuel or the analysis is empty. -/
def first_degree_reading (fuel : Nat) (K : scale_instance) (d : Int) : Option (degree × String) :=
  (K.chord_on fuel ⟨d, 0⟩ 3).bind (fun chord =>
    (analyze_in_key chord K.notes).head?.map (fun da => (da.deg, da.roman_numeral)))

/-- The roman numerals of the diatonic triads of a major key. -/
def major_numerals : List (Int × String) :=
  [(1, "I"), (2, "ii"), (3, "iii"), (4, "IV"), (5, "V"), (6, "vi"), (7, "vii°")]

/-- No `std::int8_t` conversion wraps for the notes of the major key on `R`
and for the same notes one octave higher. -/
def key_fits (R : note) : Prop :=
  no_overflow R scale_patterns.major ∧
    no_overflow R (scale_patterns.major.map (fun iv => iv.add intervals.P8))

instance (R : note) : Decidable (key_fits R) := by
  unfold key_fits; infer_instance

/-- The root's pitch class lies one semitone above the note's. -/
def semitone_above (root_pitch : Int) (n : note) : Prop := (root_pitch - n.get_pitch) % 12 = 1

/-- The root's pitch class lies one semitone below the note's. -/
def semitone_below (root_pitch : Int) (n : note) : Prop := (n.get_pitch - root_pitch) % 12 = 1

instance (root_pitch : Int) (n : note) : Decidable (semitone_above root_pitch n) := by
  unfold semitone_above; infer_instance

instance (root_pitch : Int) (n : note) : Decidable (semitone_below root_pitch n) := by
  unfold semitone_below; infer_instance

/-- The absolute ordinal pitch before its conversion to `std::int8_t`. -/
def note.raw_pitch (n : note) : Int := n.m_fifth * 7 + n.m_octave * 12 + 12

/-- Both coordinates and the absolute pitch of the note are representable. -/
def note.in_range (n : note) : Prop :=
  fits8 n.m_fifth ∧ fits8 n.m_octave ∧ fits8 n.raw_pitch

instance (n : note) : Decidable n.in_range := by
  unfold note.in_range; infer_instance

/-- Raising `n` octave by octave until it lies above `bass` never wraps: the
note is in range, and so are the octave coordinate and the absolute pitch
after each step taken. -/
def raise_fits (bass n : note) : Prop :=
  n.in_range ∧ ∀ k : Nat, n.raw_pitch + 12 * k ≤ bass.raw_pitch + 12 →
    fits8 (n.m_octave + k) ∧ fits8 (n.raw_pitch + 12 * k)

/-- No conversion wraps while `chord / bass` is constructed: bass and tones
are in range, and when the tones are raised (a tone is enharmonic to the
bass) every step stays in range. -/
def slash_fits (ch : chord_instance) (bass : note) : Prop :=
  bass.in_range ∧ (∀ n ∈ ch, n.in_range) ∧
    (contains_enharmonic ch bass = true → ∀ n ∈ ch, raise_fits bass n)

/-- The note `r` is `n` moved up by `k ≥ 0` whole octaves: same fifths
coordinate (spelling and pitch class), absolute pitch `12 k` higher. -/
def octave_shift (n r : note) : Prop :=
  ∃ k : Nat, r = ⟨n.m_fifth, n.m_octave + k⟩ ∧ r.get_pitch = n.get_pitch ∧
    r.get_midi_pitch = n.get_midi_pitch + 12 * k

/-- The note `r` is `n` moved up by the fewest whole octaves that put it
strictly above `bass`. -/
def raised_above (bass n r : note) : Prop :=
  ∃ k : Nat, r = ⟨n.m_fifth, n.m_octave + k⟩ ∧ r.get_pitch = n.get_pitch ∧
    r.get_midi_pitch = n.get_midi_pitch + 12 * k ∧
    bass.get_midi_pitch < r.get_midi_pitch ∧
    (k = 0 ∨ n.get_midi_pitch + 12 * ((k : Int) - 1) ≤ bass.get_midi_pitch)

/-- The rendering of an interpretation in words: pitch name of the simplified
root, quality name, the omission labels in parentheses joined by commas when
there is at least one, and a slash with the pitch name of the simplified bass
when there is one. -/
def chord_text (a : chord_analysis) : String :=
  a.root.simplify.pitch_name ++ a.quality
    ++ (if 1 ≤ a.omissions.length then "(" ++ ",".intercalate a.omissions ++ ")" else "")
    ++ (match a.bass with
        | some b => "/" ++ b.simplify.pitch_name
        | none => "")

/-- The pitch name in words: the letter at position `(fifths + 1) mod 7` of
F C G D A E B, followed by `⌊(fifths + 1) / 7⌋` sharps when that is positive
and as many flats as its absolute value when it is negative. -/
def pitch_name_text (n : note) : String :=
  ["F", "C", "G", "D", "A", "E", "B"].getD ((n.m_fifth + 1) % 7).toNat ""
    ++ (if 0 ≤ (n.m_fifth + 1) / 7
        then String.mk (List.replicate ((n.m_fifth + 1) / 7).toNat '#')
        else String.mk (List.replicate (-((n.m_fifth + 1) / 7)).toNat 'b'))

/-- The six omission labels. -/
def omission_labels : List String := ["no9", "no3", "no11", "no5", "no13", "no7"]

/-- The note `r` is `n` moved up by the fewest whole octaves that put its
absolute pitch strictly above `B`: same fifths coordinate (spelling and pitch
class), absolute pitch `12 k` higher. -/
def raised_past (B : Int) (n r : note) : Prop :=
  ∃ k : Nat, r = ⟨n.m_fifth, n.m_octave + k⟩ ∧ r.get_pitch = n.get_pitch ∧
    r.get_midi_pitch = n.get_midi_pitch + 12 * k ∧ B < r.get_midi_pitch ∧
    (k = 0 ∨ n.get_midi_pitch + 12 * ((k : Int) - 1) ≤ B)

/-- The tones are scale notes stacked in thirds from position `i` on: the first
is scale note `(d + 2 i) mod N` raised past `B`, and each further tone is the
scale note two steps on, raised past the tone before it. -/
def stacked_from (s : scale_instance) (d : Nat) : Nat → Int → List note → Prop
  | _, _, [] => True
  | i, B, r :: rest =>
    raised_past B (s.notes.getD ((d + i * 2) % s.notes.length) ⟨0, 0⟩) r ∧
      stacked_from s d (i + 1) r.get_midi_pitch rest

/-- The note `n` moved up, without any conversion, by the fewest whole octaves
that put its absolute ordinal pitch strictly above `B`. -/
def lift_past (B : Int) (n : note) : note :=
  ⟨n.m_fifth, n.m_octave + (if B < n.raw_pitch then 0 else (B - n.raw_pitch) / 12 + 1)⟩

/-- The stack of `k` tones from position `i` on as `chord_on` builds it when no
conversion wraps: scale note `(d + 2 i) mod N` lifted past `B`, then the
following tones, each lifted past the absolute ordinal pitch of the tone
before it. -/
def ideal_stack (s : scale_instance) (d : Nat) : Nat → Nat → Int → List note
  | 0, _, _ => []
  | k + 1, i, B =>
    lift_past B (s.notes.getD ((d + i * 2) % s.notes.length) ⟨0, 0⟩) ::
      ideal_stack s d k (i + 1)
        (lift_past B (s.notes.getD ((d + i * 2) % s.notes.length) ⟨0, 0⟩)).raw_pitch

/-- No conversion wraps while `chord_on` stacks `T` tones on position `d`: the
root's absolute pitch is representable, the scale notes the stack reads are in
range, and the absolute pitch of every tone of the stack is representable. -/
def stack_in_range (s : scale_instance) (d T : Nat) : Prop :=
  fits8 s.root.raw_pitch ∧
    (∀ i < T, (s.notes.getD ((d + i * 2) % s.notes.length) ⟨0, 0⟩).in_range) ∧
    ∀ r ∈ ideal_stack s d T 0 (s.root.raw_pitch - 1), fits8 r.raw_pitch

instance (s : scale_instance) (d T : Nat) : Decidable (stack_in_range s d T) := by
  unfold stack_in_range; infer_instance

/-- The tones of the pattern ascend within one octave: the sizes increase
strictly and the last tone is less than an octave above the first; and every
tone has `int8` coordinates that stay representable when it is raised by an
octave. -/
def ascends_within_octave (p : chord_pattern) : Prop :=
  p.Pairwise (fun a b => a.size < b.size) ∧ (∀ a ∈ p, ∀ b ∈ p, b.size < a.size + 12) ∧
    ∀ iv ∈ p, fits8 iv.fifths ∧ fits8 iv.octaves ∧ fits8 (iv.octaves + 1)

instance (p : chord_pattern) : Decidable (ascends_within_octave p) := by
  unfold ascends_within_octave; infer_instance

/-- The notes ascend strictly in absolute pitch. -/
def strictly_ascending (ch : chord_instance) : Prop :=
  ch.Pairwise (fun a b => a.get_midi_pitch < b.get_midi_pitch)

instance (ch : chord_instance) : Decidable (strictly_ascending ch) := by
  unfold strictly_ascending; infer_instance

/-- The two interpretations read the same chord: equal root, quality,
inversion and omissions, and basses of equal absolute pitch (both absent, or
both present). -/
def same_reading (a b : chord_analysis) : Prop :=
  b.root = a.root ∧ b.quality = a.quality ∧ b.inversion = a.inversion ∧
    b.omissions = a.omissions ∧
    b.bass.map note.get_midi_pitch = a.bass.map note.get_midi_pitch

/-- No conversion wraps when the notes are transposed by `iv`: every note has
a representable absolute pitch, and both coordinates and the absolute pitch of
every transposed note are representable. -/
def transposition_fits (ns : List note) (iv : interval) : Prop :=
  ∀ n ∈ ns, fits8 n.raw_pitch ∧ fits8 (n.m_fifth + iv.fifths) ∧
    fits8 (n.m_octave + iv.octaves) ∧
    fits8 ((n.m_fifth + iv.fifths) * 7 + (n.m_octave + iv.octaves) * 12 + 12)

instance (ns : List note) (iv : interval) : Decidable (transposition_fits ns iv) := by
  unfold transposition_fits; infer_instance

/-- The interpretation `b` is `a` transposed by `s` semitones: same quality,
inversion and omissions, root pitch class `s` higher modulo 12, and the bass
absent in both or present in both with pitch class `s` higher modulo 12. -/
def transposed_reading (s : Int) (a b : chord_analysis) : Prop :=
  b.quality = a.quality ∧ b.inversion = a.inversion ∧ b.omissions = a.omissions ∧
    b.root.get_pitch = (a.root.get_pitch + s) % 12 ∧
    b.bass.map note.get_pitch = (a.bass.map note.get_pitch).map (fun c => (c + s) % 12)

/-- Degree of a chord root in a major key, by the distance in semitones of the
root's pitch class above the key's: the seven scale degrees, and the five
pitch classes between them as the raised degree below. -/
def major_degrees : List degree :=
  [⟨1, 0⟩, ⟨1, 1⟩, ⟨2, 0⟩, ⟨2, 1⟩, ⟨3, 0⟩, ⟨4, 0⟩, ⟨4, 1⟩, ⟨5, 0⟩, ⟨5, 1⟩, ⟨6, 0⟩, ⟨6, 1⟩, ⟨7, 0⟩]

/-- The offset `note::simplify` adds to the fifths coordinate before it folds
it into a window of twelve. -/
def preference_offset (pref : accidental_preference) : Int :=
  if pref = accidental_preference.sharp then 1
  else if pref = accidental_preference.flat then 6
  else 5

/-! ## Arithmetic of the pitch model -/

theorem wrap8_of_fits {x : Int} (h : fits8 x) : wrap8 x = x := by
  unfold fits8 at h
  unfold wrap8
  omega

theorem wrap8_add_wrap8 (a b : Int) : wrap8 (wrap8 a + b) = wrap8 (a + b) := by
  unfold wrap8
  omega

theorem tmod_cases (a b : Int) (hb : 0 < b) :
    a.tmod b = if 0 ≤ a then a % b else -((-a) % b) := by
  split
  · exact Int.tmod_eq_emod ‹_› (le_of_lt hb)
  · rename_i h
    have h1 : (-a).tdiv b = (-a) / b := Int.tdiv_eq_ediv (by omega) (le_of_lt hb)
    have h2 : a.tdiv b = -((-a) / b) := by
      have := Int.neg_tdiv (-a) b
      rw [neg_neg] at this
      rw [this, h1]
    rw [Int.tmod_def, h2, Int.emod_def]
    ring

theorem tdiv_cases (a b : Int) (hb : 0 < b) :
    a.tdiv b = if 0 ≤ a then a / b else -((-a) / b) := by
  split
  · exact Int.tdiv_eq_ediv ‹_› (le_of_lt hb)
  · rename_i h
    have h1 : (-a).tdiv b = (-a) / b := Int.tdiv_eq_ediv (by omega) (le_of_lt hb)
    have := Int.neg_tdiv (-a) b
    rw [neg_neg] at this
    rw [this, h1]

theorem tmod12_spec (a : Int) :
    -11 ≤ a.tmod 12 ∧ a.tmod 12 ≤ 11 ∧ (a.tmod 12) % 12 = a % 12 := by
  rw [tmod_cases a 12 (by norm_num)]
  split <;> omega

/-- The two-step reduction `((x % 12) + 12) % 12` of the source, with its
conversions to `std::int8_t`, is the non-negative remainder. -/
theorem fold12_eq (a : Int) : wrap8 ((wrap8 (a.tmod 12) + 12).tmod 12) = a % 12 := by
  obtain ⟨h1, h2, h3⟩ := tmod12_spec a
  have hw : wrap8 (a.tmod 12) = a.tmod 12 := wrap8_of_fits ⟨by omega, by omega⟩
  rw [hw]
  have h4 : (a.tmod 12 + 12).tmod 12 = (a.tmod 12 + 12) % 12 :=
    Int.tmod_eq_emod (by omega) (by norm_num)
  rw [h4]
  have h5 : (a.tmod 12 + 12) % 12 = a % 12 := by omega
  rw [h5]
  exact wrap8_of_fits ⟨by omega, by omega⟩

theorem get_pitch_eq (n : note) : n.get_pitch = (n.m_fifth * 7) % 12 := by
  unfold note.get_pitch
  exact fold12_eq _

theorem get_pitch_range (n : note) : 0 ≤ n.get_pitch ∧ n.get_pitch < 12 := by
  rw [get_pitch_eq]
  omega

/-- The octave count `adjust` that `note::simplify` moves between the coordinates. -/
theorem simplify_fifth (n : note) (pref : accidental_preference) :
    ∃ q : Int, (n.simplify pref).m_fifth = n.m_fifth - q * 12 ∧
      -6 ≤ n.m_fifth - q * 12 ∧ n.m_fifth - q * 12 ≤ 10 := by
  unfold note.simplify
  simp only [tdiv_cases _ 12 (by norm_num)]
  generalize hoff : (if pref = accidental_preference.sharp then (1 : Int)
    else if pref = accidental_preference.flat then 6 else 5) = off
  have hoff2 : off = 1 ∨ off = 6 ∨ off = 5 := by
    cases pref <;> simp at hoff <;> omega
  generalize hq : (if n.m_fifth + off ≥ 0 then
      (if 0 ≤ n.m_fifth + off then (n.m_fifth + off) / 12 else -(-(n.m_fifth + off) / 12))
    else (if 0 ≤ n.m_fifth + off - 11 then (n.m_fifth + off - 11) / 12
      else -(-(n.m_fifth + off - 11) / 12))) = q
  have hb : -6 ≤ n.m_fifth - q * 12 ∧ n.m_fifth - q * 12 ≤ 10 := by
    split at hq <;> (try split at hq) <;> omega
  exact ⟨q, wrap8_of_fits ⟨by omega, by omega⟩, hb⟩

theorem simplify_pitch (n : note) (pref : accidental_preference) :
    (n.simplify pref).get_pitch = n.get_pitch := by
  obtain ⟨q, hq, _⟩ := simplify_fifth n pref
  rw [get_pitch_eq, get_pitch_eq, hq]
  omega

theorem get_midi_pitch_add (R : note) (iv : interval)
    (h : fits8 (R.m_fifth + iv.fifths) ∧ fits8 (R.m_octave + iv.octaves) ∧
      fits8 ((R.m_fifth + iv.fifths) * 7 + (R.m_octave + iv.octaves) * 12 + 12)) :
    (R.add iv).get_midi_pitch =
      (R.m_fifth + iv.fifths) * 7 + (R.m_octave + iv.octaves) * 12 + 12 := by
  unfold note.get_midi_pitch note.add
  simp only [wrap8_of_fits h.1, wrap8_of_fits h.2.1, wrap8_of_fits h.2.2]

theorem get_pitch_add (R : note) (iv : interval) (h : fits8 (R.m_fifth + iv.fifths)) :
    (R.add iv).get_pitch = ((R.m_fifth + iv.fifths) * 7) % 12 := by
  rw [get_pitch_eq]
  unfold note.add
  simp only [wrap8_of_fits h]

/-! ## Bit sets -/

theorem and_bit_ne_zero (x j : Nat) : x &&& (1 <<< j) ≠ 0 ↔ x.testBit j = true := by
  rw [Nat.one_shiftLeft]
  constructor
  · intro h
    by_contra hx
    apply h
    apply Nat.eq_of_testBit_eq
    intro i
    rw [Nat.testBit_and, Nat.testBit_two_pow, Nat.zero_testBit]
    by_cases hij : j = i
    · subst hij
      simp [hx]
    · simp [hij]
  · intro h h0
    have h1 : (x &&& 2 ^ j).testBit j = true := by
      rw [Nat.testBit_and, Nat.testBit_two_pow, h]
      simp
    rw [h0, Nat.zero_testBit] at h1
    exact Bool.false_ne_true h1

/-- Setting bit `k` of a 16-bit set: bit `j` is then set iff it was, or `j = k`. -/
theorem tried_update (t j k : Nat) (hj : j < 16) :
    ((t ||| (1 <<< k)) % 65536) &&& (1 <<< j) ≠ 0 ↔ (t &&& (1 <<< j) ≠ 0 ∨ j = k) := by
  rw [and_bit_ne_zero, and_bit_ne_zero]
  have h16 : (65536 : Nat) = 2 ^ 16 := by norm_num
  rw [h16, Nat.testBit_mod_two_pow, Nat.testBit_or, Nat.one_shiftLeft, Nat.testBit_two_pow]
  simp only [hj, decide_True, Bool.true_and, Bool.or_eq_true, decide_eq_true_eq]
  constructor
  · rintro (h | h)
    · exact Or.inl h
    · exact Or.inr h.symm
  · rintro (h | h)
    · exact Or.inl h
    · exact Or.inr h.symm

/-! ## Lists -/

theorem foldl_congr_mem {α β : Type} (f g : β → α → β) (l : List α) (b : β)
    (h : ∀ s, ∀ x ∈ l, f s x = g s x) : l.foldl f b = l.foldl g b := by
  induction l generalizing b with
  | nil => rfl
  | cons x xs ih =>
    simp only [List.foldl_cons]
    rw [h b x (List.mem_cons_self _ _)]
    exact ih _ (fun s y hy => h s y (List.mem_cons_of_mem _ hy))

theorem forall₂_map_same {α β γ : Type} (R : β → γ → Prop) (f : α → β) (g : α → γ)
    (l : List α) (h : ∀ x ∈ l, R (f x) (g x)) : List.Forall₂ R (l.map f) (l.map g) := by
  induction l with
  | nil => exact List.Forall₂.nil
  | cons x xs ih =>
    exact List.Forall₂.cons (h x (List.mem_cons_self _ _))
      (ih (fun y hy => h y (List.mem_cons_of_mem _ hy)))

theorem forall₂_append {α β : Type} (R : α → β → Prop) {l₁ l₂ : List α} {m₁ m₂ : List β}
    (h₁ : List.Forall₂ R l₁ m₁) (h₂ : List.Forall₂ R l₂ m₂) :
    List.Forall₂ R (l₁ ++ l₂) (m₁ ++ m₂) := by
  induction h₁ with
  | nil => exact h₂
  | cons hab _ ih => exact List.Forall₂.cons hab ih

theorem forall₂_mem_left {α β : Type} (R : α → β → Prop) {l : List α} {m : List β}
    (h : List.Forall₂ R l m) {a : α} (ha : a ∈ l) : ∃ b ∈ m, R a b := by
  induction h with
  | nil => cases ha
  | cons hab _ ih =>
    rcases List.mem_cons.mp ha with rfl | ha'
    · exact ⟨_, List.mem_cons_self _ _, hab⟩
    · obtain ⟨b, hb, hr⟩ := ih ha'
      exact ⟨b, List.mem_cons_of_mem _ hb, hr⟩

theorem forall₂_orderedInsert {α β : Type} (R : α → β → Prop)
    (r : α → α → Prop) (s : β → β → Prop) [DecidableRel r] [DecidableRel s]
    (hk : ∀ a b x y, R a x → R b y → (r a b ↔ s x y))
    {a : α} {x : β} (hax : R a x) {l : List α} {m : List β} (h : List.Forall₂ R l m) :
    List.Forall₂ R (l.orderedInsert r a) (m.orderedInsert s x) := by
  induction h with
  | nil => exact List.Forall₂.cons hax List.Forall₂.nil
  | @cons b y l' m' hby hrest ih =>
    simp only [List.orderedInsert]
    by_cases hr : r a b
    · rw [if_pos hr, if_pos ((hk a b x y hax hby).mp hr)]
      exact List.Forall₂.cons hax (List.Forall₂.cons hby hrest)
    · rw [if_neg hr, if_neg (fun hs => hr ((hk a b x y hax hby).mpr hs))]
      exact List.Forall₂.cons hby ih

theorem forall₂_insertionSort {α β : Type} (R : α → β → Prop)
    (r : α → α → Prop) (s : β → β → Prop) [DecidableRel r] [DecidableRel s]
    (hk : ∀ a b x y, R a x → R b y → (r a b ↔ s x y))
    {l : List α} {m : List β} (h : List.Forall₂ R l m) :
    List.Forall₂ R (l.insertionSort r) (m.insertionSort s) := by
  induction h with
  | nil => exact List.Forall₂.nil
  | cons hab _ ih =>
    simp only [List.insertionSort]
    exact forall₂_orderedInsert R r s hk hab ih

/-! ## Transposition invariance of the matcher -/

theorem rel_pitch_shift (a r k : Int) (ha : 0 ≤ a ∧ a < 12) (hr : 0 ≤ r ∧ r < 12) :
    ((a + k) % 12 - (r + k) % 12 + 12).tmod 12 = (a - r + 12).tmod 12 := by
  rw [Int.tmod_eq_emod (by omega) (by norm_num), Int.tmod_eq_emod (by omega) (by norm_num)]
  omega

theorem pitch_shift_inj (a r k : Int) (ha : 0 ≤ a ∧ a < 12) (hr : 0 ≤ r ∧ r < 12) :
    (a + k) % 12 = (r + k) % 12 ↔ a = r := by
  omega

theorem build_pcs_map (ns : List note) (T : note → note) (k r : Int)
    (hp : ∀ n ∈ ns, (T n).get_pitch = (n.get_pitch + k) % 12)
    (hr : 0 ≤ r ∧ r < 12) :
    build_pcs (ns.map T) ((r + k) % 12) = build_pcs ns r := by
  unfold build_pcs
  rw [List.foldl_map]
  apply foldl_congr_mem
  intro s n hn
  rw [hp n hn, rel_pitch_shift _ _ _ (get_pitch_range n) hr]

theorem build_analysis_shift (T : note → note) (k : Int) (n low : note) (m : match_result)
    (hn : (T n).get_pitch = (n.get_pitch + k) % 12)
    (hl : (T low).get_pitch = (low.get_pitch + k) % 12) :
    analysis_shift k T (build_analysis n m low) (build_analysis (T n) m (T low)) := by
  have hiff := pitch_shift_inj n.get_pitch low.get_pitch k (get_pitch_range n)
    (get_pitch_range low)
  unfold build_analysis analysis_shift
  by_cases hc : n.get_pitch = low.get_pitch
  · have hc' : (T n).get_pitch = (T low).get_pitch := by rw [hn, hl]; exact hiff.mpr hc
    simp only [hc, hc', ne_eq, not_true_eq_false, if_false, simplify_pitch, Option.map_none',
      and_self, true_and]
    rw [← hc', hn, hc]
    exact ⟨rfl, trivial⟩
  · have hc' : ¬ (T n).get_pitch = (T low).get_pitch := by
      rw [hn, hl]; exact fun h => hc (hiff.mp h)
    simp only [hc, hc', ne_eq, not_false_eq_true, if_true, simplify_pitch, Option.map_some',
      and_true, true_and]
    refine ⟨?_, hn⟩
    rw [hl, hn, rel_pitch_shift _ _ _ (get_pitch_range low) (get_pitch_range n)]

theorem candidate_loop_transpose (ns : List note) (T : note → note) (k : Int) (cnt : Nat)
    (low : note) (hp : ∀ n ∈ ns, (T n).get_pitch = (n.get_pitch + k) % 12)
    (hlow : low ∈ ns) :
    ∀ (l : List note), (∀ n ∈ l, n ∈ ns) → ∀ tried tried' : Nat,
      (∀ n ∈ l, (tried' &&& (1 <<< (T n).get_pitch.toNat) ≠ 0 ↔
        tried &&& (1 <<< n.get_pitch.toNat) ≠ 0)) →
      List.Forall₂ (analysis_shift k T) (candidate_loop ns cnt low l tried)
        (candidate_loop (ns.map T) cnt (T low) (l.map T) tried') := by
  intro l
  induction l with
  | nil => intro _ _ _ _; exact List.Forall₂.nil
  | cons n rest ih =>
    intro hsub tried tried' hinv
    have hn : n ∈ ns := hsub n (List.mem_cons_self _ _)
    have hrest : ∀ x ∈ rest, x ∈ ns := fun x hx => hsub x (List.mem_cons_of_mem _ hx)
    simp only [candidate_loop, List.map]
    by_cases ht : tried &&& (1 <<< n.get_pitch.toNat) ≠ 0
    · rw [if_pos ht, if_pos ((hinv n (List.mem_cons_self _ _)).mpr ht)]
      exact ih hrest tried tried' (fun x hx => hinv x (List.mem_cons_of_mem _ hx))
    · rw [if_neg ht, if_neg (fun h => ht ((hinv n (List.mem_cons_self _ _)).mp h))]
      apply forall₂_append
      · have hpcs : build_pcs (ns.map T) (T n).get_pitch = build_pcs ns n.get_pitch := by
          rw [hp n hn]
          exact build_pcs_map ns T k _ hp (get_pitch_range n)
        rw [hpcs]
        apply forall₂_map_same
        intro m _
        exact build_analysis_shift T k n low m (hp n hn) (hp low (hlow))
      · apply ih hrest
        intro x hx
        have hxr := get_pitch_range x
        have hTxr := get_pitch_range (T x)
        have hnr := get_pitch_range n
        have hTnr := get_pitch_range (T n)
        rw [tried_update _ _ _ (by omega), tried_update _ _ _ (by omega)]
        have h1 := hinv x (List.mem_cons_of_mem _ hx)
        have h2 := pitch_shift_inj x.get_pitch n.get_pitch k hxr hnr
        rw [← hp x (hrest x hx), ← hp n hn] at h2
        constructor
        · rintro (h | h)
          · exact Or.inl (h1.mp h)
          · right
            have : (T x).get_pitch = (T n).get_pitch := by omega
            have := h2.mp this
            omega
        · rintro (h | h)
          · exact Or.inl (h1.mpr h)
          · right
            have : x.get_pitch = n.get_pitch := by omega
            have := h2.mpr this
            omega

theorem analysis_le_shift (k : Int) (T : note → note) (a b x y : chord_analysis)
    (hax : analysis_shift k T a x) (hby : analysis_shift k T b y) :
    analysis_le a b ↔ analysis_le x y := by
  obtain ⟨q1, i1, o1, _, _⟩ := hax
  obtain ⟨q2, i2, o2, _, _⟩ := hby
  unfold analysis_le analysis_less
  rw [q1, i1, o1, q2, i2, o2]

/-- Transposition invariance: when a note map `T` shifts every absolute pitch of
the input by one constant and every pitch class by `k`, the ranked
interpretations of the mapped notes are those of the original notes, position
by position, up to `analysis_shift`. -/
theorem analyze_all_transpose (ns : List note) (T : note → note) (c k : Int)
    (hm : ∀ n ∈ ns, (T n).get_midi_pitch = n.get_midi_pitch + c)
    (hp : ∀ n ∈ ns, (T n).get_pitch = (n.get_pitch + k) % 12) :
    List.Forall₂ (analysis_shift k T) (analyze_all ns) (analyze_all (ns.map T)) := by
  unfold analyze_all
  apply forall₂_insertionSort _ _ _ (analysis_le_shift k T)
  have hsort : sorted_notes (ns.map T) = (sorted_notes ns).map T := by
    unfold sorted_notes
    symm
    apply List.map_insertionSort
    intro a ha b hb
    unfold midi_le
    rw [hm a ha, hm b hb]
    omega
  unfold generated
  rw [hsort]
  cases hs : sorted_notes ns with
  | nil => exact List.Forall₂.nil
  | cons low rest =>
    have hmem : ∀ n ∈ low :: rest, n ∈ ns := by
      intro n hn
      rw [← hs] at hn
      exact (List.mem_insertionSort midi_le).mp hn
    have hlow : low ∈ ns := hmem low (List.mem_cons_self _ _)
    have hcnt : build_pcs (ns.map T) (T low).get_pitch = build_pcs ns low.get_pitch := by
      rw [hp low hlow]
      exact build_pcs_map ns T k _ hp (get_pitch_range low)
    simp only [List.map_cons]
    rw [hcnt]
    have := candidate_loop_transpose ns T k (popcount (build_pcs ns low.get_pitch)) low hp hlow
      (low :: rest) hmem 0 0 (by intro n _; simp)
    simpa using this

/-! ## Chords built on an arbitrary root -/

theorem transpose_add_zero (R : note) (iv : interval) :
    transpose_by R ((⟨0, 0⟩ : note).add iv) = R.add iv := by
  unfold transpose_by note.add
  simp only [zero_add, wrap8_add_wrap8]
  rw [add_comm iv.fifths, add_comm iv.octaves]

theorem chord_of_transpose (R : note) (p : List interval) :
    chord_of R p = (chord_of ⟨0, 0⟩ p).map (transpose_by R) := by
  unfold chord_of
  rw [List.map_map]
  apply List.map_congr_left
  intro iv _
  exact (transpose_add_zero R iv).symm

theorem chord_shift_facts (R : note) (p : List interval)
    (h0 : no_overflow ⟨0, 0⟩ p) (hR : no_overflow R p) :
    ∀ n ∈ chord_of ⟨0, 0⟩ p,
      (transpose_by R n).get_midi_pitch = n.get_midi_pitch + (R.m_fifth * 7 + R.m_octave * 12) ∧
      (transpose_by R n).get_pitch = (n.get_pitch + R.get_pitch) % 12 := by
  intro n hn
  unfold chord_of at hn
  obtain ⟨iv, hiv, rfl⟩ := List.mem_map.mp hn
  rw [transpose_add_zero, get_midi_pitch_add R iv (hR iv hiv),
    get_midi_pitch_add ⟨0, 0⟩ iv (h0 iv hiv), get_pitch_add R iv (hR iv hiv).1,
    get_pitch_add ⟨0, 0⟩ iv (h0 iv hiv).1, get_pitch_eq R]
  dsimp only
  constructor
  · ring
  · omega

/-- The analysis of a chord on `R` is the analysis of the same pattern on the
origin note, shifted by `R`, provided no conversion wraps. -/
theorem chord_transpose (R : note) (p : List interval)
    (h0 : no_overflow ⟨0, 0⟩ p) (hR : no_overflow R p) :
    List.Forall₂ (analysis_shift R.get_pitch (transpose_by R))
      (analyze_all (chord_of ⟨0, 0⟩ p)) (analyze_all (chord_of R p)) := by
  rw [chord_of_transpose R p]
  exact analyze_all_transpose _ _ (R.m_fifth * 7 + R.m_octave * 12) _
    (fun n hn => (chord_shift_facts R p h0 hR n hn).1)
    (fun n hn => (chord_shift_facts R p h0 hR n hn).2)

theorem origin_pitch : (⟨0, 0⟩ : note).get_pitch = 0 := by decide

theorem shift_from_origin (R : note) : (0 + R.get_pitch) % 12 = R.get_pitch := by
  have := get_pitch_range R
  omega

/-! ## C1: every catalog chord is recognised in root position -/

set_option maxRecDepth 1000000 in
set_option maxHeartbeats 0 in
theorem catalog_root_position_at_origin :
    ∀ Q ∈ chord_catalog, no_overflow ⟨0, 0⟩ Q.2 ∧ root_position_found ⟨0, 0⟩ Q := by
  decide

/-- C1 (as stated, refuted): for the root C9 and the catalog quality "7" the
seventh Bb9 has absolute pitch 130, which wraps to -126 and becomes the lowest
note; the reading with root C and quality "7" then carries a bass and
inversion 3, so no root-position reading is returned. -/
theorem C1_counterexample :
    ("7", chord_patterns.dom7) ∈ chord_catalog ∧
      ¬ root_position_found (notes.C.at_octave 9) ("7", chord_patterns.dom7) := by
  decide

/-- C1 (amended): for every root `R` and every catalog quality `Q` such that no
coordinate and no absolute pitch of the chord `R + Q.pattern` overflows
`int8`, `analyze()` of that chord includes an interpretation whose root has
`R`'s pitch class, whose quality name is `Q`'s name, with zero omissions and
inversion 0. -/
theorem C1_catalog_chord_recognised (R : note) (Q : String × chord_pattern)
    (hQ : Q ∈ chord_catalog) (hR : no_overflow R Q.2) : root_position_found R Q := by
  obtain ⟨h0, a, ha, hroot, hq, ho, hi⟩ := catalog_root_position_at_origin Q hQ
  obtain ⟨b, hb, hab⟩ := forall₂_mem_left _ (chord_transpose R Q.2 h0 hR) ha
  obtain ⟨bq, bi, bo, br, _⟩ := hab
  refine ⟨b, hb, ?_, ?_, ?_, ?_⟩
  · rw [br, hroot, origin_pitch]
    exact shift_from_origin R
  · rw [bq, hq]
  · rw [bo, ho]
  · rw [bi, hi]

theorem C1_witness :
    root_position_found (notes.G.at_octave 4) ("7", chord_patterns.dom7) :=
  C1_catalog_chord_recognised (notes.G.at_octave 4) ("7", chord_patterns.dom7)
    (by decide) (by decide)

/-! ## C2: the dominant seventh on C -/

/-- C2: `analyze()` of the notes C4, E4, G4, Bb4 returns a non-empty list whose
first interpretation has root pitch class C, quality "7", no bass, no
omissions and inversion 0. -/
theorem C2_dominant_seventh_top_ranked :
    ∃ a rest,
      analyze_all [notes.C.at_octave 4, notes.E.at_octave 4, notes.G.at_octave 4,
        notes.Bb.at_octave 4] = a :: rest ∧
      a.root.get_pitch = notes.C.get_pitch ∧ a.quality = "7" ∧ a.bass = none ∧
      a.omissions = [] ∧ a.inversion = 0 := by
  refine ⟨⟨⟨0, 4⟩, "7", none, 0, []⟩, [], ?_, ?_, rfl, rfl, rfl, rfl⟩
  · decide
  · decide

/-! ## C3: inversions of the triads -/

set_option maxRecDepth 1000000 in
set_option maxHeartbeats 0 in
theorem triad_inversions_at_origin :
    ∀ Q ∈ chord_catalog, Q.2.length = 3 → ∀ M ∈ [1, 2],
      no_overflow ⟨0, 0⟩ (Q.2.inversion M) ∧ inversion_found ⟨0, 0⟩ Q M ∧
      (⟨0, 0⟩ : note).add (Q.2.getD M intervals.P1) ∈ chord_of ⟨0, 0⟩ (Q.2.inversion M) := by
  decide

/-- C3 (as stated, refuted): for the root C9 the first inversion of the major
triad is E9, G9, C10, and C10 has absolute pitch 132, which wraps to -124 and
becomes the lowest note; the reading with root C then has no bass and
inversion 0. -/
theorem C3_counterexample :
    ("", chord_patterns.major_triad) ∈ chord_catalog ∧
      ¬ inversion_found (notes.C.at_octave 9) ("", chord_patterns.major_triad) 1 := by
  decide

/-- C3 (amended): for every root `R`, every three-tone catalog quality `Q` and
`M` in {1, 2} such that no coordinate and no absolute pitch of the voicing
`R + Q.pattern.inversion<M>()` overflows `int8`, `analyze()` of the voicing
includes an interpretation with root pitch class `R`, quality name `Q.name`,
inversion `M` and bass equal to the lowest sounding note, the `M`-th pattern
tone; in particular E4, G4, C5 yields root C, quality "", bass E4, inversion 1. -/
theorem C3_inversion_round_trip :
    (∀ (R : note) (Q : String × chord_pattern), Q ∈ chord_catalog → Q.2.length = 3 →
      ∀ M : Nat, M = 1 ∨ M = 2 → no_overflow R (Q.2.inversion M) → inversion_found R Q M) ∧
    (∃ a ∈ analyze_all [notes.E.at_octave 4, notes.G.at_octave 4, notes.C.at_octave 5],
      a.root.get_pitch = notes.C.get_pitch ∧ a.quality = "" ∧
      a.bass = some (notes.E.at_octave 4) ∧ a.inversion = 1) := by
  constructor
  · intro R Q hQ hlen M hM hR
    have hM' : M ∈ [1, 2] := by
      rcases hM with rfl | rfl <;> simp
    obtain ⟨h0, ⟨a, ha, hroot, hq, hi, hbass, hlow⟩, hmem⟩ :=
      triad_inversions_at_origin Q hQ hlen M hM'
    obtain ⟨b, hb, hab⟩ := forall₂_mem_left _ (chord_transpose R _ h0 hR) ha
    obtain ⟨bq, bi, _, br, bb⟩ := hab
    have hfacts := chord_shift_facts R _ h0 hR
    refine ⟨b, hb, ?_, ?_, ?_, ?_, ?_⟩
    · rw [br, hroot, origin_pitch]
      exact shift_from_origin R
    · rw [bq, hq]
    · rw [bi, hi]
    · rw [bb, hbass, Option.map_some', transpose_add_zero]
    · intro n hn
      rw [chord_of_transpose] at hn
      obtain ⟨n0, hn0, rfl⟩ := List.mem_map.mp hn
      rw [← transpose_add_zero, (hfacts _ hmem).1, (hfacts _ hn0).1]
      have := hlow n0 hn0
      omega
  · decide

theorem C3_witness :
    inversion_found (notes.C.at_octave 4) ("", chord_patterns.major_triad) 2 :=
  C3_inversion_round_trip.1 (notes.C.at_octave 4) ("", chord_patterns.major_triad)
    (by decide) (by decide) 2 (Or.inr rfl) (by decide)

/-! ## C4: one omitted tone -/

set_option maxRecDepth 1000000 in
set_option maxHeartbeats 0 in
theorem single_omission_at_origin :
    ∀ Q ∈ chord_catalog, 4 ≤ Q.2.length → ∀ t ∈ List.range 7, 1 ≤ t → t < Q.2.length →
      ¬ is_catalog_set (Q.2.omit_at t) →
      no_overflow ⟨0, 0⟩ (Q.2.omit_at t) ∧ omission_found ⟨0, 0⟩ Q t := by
  decide

/-- C4 (as stated, refuted): the dominant seventh on C4 without its seventh is
the major triad C4, E4, G4, an exact catalog match, so omission matching is
skipped and no reading "7" is returned; and on the root `note(127, 0)` the
third of the chord has fifths coordinate 131, which wraps to -125 and lands
on the root's pitch class, so "7" is only found with two omissions. -/
theorem C4_counterexample :
    ("7", chord_patterns.dom7) ∈ chord_catalog ∧
      ¬ omission_found (notes.C.at_octave 4) ("7", chord_patterns.dom7) 3 ∧
      ¬ is_catalog_set (chord_patterns.dom7.omit_at 2) ∧
      ¬ omission_found ⟨127, 0⟩ ("7", chord_patterns.dom7) 2 := by
  decide

/-- C4 (amended): for every catalog quality `Q` with at least 4 tones, every
root `R` and every non-root tone `t` of `Q`'s pattern such that the remaining
tones do not themselves form the pitch-class set of a catalog quality and no
coordinate and no absolute pitch of the chord overflows `int8`, `analyze()` of
`R + Q.pattern` with `t` removed includes an interpretation with root pitch
class `R` and quality name `Q.name` that carries exactly one omission label,
the one the semitone-to-label table gives for `t`'s semitone offset. -/
theorem C4_single_omission (R : note) (Q : String × chord_pattern) (t : Nat)
    (hQ : Q ∈ chord_catalog) (hlen : 4 ≤ Q.2.length) (ht1 : 1 ≤ t) (ht : t < Q.2.length)
    (hex : ¬ is_catalog_set (Q.2.omit_at t)) (hR : no_overflow R (Q.2.omit_at t)) :
    omission_found R Q t := by
  have hlen7 : ∀ Q ∈ chord_catalog, Q.2.length ≤ 7 := by decide
  have ht7 : t ∈ List.range 7 := List.mem_range.mpr (lt_of_lt_of_le ht (hlen7 Q hQ))
  obtain ⟨h0, a, ha, hroot, hq, ho⟩ := single_omission_at_origin Q hQ hlen t ht7 ht1 ht hex
  obtain ⟨b, hb, hab⟩ := forall₂_mem_left _ (chord_transpose R _ h0 hR) ha
  obtain ⟨bq, _, bo, br, _⟩ := hab
  refine ⟨b, hb, ?_, ?_, ?_⟩
  · rw [br, hroot, origin_pitch]
    exact shift_from_origin R
  · rw [bq, hq]
  · rw [bo, ho]

theorem C4_witness :
    omission_found (notes.C.at_octave 4) ("7", chord_patterns.dom7) 2 :=
  C4_single_omission (notes.C.at_octave 4) ("7", chord_patterns.dom7) 2
    (by decide) (by decide) (by decide) (by decide) (by decide) (by decide)

/-! ## C5: at most two omissions -/

theorem popcount_omitted (q inp : Nat) :
    popcount ((q &&& (inp ^^^ 65535)) % 65536) = missing_count q inp := by
  unfold popcount missing_count
  congr 1
  apply List.filter_congr
  intro i hi
  have hi16 : i < 16 := List.mem_range.mp hi
  have h16 : (65536 : Nat) = 2 ^ 16 := by norm_num
  have h15 : (65535 : Nat) = 2 ^ 16 - 1 := by norm_num
  rw [h16, Nat.testBit_mod_two_pow, Nat.testBit_and, Nat.testBit_xor, h15,
    Nat.testBit_two_pow_sub_one]
  simp [hi16]

theorem missing_count_self (q : Nat) : missing_count q q = 0 := by
  unfold missing_count
  simp

theorem omission_match_sound (input_pcs input_count : Nat) (info : chord_info)
    (m : match_result) (h : omission_match input_pcs input_count info = some m) :
    m.info = info ∧ m.omissions.length ≤ 2 ∧
      m.omissions.length = missing_count info.pitch_class_set input_pcs := by
  unfold omission_match at h
  dsimp only at h
  simp only [popcount_omitted] at h
  split_ifs at h with h1 h2 h3 h4 h5
  cases h
  dsimp only
  exact ⟨rfl, by omega, h5⟩

theorem find_matches_sound (input_pcs input_count : Nat) (m : match_result)
    (h : m ∈ find_matches input_pcs input_count) :
    m.info ∈ chord_db ∧ m.omissions.length ≤ 2 ∧
      m.omissions.length = missing_count m.info.pitch_class_set input_pcs := by
  unfold find_matches at h
  have hexact : ∀ x ∈ (chord_db.filter (fun info => input_pcs == info.pitch_class_set)).map
      (fun info => (⟨info, []⟩ : match_result)),
      x.info ∈ chord_db ∧ x.omissions.length ≤ 2 ∧
        x.omissions.length = missing_count x.info.pitch_class_set input_pcs := by
    intro x hx
    obtain ⟨info, hinfo, rfl⟩ := List.mem_map.mp hx
    obtain ⟨hdb, heq⟩ := List.mem_filter.mp hinfo
    have heq' : input_pcs = info.pitch_class_set := by simpa using heq
    refine ⟨hdb, by simp, ?_⟩
    simp only [List.length_nil]
    rw [← heq', missing_count_self]
  dsimp only at h
  have hom : m ∈ chord_db.filterMap (omission_match input_pcs input_count) →
      m.info ∈ chord_db ∧ m.omissions.length ≤ 2 ∧
        m.omissions.length = missing_count m.info.pitch_class_set input_pcs := by
    intro h
    obtain ⟨info, hdb, hsome⟩ := List.mem_filterMap.mp h
    obtain ⟨hi, h2, h3⟩ := omission_match_sound _ _ _ _ hsome
    rw [hi]
    exact ⟨hdb, h2, h3⟩
  split_ifs at h
  all_goals first | exact hexact m h | exact hom h

theorem build_analysis_fields (n low : note) (m : match_result) :
    (build_analysis n m low).omissions = m.omissions ∧
      (build_analysis n m low).quality = m.info.name ∧
      (build_analysis n m low).root = n.simplify := by
  unfold build_analysis
  dsimp only
  split_ifs <;> exact ⟨rfl, rfl, rfl⟩

/-- Every interpretation the candidate loop produces is the analysis of a
match of `find_matches` for one of the notes walked. -/
theorem candidate_loop_sound (ns : List note) (cnt : Nat) (low : note) :
    ∀ (l : List note) (tried : Nat) (a : chord_analysis),
      a ∈ candidate_loop ns cnt low l tried →
      ∃ n ∈ l, ∃ m ∈ find_matches (build_pcs ns n.get_pitch) cnt, a = build_analysis n m low := by
  intro l
  induction l with
  | nil => intro _ a ha; cases ha
  | cons n rest ih =>
    intro tried a ha
    simp only [candidate_loop] at ha
    split_ifs at ha with ht
    · obtain ⟨x, hx, h⟩ := ih _ a ha
      exact ⟨x, List.mem_cons_of_mem _ hx, h⟩
    · rcases List.mem_append.mp ha with h | h
      · obtain ⟨m, hm, rfl⟩ := List.mem_map.mp h
        exact ⟨n, List.mem_cons_self _ _, m, hm, rfl⟩
      · obtain ⟨x, hx, h'⟩ := ih _ a h
        exact ⟨x, List.mem_cons_of_mem _ hx, h'⟩

theorem analyze_all_sound (ns : List note) (a : chord_analysis) (ha : a ∈ analyze_all ns) :
    ∃ low ∈ ns, ∃ n ∈ ns, ∃ m ∈ find_matches (build_pcs ns n.get_pitch)
      (popcount (build_pcs ns low.get_pitch)), a = build_analysis n m low := by
  unfold analyze_all at ha
  rw [List.mem_insertionSort] at ha
  unfold generated at ha
  have hmem : ∀ x ∈ sorted_notes ns, x ∈ ns := fun x hx =>
    (List.mem_insertionSort midi_le).mp hx
  cases hs : sorted_notes ns with
  | nil => rw [hs] at ha; cases ha
  | cons low rest =>
    rw [hs] at ha hmem
    obtain ⟨n, hn, m, hm, rfl⟩ := candidate_loop_sound ns _ low _ _ a ha
    exact ⟨low, hmem low (List.mem_cons_self _ _), n, hmem n hn, m, hm, rfl⟩

/-- C5: every match returned by `find_matches`, for every input set and tone
count, has at most two omission labels, as many as the quality has pitch
classes missing from the input; a quality with three or more missing pitch
classes is never returned; hence every interpretation of `analyze()` has at
most two omissions. -/
theorem C5_bounded_omission :
    (∀ (input_pcs input_count : Nat) (m : match_result),
      m ∈ find_matches input_pcs input_count →
      m.omissions.length ≤ 2 ∧
        m.omissions.length = missing_count m.info.pitch_class_set input_pcs) ∧
    (∀ (input_pcs input_count : Nat) (m : match_result),
      3 ≤ missing_count m.info.pitch_class_set input_pcs →
      m ∉ find_matches input_pcs input_count) ∧
    (∀ (notes : List note) (a : chord_analysis),
      a ∈ analyze_all notes → a.omissions.length ≤ 2) := by
  refine ⟨?_, ?_, ?_⟩
  · intro pcs cnt m hm
    exact (find_matches_sound pcs cnt m hm).2
  · intro pcs cnt m h3 hm
    have := (find_matches_sound pcs cnt m hm).2
    omega
  · intro ns a ha
    obtain ⟨low, _, n, _, m, hm, rfl⟩ := analyze_all_sound ns a ha
    rw [(build_analysis_fields n low m).1]
    exact (find_matches_sound _ _ m hm).2.1

/-! ## C6: ranking -/

theorem analysis_le_iff (a b : chord_analysis) :
    analysis_le a b ↔ key_le (rank_key a) (rank_key b) := by
  unfold analysis_le analysis_less key_le rank_key
  dsimp only
  split_ifs with h1 h2
  · simp only [decide_eq_false_iff_not, not_lt]
    constructor
    · intro h
      left
      omega
    · rintro (h | ⟨h, _⟩)
      · omega
      · exact absurd h.symm h1
  · simp only [decide_eq_false_iff_not, not_lt]
    have h1' : b.omissions.length = a.omissions.length := by
      by_contra hne
      exact h1 hne
    constructor
    · intro h
      right
      refine ⟨h1'.symm, Or.inl ?_⟩
      omega
    · rintro (h | ⟨_, h | ⟨h, _⟩⟩)
      · omega
      · omega
      · exact absurd h.symm h2
  · simp only [decide_eq_false_iff_not, not_lt]
    have h1' : b.omissions.length = a.omissions.length := by
      by_contra hne
      exact h1 hne
    have h2' : b.inversion = a.inversion := by
      by_contra hne
      exact h2 hne
    constructor
    · intro h
      exact Or.inr ⟨h1'.symm, Or.inr ⟨h2'.symm, h⟩⟩
    · rintro (h | ⟨_, h | ⟨_, h⟩⟩)
      · omega
      · omega
      · exact h

theorem key_le_total (x y : Nat × Int × Nat) : key_le x y ∨ key_le y x := by
  unfold key_le
  omega

theorem key_le_trans (x y z : Nat × Int × Nat) (h1 : key_le x y) (h2 : key_le y z) :
    key_le x z := by
  unfold key_le at *
  omega

theorem key_le_of_eq (x y : Nat × Int × Nat) (h : x = y) : key_le x y := by
  subst h
  unfold key_le
  omega

theorem analyze_all_sorted (ns : List note) :
    List.Pairwise (fun a b => key_le (rank_key a) (rank_key b)) (analyze_all ns) := by
  have htotal : IsTotal chord_analysis analysis_le :=
    ⟨fun a b => by
      rw [analysis_le_iff, analysis_le_iff]
      exact key_le_total _ _⟩
  have htrans : IsTrans chord_analysis analysis_le :=
    ⟨fun a b c hab hbc => by
      rw [analysis_le_iff] at *
      exact key_le_trans _ _ _ hab hbc⟩
  have hs := @List.sorted_insertionSort _ analysis_le _ htotal htrans (generated ns)
  exact List.Pairwise.imp (fun h => (analysis_le_iff _ _).mp h) hs

/-- Inserting into a list leaves the sublist of the elements satisfying `p`
in order, with the new element in front, when `p`-elements are `r`-related. -/
theorem filter_orderedInsert {α : Type} (r : α → α → Prop) [DecidableRel r] (p : α → Bool)
    (hp : ∀ a b, p a = true → p b = true → r a b) (a : α) (l : List α) :
    (l.orderedInsert r a).filter p = (a :: l).filter p := by
  induction l with
  | nil => rfl
  | cons b l ih =>
    simp only [List.orderedInsert]
    split_ifs with hr
    · rfl
    · have hab : ¬ (p a = true ∧ p b = true) := fun h => hr (hp a b h.1 h.2)
      rw [List.filter_cons (x := b), ih]
      by_cases ha : p a = true
      · have hb : p b = false := by
          cases hpb : p b
          · rfl
          · exact absurd ⟨ha, hpb⟩ hab
        simp [List.filter_cons, ha, hb]
      · have ha' : p a = false := by
          cases hpa : p a
          · rfl
          · exact absurd hpa ha
        simp [List.filter_cons, ha']

theorem filter_insertionSort {α : Type} (r : α → α → Prop) [DecidableRel r] (p : α → Bool)
    (hp : ∀ a b, p a = true → p b = true → r a b) (l : List α) :
    (l.insertionSort r).filter p = l.filter p := by
  induction l with
  | nil => rfl
  | cons a l ih =>
    simp only [List.insertionSort]
    rw [filter_orderedInsert r p hp, List.filter_cons, List.filter_cons, ih]

theorem analyze_all_stable (ns : List note) (κ : Nat × Int × Nat) :
    (analyze_all ns).filter (fun a => decide (rank_key a = κ)) =
      (generated ns).filter (fun a => decide (rank_key a = κ)) := by
  unfold analyze_all
  apply filter_insertionSort
  intro a b ha hb
  rw [analysis_le_iff]
  apply key_le_of_eq
  rw [of_decide_eq_true ha, of_decide_eq_true hb]

/-- The candidate loop with its `tried` bit mask visits exactly the notes that
are the first of their pitch class. -/
theorem candidate_loop_eq (ns : List note) (cnt : Nat) (low : note) :
    ∀ (l : List note) (tried : Nat) (seen : List Int),
      (∀ n ∈ l, (tried &&& (1 <<< n.get_pitch.toNat) ≠ 0 ↔ n.get_pitch ∈ seen)) →
      candidate_loop ns cnt low l tried =
        (candidate_roots l seen).flatMap (fun n =>
          (find_matches (build_pcs ns n.get_pitch) cnt).map
            (fun m => build_analysis n m low)) := by
  intro l
  induction l with
  | nil => intro _ _ _; rfl
  | cons n rest ih =>
    intro tried seen hinv
    simp only [candidate_loop, candidate_roots]
    have hn := hinv n (List.mem_cons_self _ _)
    by_cases ht : tried &&& (1 <<< n.get_pitch.toNat) ≠ 0
    · rw [if_pos ht, if_pos (hn.mp ht)]
      exact ih tried seen (fun x hx => hinv x (List.mem_cons_of_mem _ hx))
    · rw [if_neg ht, if_neg (fun h => ht (hn.mpr h)), List.flatMap_cons]
      congr 1
      apply ih
      intro x hx
      have hxr := get_pitch_range x
      have hnr := get_pitch_range n
      rw [tried_update _ _ _ (by omega), List.mem_cons,
        hinv x (List.mem_cons_of_mem _ hx)]
      constructor
      · rintro (h | h)
        · exact Or.inr h
        · left
          omega
      · rintro (h | h)
        · right
          omega
        · exact Or.inl h

theorem generated_eq (ns : List note) : generated ns = generated_in_order ns := by
  unfold generated generated_in_order
  cases sorted_notes ns with
  | nil => rfl
  | cons low rest =>
    dsimp only
    apply candidate_loop_eq
    intro n _
    simp

theorem sorted_notes_spec (ns : List note) :
    (sorted_notes ns).Pairwise midi_le ∧ (sorted_notes ns).Perm ns := by
  have htotal : IsTotal note midi_le := ⟨fun a b => by unfold midi_le; omega⟩
  have htrans : IsTrans note midi_le := ⟨fun a b c hab hbc => by unfold midi_le at *; omega⟩
  exact ⟨@List.sorted_insertionSort _ midi_le _ htotal htrans ns,
    List.perm_insertionSort midi_le ns⟩

theorem filterMap_info_sublist (f : chord_info → Option match_result)
    (hf : ∀ info m, f info = some m → m.info = info) (l : List chord_info) :
    ((l.filterMap f).map (fun m => m.info)).Sublist l := by
  induction l with
  | nil => exact List.Sublist.slnil
  | cons x xs ih =>
    cases hx : f x with
    | none =>
      rw [List.filterMap_cons_none hx]
      exact List.Sublist.cons _ ih
    | some m =>
      rw [List.filterMap_cons_some hx, List.map_cons, hf x m hx]
      exact List.Sublist.cons₂ _ ih

theorem find_matches_catalog_order (input_pcs input_count : Nat) :
    ((find_matches input_pcs input_count).map (fun m => m.info)).Sublist chord_db := by
  have hexact : (((chord_db.filter (fun info => input_pcs == info.pitch_class_set)).map
      (fun info => (⟨info, []⟩ : match_result))).map (fun m => m.info)).Sublist chord_db := by
    rw [List.map_map]
    have : ((fun m : match_result => m.info) ∘ fun info => (⟨info, []⟩ : match_result)) = id := by
      funext x
      rfl
    rw [this, List.map_id]
    exact List.filter_sublist _
  have hom : ((chord_db.filterMap (omission_match input_pcs input_count)).map
      (fun m => m.info)).Sublist chord_db :=
    filterMap_info_sublist _ (fun info m h => (omission_match_sound _ _ _ _ h).1) _
  unfold find_matches
  dsimp only
  split_ifs
  all_goals first | exact hexact | exact hom

/-- C6: for every input the list returned by `analyze()` is in non-decreasing
order of (number of omissions, inversion, size of the quality name);
interpretations with equal tuples keep their generation order; and the
generation order is: candidate roots (the notes that are the first of their
pitch class) by ascending absolute pitch, each with its matches in catalog
order. -/
theorem C6_ranked_stably (notes : List note) :
    List.Pairwise (fun a b => key_le (rank_key a) (rank_key b)) (analyze_all notes) ∧
    (∀ κ : Nat × Int × Nat,
      (analyze_all notes).filter (fun a => decide (rank_key a = κ)) =
        (generated_in_order notes).filter (fun a => decide (rank_key a = κ))) ∧
    (analyze_all notes).Perm (generated_in_order notes) ∧
    ((sorted_notes notes).Pairwise midi_le ∧ (sorted_notes notes).Perm notes) ∧
    (∀ input_pcs input_count : Nat,
      ((find_matches input_pcs input_count).map (fun m => m.info)).Sublist chord_db) := by
  refine ⟨analyze_all_sorted notes, ?_, ?_, sorted_notes_spec notes,
    find_matches_catalog_order⟩
  · intro κ
    rw [← generated_eq]
    exact analyze_all_stable notes κ
  · rw [← generated_eq]
    exact List.perm_insertionSort _ _

/-! ## C7: analysis with a fixed root -/

/-- C7 (the code at the failing input): for C4, E4, Bb4 and root C the
fixed-root analysis returns the first match in catalog order, "9" with the
two omissions no5 and no9, while sorting the matches by (omissions,
inversion, name size), as `analyze()` does, puts "7" with the single omission
no5 first. -/
theorem C7_fixed_root_is_first_catalog_match :
    analyze_with_root [notes.C.at_octave 4, notes.E.at_octave 4, notes.Bb.at_octave 4]
        (notes.C.at_octave 4) =
      some ⟨notes.C.at_octave 4, "9", none, 0, ["no5", "no9"]⟩ ∧
    (analyze_all [notes.C.at_octave 4, notes.E.at_octave 4, notes.Bb.at_octave 4]).head? =
      some ⟨notes.C.at_octave 4, "7", none, 0, ["no5"]⟩ := by
  decide

/-! ## C8: a root that does not sound -/

theorem build_pcs_even (ns : List note) (r : Int) (hr : 0 ≤ r ∧ r < 12)
    (h : ∀ n ∈ ns, n.get_pitch ≠ r) : build_pcs ns r % 2 = 0 := by
  unfold build_pcs
  have key : ∀ (l : List note) (acc : Nat), (∀ n ∈ l, n.get_pitch ≠ r) → acc % 2 = 0 →
      (l.foldl (fun set n =>
        (set ||| (1 <<< ((n.get_pitch - r + 12).tmod 12).toNat)) % 65536) acc) % 2 = 0 := by
    intro l
    induction l with
    | nil => intro acc _ hacc; exact hacc
    | cons n rest ih =>
      intro acc hl hacc
      simp only [List.foldl_cons]
      apply ih _ (fun x hx => hl x (List.mem_cons_of_mem _ hx))
      have hn := hl n (List.mem_cons_self _ _)
      have hnr := get_pitch_range n
      have hrel : (n.get_pitch - r + 12).tmod 12 = (n.get_pitch - r + 12) % 12 :=
        Int.tmod_eq_emod (by omega) (by norm_num)
      have hj : ((n.get_pitch - r + 12).tmod 12).toNat ≠ 0 := by
        rw [hrel]
        omega
      have hbit : (acc ||| (1 <<< ((n.get_pitch - r + 12).tmod 12).toNat)).testBit 0 = false := by
        rw [Nat.testBit_or, Nat.one_shiftLeft, Nat.testBit_two_pow, Nat.testBit_zero]
        simp [hacc, hj]
      rw [Nat.testBit_zero] at hbit
      have := of_decide_eq_false hbit
      omega
  exact key ns 0 h rfl

theorem catalog_sets_contain_root : ∀ info ∈ chord_db, info.pitch_class_set % 2 = 1 := by
  decide

/-- An input set without the root bit has no match at all. -/
theorem find_matches_without_root (input_pcs input_count : Nat) (h : input_pcs % 2 = 0) :
    find_matches input_pcs input_count = [] := by
  have hfilter : chord_db.filter (fun info => input_pcs == info.pitch_class_set) = [] := by
    rw [List.filter_eq_nil_iff]
    intro info hinfo heq
    have h1 := catalog_sets_contain_root info hinfo
    have h2 : input_pcs = info.pitch_class_set := by simpa using heq
    omega
  unfold find_matches
  dsimp only
  rw [hfilter]
  simp [Nat.and_one_is_mod, h]

/-- C8: for every note collection and every root whose pitch class is not the
pitch class of any of the notes, `analyze(notes, root)` returns an absent
value. -/
theorem C8_silent_root_gives_none (notes : List note) (root : note)
    (h : ∀ n ∈ notes, n.get_pitch ≠ root.get_pitch) : analyze_with_root notes root = none := by
  unfold analyze_with_root
  dsimp only
  cases min_element notes with
  | none => rfl
  | some low =>
    dsimp only
    rw [find_matches_without_root _ _ (build_pcs_even notes _ (get_pitch_range root) h)]

theorem C8_witness :
    analyze_with_root (chord_of (notes.C.at_octave 4) chord_patterns.major_triad) notes.Fs
      = none :=
  C8_silent_root_gives_none _ _ (by decide)

/-! ## Transposition invariance of the degree mapper -/

theorem exact_search_shift (T : note → note) (k p : Int) (hp : 0 ≤ p ∧ p < 12) :
    ∀ (l : List note) (i : Nat), (∀ n ∈ l, (T n).get_pitch = (n.get_pitch + k) % 12) →
      exact_search ((p + k) % 12) (l.map T) i = exact_search p l i := by
  intro l
  induction l with
  | nil => intro _ _; rfl
  | cons n rest ih =>
    intro i hl
    simp only [List.map_cons, exact_search]
    rw [hl n (List.mem_cons_self _ _), ih (i + 1) (fun x hx => hl x (List.mem_cons_of_mem _ hx))]
    have := pitch_shift_inj n.get_pitch p k (get_pitch_range n) hp
    by_cases hc : n.get_pitch = p
    · rw [if_pos hc, if_pos (this.mpr hc)]
    · rw [if_neg hc, if_neg (fun h => hc (this.mp h))]

theorem chromatic_search_shift (T : note → note) (k p : Int) (hp : 0 ≤ p ∧ p < 12) :
    ∀ (l : List note) (i : Nat), (∀ n ∈ l, (T n).get_pitch = (n.get_pitch + k) % 12) →
      chromatic_search ((p + k) % 12) (l.map T) i = chromatic_search p l i := by
  intro l
  induction l with
  | nil => intro _ _; rfl
  | cons n rest ih =>
    intro i hl
    simp only [List.map_cons, chromatic_search]
    rw [hl n (List.mem_cons_self _ _), ih (i + 1) (fun x hx => hl x (List.mem_cons_of_mem _ hx)),
      rel_pitch_shift p n.get_pitch k hp (get_pitch_range n)]

theorem degree_search_shift (T : note → note) (k p : Int) (hp : 0 ≤ p ∧ p < 12)
    (l : List note) (hl : ∀ n ∈ l, (T n).get_pitch = (n.get_pitch + k) % 12) :
    degree_search ((p + k) % 12) (l.map T) = degree_search p l := by
  unfold degree_search
  rw [exact_search_shift T k p hp l 0 hl, chromatic_search_shift T k p hp l 0 hl]

/-- A shifted interpretation gets, in the shifted scale, the same degree, and
the same roman numeral when the degree is resolved. -/
theorem reading_shift (T : note → note) (k : Int) (a b : chord_analysis)
    (hab : analysis_shift k T a b) (scale : List note)
    (hl : ∀ n ∈ scale, (T n).get_pitch = (n.get_pitch + k) % 12)
    (hres : (reading scale a).1.num ≠ 0) :
    reading (scale.map T) b = reading scale a := by
  obtain ⟨hq, _, ho, hr, _⟩ := hab
  have hroot : b.root.simplify.get_pitch = (a.root.simplify.get_pitch + k) % 12 := by
    rw [simplify_pitch, simplify_pitch, hr]
  have hsearch := degree_search_shift T k a.root.simplify.get_pitch
    (get_pitch_range _) scale hl
  unfold reading make_degree_analysis at *
  dsimp only at *
  rw [hroot, hsearch, List.length_map, hq, ho]
  by_cases hc : (degree_search a.root.simplify.get_pitch scale).1 ≥ 0 ∧
      (degree_search a.root.simplify.get_pitch scale).1 < (scale.length : Int)
  · rw [if_pos hc, if_pos hc]
  · rw [if_neg hc] at hres
    exact absurd rfl hres

theorem first_reading_transfer (R : note) (p : List interval)
    (h0 : no_overflow ⟨0, 0⟩ p) (hR : no_overflow R p)
    (hK : no_overflow R scale_patterns.major) (d : Int) (numeral : String) (hd : d ≠ 0)
    (hbase : (analyze_all (chord_of ⟨0, 0⟩ p)).head?.map
      (reading (chord_of ⟨0, 0⟩ scale_patterns.major)) = some (⟨d, 0⟩, numeral)) :
    (analyze_all (chord_of R p)).head?.map (reading (chord_of R scale_patterns.major)) =
      some (⟨d, 0⟩, numeral) := by
  have hK0 : no_overflow ⟨0, 0⟩ scale_patterns.major := by decide
  have htr := chord_transpose R p h0 hR
  cases ha : analyze_all (chord_of ⟨0, 0⟩ p) with
  | nil => rw [ha] at hbase; cases hbase
  | cons a0 rest0 =>
    rw [ha] at hbase htr
    cases hb : analyze_all (chord_of R p) with
    | nil => rw [hb] at htr; cases htr
    | cons b0 rest =>
      rw [hb] at htr
      have hab : analysis_shift R.get_pitch (transpose_by R) a0 b0 := by
        cases htr with
        | cons h _ => exact h
      simp only [List.head?_cons, Option.map_some', Option.some.injEq] at hbase ⊢
      rw [chord_of_transpose R scale_patterns.major,
        reading_shift (transpose_by R) R.get_pitch a0 b0 hab _
          (fun n hn => (chord_shift_facts R _ hK0 hK n hn).2) (by rw [hbase]; exact hd)]
      exact hbase

/-! ## C9: the diatonic triads of a major key -/

theorem note_add_add (R : note) (iv jv : interval) :
    (R.add iv).add jv = R.add (iv.add jv) := by
  unfold note.add interval.add
  dsimp only
  congr 1 <;> (unfold wrap8; omega)

theorem key_midi (R : note) (hR : key_fits R) (iv : interval) (hiv : iv ∈ scale_patterns.major) :
    (R.add iv).get_midi_pitch = (R.m_fifth * 7 + R.m_octave * 12 + 12) + iv.size ∧
    ((R.add iv).add intervals.P8).get_midi_pitch =
      (R.m_fifth * 7 + R.m_octave * 12 + 12) + iv.size + 12 := by
  constructor
  · rw [get_midi_pitch_add R iv (hR.1 iv hiv)]
    unfold interval.size
    ring
  · have hmem : iv.add intervals.P8 ∈ scale_patterns.major.map (fun iv => iv.add intervals.P8) :=
      List.mem_map.mpr ⟨iv, hiv, rfl⟩
    rw [note_add_add, get_midi_pitch_add R _ (hR.2 _ hmem)]
    have hsmall : (iv.add intervals.P8).fifths = iv.fifths ∧
        (iv.add intervals.P8).octaves = iv.octaves + 1 := by
      revert iv
      decide
    rw [hsmall.1, hsmall.2]
    unfold interval.size
    ring

theorem key_root_midi (R : note) (hR : key_fits R) :
    R.get_midi_pitch = R.m_fifth * 7 + R.m_octave * 12 + 12 := by
  have h := (hR.1 intervals.P1 (by decide)).2.2
  simp only [intervals.P1, add_zero] at h
  unfold note.get_midi_pitch
  exact wrap8_of_fits h

open intervals in
/-- The seven diatonic triads that `chord_on` builds in a major key whose notes
fit: each loop raises a tone by at most one octave. -/
theorem major_chord_on (R : note) (fuel : Nat) (hR : key_fits R) :
    (scale_of R scale_patterns.major).chord_on (fuel + 2) ⟨1, 0⟩ 3 =
      some [R.add P1, R.add M3, R.add P5] ∧
    (scale_of R scale_patterns.major).chord_on (fuel + 2) ⟨2, 0⟩ 3 =
      some [R.add M2, R.add P4, R.add M6] ∧
    (scale_of R scale_patterns.major).chord_on (fuel + 2) ⟨3, 0⟩ 3 =
      some [R.add M3, R.add P5, R.add M7] ∧
    (scale_of R scale_patterns.major).chord_on (fuel + 2) ⟨4, 0⟩ 3 =
      some [R.add P4, R.add M6, (R.add P1).add P8] ∧
    (scale_of R scale_patterns.major).chord_on (fuel + 2) ⟨5, 0⟩ 3 =
      some [R.add P5, R.add M7, (R.add M2).add P8] ∧
    (scale_of R scale_patterns.major).chord_on (fuel + 2) ⟨6, 0⟩ 3 =
      some [R.add M6, (R.add P1).add P8, (R.add M3).add P8] ∧
    (scale_of R scale_patterns.major).chord_on (fuel + 2) ⟨7, 0⟩ 3 =
      some [R.add M7, (R.add M2).add P8, (R.add P4).add P8] := by
  have k1 := key_midi R hR P1 (by decide)
  have k2 := key_midi R hR M2 (by decide)
  have k3 := key_midi R hR M3 (by decide)
  have k4 := key_midi R hR P4 (by decide)
  have k5 := key_midi R hR P5 (by decide)
  have k6 := key_midi R hR M6 (by decide)
  have k7 := key_midi R hR M7 (by decide)
  have hroot := key_root_midi R hR
  rw [show P1.size = 0 from rfl] at k1
  rw [show M2.size = 2 from rfl] at k2
  rw [show M3.size = 4 from rfl] at k3
  rw [show P4.size = 5 from rfl] at k4
  rw [show P5.size = 7 from rfl] at k5
  rw [show M6.size = 9 from rfl] at k6
  rw [show M7.size = 11 from rfl] at k7
  generalize R.m_fifth * 7 + R.m_octave * 12 + 12 = M at *
  norm_num [add_assoc] at k1 k2 k3 k4 k5 k6 k7
  refine ⟨?_, ?_, ?_, ?_, ?_, ?_, ?_⟩ <;>
    simp [scale_instance.chord_on, chord_on_loop, scale_of, scale_patterns.major, raise_while,
      k1, k2, k3, k4, k5, k6, k7, hroot]

theorem first_degree_reading_eq (fuel : Nat) (K : scale_instance) (d : Int) (chord : List note)
    (h : K.chord_on fuel ⟨d, 0⟩ 3 = some chord) :
    first_degree_reading fuel K d = (analyze_all chord).head?.map (reading K.notes) := by
  unfold first_degree_reading analyze_in_key
  rw [h, Option.some_bind, List.head?_map, Option.map_map]
  rfl

theorem degree_case (R : note) (fuel : Nat) (hR : key_fits R) (d : Int) (numeral : String)
    (p : List interval)
    (hchord : (scale_of R scale_patterns.major).chord_on (fuel + 2) ⟨d, 0⟩ 3 =
      some (chord_of R p))
    (hsub : ∀ iv ∈ p, iv ∈ scale_patterns.major ∨
      iv ∈ scale_patterns.major.map (fun iv => iv.add intervals.P8))
    (h0 : no_overflow ⟨0, 0⟩ p) (hd : d ≠ 0)
    (hbase : (analyze_all (chord_of ⟨0, 0⟩ p)).head?.map
      (reading (chord_of ⟨0, 0⟩ scale_patterns.major)) = some (⟨d, 0⟩, numeral)) :
    first_degree_reading (fuel + 2) (scale_of R scale_patterns.major) d =
      some (⟨d, 0⟩, numeral) := by
  rw [first_degree_reading_eq _ _ _ _ hchord]
  have hp : no_overflow R p := by
    intro iv hiv
    rcases hsub iv hiv with h | h
    · exact hR.1 iv h
    · exact hR.2 iv h
  exact first_reading_transfer R p h0 hp hR.1 d numeral hd hbase

/-- C10 (the code at the failing input): in C major the Ab major triad is read
on degree 5 with alteration +1, roman numeral "#V"; the only other
interpretation is on degree 1. No interpretation has degree 6,
alteration -1, or a numeral starting with "b". -/
theorem C10_lowered_sixth_reads_sharp_five :
    (analyze_in_key (chord_of (notes.Ab.at_octave 3) chord_patterns.major_triad)
        (scale_of (notes.C.at_octave 4) scale_patterns.major).notes).map
      (fun da => (da.chord.root.get_pitch, da.chord.quality, da.deg, da.roman_numeral)) =
    [(8, "", ⟨5, 1⟩, "#V"), (0, "7#5#9", ⟨1, 0⟩, "I7#5#9(no3,no7)")] := by
  decide

/-! ## C11: chromatic degrees -/

theorem exact_search_none (p : Int) :
    ∀ (l : List note) (i : Nat), (∀ n ∈ l, n.get_pitch ≠ p) → exact_search p l i = none := by
  intro l
  induction l with
  | nil => intro _ _; rfl
  | cons n rest ih =>
    intro i h
    simp only [exact_search]
    rw [if_neg (h n (List.mem_cons_self _ _))]
    exact ih (i + 1) (fun x hx => h x (List.mem_cons_of_mem _ hx))

/-- The two tests of the second loop in terms of the pitch classes. -/
theorem chromatic_diff (p : Int) (hp : 0 ≤ p ∧ p < 12) (n : note) :
    ((p - n.get_pitch + 12).tmod 12 = 1 ↔ semitone_above p n) ∧
    ((p - n.get_pitch + 12).tmod 12 = 11 ↔ semitone_below p n) := by
  have hn := get_pitch_range n
  unfold semitone_above semitone_below
  rw [Int.tmod_eq_emod (by omega) (by norm_num)]
  constructor <;> omega

theorem chromatic_search_none (p : Int) (hp : 0 ≤ p ∧ p < 12) :
    ∀ (l : List note) (i : Nat),
      (∀ n ∈ l, ¬ semitone_above p n ∧ ¬ semitone_below p n) →
      chromatic_search p l i = none := by
  intro l
  induction l with
  | nil => intro _ _; rfl
  | cons n rest ih =>
    intro i h
    obtain ⟨ha, hb⟩ := h n (List.mem_cons_self _ _)
    obtain ⟨d1, d2⟩ := chromatic_diff p hp n
    simp only [chromatic_search]
    rw [if_neg (fun hd => ha (d1.mp hd)), if_neg (fun hd => hb (d2.mp hd))]
    exact ih (i + 1) (fun x hx => h x (List.mem_cons_of_mem _ hx))

theorem chromatic_search_first (p : Int) (hp : 0 ≤ p ∧ p < 12) (x : note) (post : List note)
    (hx : semitone_above p x ∨ semitone_below p x) :
    ∀ (pre : List note) (i : Nat),
      (∀ n ∈ pre, ¬ semitone_above p n ∧ ¬ semitone_below p n) →
      chromatic_search p (pre ++ x :: post) i =
        some (i + pre.length, if semitone_above p x then 1 else -1) := by
  intro pre
  induction pre with
  | nil =>
    intro i _
    obtain ⟨d1, d2⟩ := chromatic_diff p hp x
    simp only [List.nil_append, chromatic_search, List.length_nil, add_zero]
    by_cases ha : semitone_above p x
    · rw [if_pos (d1.mpr ha), if_pos ha]
    · have hb : semitone_below p x := hx.resolve_left ha
      rw [if_neg (fun hd => ha (d1.mp hd)), if_pos (d2.mpr hb), if_neg ha]
  | cons n rest ih =>
    intro i h
    obtain ⟨ha, hb⟩ := h n (List.mem_cons_self _ _)
    obtain ⟨d1, d2⟩ := chromatic_diff p hp n
    simp only [List.cons_append, chromatic_search]
    rw [if_neg (fun hd => ha (d1.mp hd)), if_neg (fun hd => hb (d2.mp hd))]
    have := ih (i + 1) (fun y hy => h y (List.mem_cons_of_mem _ hy))
    rw [show rest.append (x :: post) = rest ++ x :: post from rfl, this, List.length_cons]
    congr 2
    omega

/-- The degree of `make_degree_analysis` from the result of its two loops. -/
theorem make_degree_analysis_deg (ca : chord_analysis) (scale : List note) :
    (make_degree_analysis ca scale).deg =
      if (degree_search ca.root.get_pitch scale).1 ≥ 0 ∧
          (degree_search ca.root.get_pitch scale).1 < (scale.length : Int)
      then ⟨(degree_search ca.root.get_pitch scale).1 + 1,
        (degree_search ca.root.get_pitch scale).2⟩
      else ⟨0, 0⟩ := by
  unfold make_degree_analysis
  dsimp only
  rw [simplify_pitch]
  by_cases hc : (degree_search ca.root.get_pitch scale).1 ≥ 0 ∧
      (degree_search ca.root.get_pitch scale).1 < (scale.length : Int)
  · rw [if_pos hc, if_pos hc]
  · rw [if_neg hc, if_neg hc]

set_option maxRecDepth 1000000 in
set_option maxHeartbeats 0 in
/-- C11: when no scale note has the chord root's pitch class,
`make_degree_analysis` takes the first scale note, in degree order, that lies
exactly one semitone from the root: the degree number is its position, the
alteration is +1 if the root is one semitone above it and -1 if one semitone
below. In C major the Ab major triad is read "#V" (degree 5, +1) and the Bb
dominant seventh "#VI7" (degree 6, +1). -/
theorem C11_chromatic_degree :
    (∀ (ca : chord_analysis) (pre : List note) (x : note) (post : List note),
      (∀ n ∈ pre ++ x :: post, n.get_pitch ≠ ca.root.get_pitch) →
      (∀ n ∈ pre, ¬ semitone_above ca.root.get_pitch n ∧ ¬ semitone_below ca.root.get_pitch n) →
      (semitone_above ca.root.get_pitch x ∨ semitone_below ca.root.get_pitch x) →
      (make_degree_analysis ca (pre ++ x :: post)).deg =
        ⟨(pre.length : Int) + 1, if semitone_above ca.root.get_pitch x then 1 else -1⟩) ∧
    (∃ da ∈ analyze_in_key (chord_of (notes.Ab.at_octave 3) chord_patterns.major_triad)
        (scale_of (notes.C.at_octave 4) scale_patterns.major).notes,
      da.chord.root.get_pitch = notes.Ab.get_pitch ∧ da.chord.quality = "" ∧
        da.deg = ⟨5, 1⟩ ∧ da.roman_numeral = "#V") ∧
    (∃ da ∈ analyze_in_key (chord_of (notes.Bb.at_octave 3) chord_patterns.dom7)
        (scale_of (notes.C.at_octave 4) scale_patterns.major).notes,
      da.chord.root.get_pitch = notes.Bb.get_pitch ∧ da.chord.quality = "7" ∧
        da.deg = ⟨6, 1⟩ ∧ da.roman_numeral = "#VI7") := by
  refine ⟨?_, by decide, by decide⟩
  intro ca pre x post hex hpre hx
  have hp := get_pitch_range ca.root
  rw [make_degree_analysis_deg]
  unfold degree_search
  rw [exact_search_none _ _ 0 hex, chromatic_search_first _ hp x post hx pre 0 hpre]
  simp only [zero_add]
  rw [if_pos]
  · simp only [List.length_append, List.length_cons, Nat.cast_add, Nat.cast_succ]
    constructor <;> omega

theorem C11_witness :
    (make_degree_analysis ⟨notes.Ab.at_octave 3, "", none, 0, []⟩
      (scale_of (notes.C.at_octave 4) scale_patterns.major).notes).deg = ⟨5, 1⟩ :=
  C11_chromatic_degree.1 ⟨notes.Ab.at_octave 3, "", none, 0, []⟩
    [notes.C.at_octave 4, notes.D.at_octave 4, notes.E.at_octave 4, notes.F.at_octave 4]
    (notes.G.at_octave 4) [notes.A.at_octave 4, notes.B.at_octave 4]
    (by decide) (by decide) (by decide)

/-! ## Text rendering -/

theorem fold7_eq (a : Int) : ((a.tmod 7) + 7).tmod 7 = a % 7 := by
  have h := tmod_cases a 7 (by norm_num)
  have hb : -6 ≤ a.tmod 7 ∧ a.tmod 7 ≤ 6 ∧ (a.tmod 7) % 7 = a % 7 := by
    rw [h]
    split <;> omega
  rw [Int.tmod_eq_emod (by omega) (by norm_num)]
  omega

theorem floor7_eq (a : Int) :
    (if a ≥ 0 then a.tdiv 7 else (a - 6).tdiv 7) = a / 7 := by
  split
  · exact Int.tdiv_eq_ediv (by omega) (by norm_num)
  · rw [tdiv_cases _ 7 (by norm_num), if_neg (by omega)]
    omega

theorem pitch_name_eq (n : note) : n.pitch_name = pitch_name_text n := by
  unfold note.pitch_name pitch_name_text
  dsimp only
  rw [fold7_eq, floor7_eq]
  by_cases h1 : (n.m_fifth + 1) / 7 > 0
  · rw [if_pos h1, if_pos (le_of_lt h1)]
  · rw [if_neg h1]
    by_cases h2 : (n.m_fifth + 1) / 7 < 0
    · rw [if_pos h2, if_neg (by omega)]
    · have h0 : (n.m_fifth + 1) / 7 = 0 := by omega
      rw [if_neg h2, if_pos (by omega), h0]
      have hempty : (String.mk (List.replicate (Int.toNat 0) '#')) = "" := rfl
      rw [hempty, String.append_empty]

theorem intercalate_go_eq :
    ∀ (l : List String) (acc : String),
      String.intercalate.go acc "," l =
        acc ++ (match l with
          | [] => ""
          | x :: rest => "," ++ join_commas (x :: rest)) := by
  intro l
  induction l with
  | nil =>
    intro acc
    simp [String.intercalate.go]
  | cons x rest ih =>
    intro acc
    rw [String.intercalate.go, ih]
    cases rest with
    | nil => simp [join_commas, String.append_assoc]
    | cons y r => simp [join_commas, String.append_assoc]

theorem join_commas_eq (l : List String) : join_commas l = ",".intercalate l := by
  cases l with
  | nil => rfl
  | cons x rest =>
    rw [String.intercalate, intercalate_go_eq]
    cases rest with
    | nil => simp [join_commas]
    | cons y r => simp [join_commas, String.append_assoc]

theorem str_eq_chord_text (a : chord_analysis) : a.str = chord_text a := by
  unfold chord_analysis.str chord_text omission_text
  dsimp only
  rw [join_commas_eq]
  have hom : (if a.omissions.isEmpty = true then ""
      else "(" ++ ",".intercalate a.omissions ++ ")") =
      (if 1 ≤ a.omissions.length then "(" ++ ",".intercalate a.omissions ++ ")" else "") := by
    cases a.omissions with
    | nil => rfl
    | cons x r => simp
  rw [hom]
  cases a.bass with
  | none => simp
  | some b => simp [String.append_assoc]

/-! ## C12: the empty result -/

theorem pitch_name_head (n : note) :
    ∃ c rest, n.pitch_name.data = c :: rest ∧ c ≠ '?' := by
  rw [pitch_name_eq]
  unfold pitch_name_text
  generalize (if 0 ≤ (n.m_fifth + 1) / 7
    then String.mk (List.replicate ((n.m_fifth + 1) / 7).toNat '#')
    else String.mk (List.replicate (-((n.m_fifth + 1) / 7)).toNat 'b')) = acc
  have hidx : ((n.m_fifth + 1) % 7).toNat = 0 ∨ ((n.m_fifth + 1) % 7).toNat = 1 ∨
      ((n.m_fifth + 1) % 7).toNat = 2 ∨ ((n.m_fifth + 1) % 7).toNat = 3 ∨
      ((n.m_fifth + 1) % 7).toNat = 4 ∨ ((n.m_fifth + 1) % 7).toNat = 5 ∨
      ((n.m_fifth + 1) % 7).toNat = 6 := by omega
  rcases hidx with h | h | h | h | h | h | h <;> rw [h] <;>
    exact ⟨_, _, rfl, by decide⟩

theorem chord_str_head (a : chord_analysis) :
    ∃ c rest, a.str.data = c :: rest ∧ c ≠ '?' := by
  obtain ⟨c, rest, h, hc⟩ := pitch_name_head a.root.simplify
  rw [str_eq_chord_text]
  unfold chord_text
  simp only [String.data_append, h, List.cons_append]
  exact ⟨c, _, rfl, hc⟩

theorem join_bars_head (x : String) (l : List String) :
    ∃ tail, (join_bars (x :: l)).data = x.data ++ tail := by
  cases l with
  | nil => exact ⟨[], by simp [join_bars]⟩
  | cons y r =>
    exact ⟨(" | " ++ join_bars (y :: r)).data, by
      simp only [join_bars, String.data_append, List.append_assoc]⟩

/-- The rendering of a result is "?" exactly when the result is empty. -/
theorem result_str_question (r : analysis_result) : analysis_result.str r = "?" ↔ r = [] := by
  constructor
  · intro h
    cases r with
    | nil => rfl
    | cons a rest =>
      exfalso
      unfold analysis_result.str at h
      simp only [List.isEmpty_cons, Bool.false_eq_true, if_false, List.map_cons] at h
      obtain ⟨tail, ht⟩ := join_bars_head a.str (rest.map chord_analysis.str)
      obtain ⟨c, cs, hc, hne⟩ := chord_str_head a
      rw [h, hc] at ht
      have : '?' = c := by
        have := congrArg List.head? ht
        simpa using this
      exact hne this.symm
  · intro h
    subst h
    rfl

set_option maxRecDepth 1000000 in
set_option maxHeartbeats 0 in
/-- C12: `analyze()` of the cluster C4, C#4, D4 returns the empty list and its
rendering is "?"; `analyze()` of the C major triad is non-empty and its
rendering is not "?"; in general the rendering of a result is "?" exactly
when the result is empty. -/
theorem C12_empty_result :
    analyze_all [notes.C.at_octave 4, notes.Cs.at_octave 4, notes.D.at_octave 4] = [] ∧
    analysis_result.str
      (analyze_all [notes.C.at_octave 4, notes.Cs.at_octave 4, notes.D.at_octave 4]) = "?" ∧
    analyze_all (chord_of (notes.C.at_octave 4) chord_patterns.major_triad) ≠ [] ∧
    analysis_result.str
      (analyze_all (chord_of (notes.C.at_octave 4) chord_patterns.major_triad)) ≠ "?" ∧
    (∀ r : analysis_result, analysis_result.str r = "?" ↔ r = []) :=
  ⟨by decide, by decide, by decide, by decide, result_str_question⟩

/-! ## C13: the unresolved degree -/

/-- C13: for every chord analysis and every scale in which no note has the
root's pitch class and no note is exactly one semitone from it,
`make_degree_analysis` returns the sentinel degree (number 0, alteration 0)
and, as roman numeral, the chord's plain text `chord_analysis::str()`. -/
theorem C13_unresolved_fallback (ca : chord_analysis) (scale : List note)
    (hex : ∀ n ∈ scale, n.get_pitch ≠ ca.root.get_pitch)
    (hchrom : ∀ n ∈ scale,
      ¬ semitone_above ca.root.get_pitch n ∧ ¬ semitone_below ca.root.get_pitch n) :
    make_degree_analysis ca scale = ⟨ca, ⟨0, 0⟩, ca.str⟩ := by
  have hp := get_pitch_range ca.root
  unfold make_degree_analysis
  dsimp only
  rw [simplify_pitch]
  unfold degree_search
  rw [exact_search_none _ _ 0 hex, chromatic_search_none _ hp _ 0 hchrom]
  simp

theorem C13_witness :
    make_degree_analysis ⟨notes.D.at_octave 4, "", none, 0, []⟩
        (scale_of (notes.C.at_octave 4) chord_patterns.major_triad).notes =
      ⟨⟨notes.D.at_octave 4, "", none, 0, []⟩, ⟨0, 0⟩, "D"⟩ :=
  C13_unresolved_fallback ⟨notes.D.at_octave 4, "", none, 0, []⟩
    (scale_of (notes.C.at_octave 4) chord_patterns.major_triad).notes (by decide) (by decide)

/-! ## Slash chords -/

theorem min_element_fold (rest : List note) :
    ∀ best : note,
      (rest.foldl (fun best x => if x.get_midi_pitch < best.get_midi_pitch then x else best)
          best = best ∨
        rest.foldl (fun best x => if x.get_midi_pitch < best.get_midi_pitch then x else best)
          best ∈ rest) ∧
      (rest.foldl (fun best x => if x.get_midi_pitch < best.get_midi_pitch then x else best)
          best).get_midi_pitch ≤ best.get_midi_pitch ∧
      ∀ x ∈ rest,
        (rest.foldl (fun best x => if x.get_midi_pitch < best.get_midi_pitch then x else best)
          best).get_midi_pitch ≤ x.get_midi_pitch := by
  induction rest with
  | nil =>
    intro best
    exact ⟨Or.inl rfl, le_refl _, fun x hx => by cases hx⟩
  | cons y ys ih =>
    intro best
    simp only [List.foldl_cons]
    obtain ⟨h1, h2, h3⟩ := ih (if y.get_midi_pitch < best.get_midi_pitch then y else best)
    generalize List.foldl
      (fun best x => if x.get_midi_pitch < best.get_midi_pitch then x else best)
      (if y.get_midi_pitch < best.get_midi_pitch then y else best) ys = r at h1 h2 h3 ⊢
    by_cases hy : y.get_midi_pitch < best.get_midi_pitch
    · rw [if_pos hy] at h1 h2
      refine ⟨?_, by omega, ?_⟩
      · rcases h1 with h | h
        · right
          rw [h]
          exact List.mem_cons_self _ _
        · exact Or.inr (List.mem_cons_of_mem _ h)
      · intro x hx
        rcases List.mem_cons.mp hx with rfl | hx'
        · exact h2
        · exact h3 x hx'
    · rw [if_neg hy] at h1 h2
      refine ⟨?_, h2, ?_⟩
      · rcases h1 with h | h
        · exact Or.inl h
        · exact Or.inr (List.mem_cons_of_mem _ h)
      · intro x hx
        rcases List.mem_cons.mp hx with rfl | hx'
        · omega
        · exact h3 x hx'

/-- `min_element` returns a note of the list of minimum absolute pitch. -/
theorem min_element_spec (l : List note) (hne : l ≠ []) :
    ∃ m, min_element l = some m ∧ m ∈ l ∧
      ∀ n ∈ l, m.get_midi_pitch ≤ n.get_midi_pitch := by
  cases l with
  | nil => exact absurd rfl hne
  | cons a rest =>
    obtain ⟨h1, h2, h3⟩ := min_element_fold rest a
    refine ⟨_, rfl, ?_, ?_⟩
    · rcases h1 with h | h
      · rw [h]
        exact List.mem_cons_self _ _
      · exact List.mem_cons_of_mem _ h
    · intro n hn
      rcases List.mem_cons.mp hn with rfl | hn'
      · exact h2
      · exact h3 n hn'

theorem midi_of_in_range (n : note) (h : n.in_range) : n.get_midi_pitch = n.raw_pitch := by
  unfold note.get_midi_pitch
  exact wrap8_of_fits h.2.2

theorem get_pitch_of_fifth (a b : note) (h : a.m_fifth = b.m_fifth) :
    a.get_pitch = b.get_pitch := by
  rw [get_pitch_eq, get_pitch_eq, h]

/-- The raising loop of the slash-chord constructor on one tone: with enough
fuel it returns the tone moved up by the fewest octaves that put it above the
bass. -/
theorem raise_above_spec (bass : note) (hb : bass.in_range) :
    ∀ (f : Nat) (n : note), raise_fits bass n →
      bass.raw_pitch - n.raw_pitch < 12 * (f : Int) →
      ∃ r, raise_while (fun x => decide (x.get_midi_pitch ≤ bass.get_midi_pitch)) (f + 1) n
          = some r ∧ raised_above bass n r := by
  intro f
  induction f with
  | zero =>
    intro n hn hlt
    have hmn := midi_of_in_range n hn.1
    have hmb := midi_of_in_range bass hb
    refine ⟨n, ?_, 0, ?_, rfl, ?_, ?_, Or.inl rfl⟩
    · simp only [raise_while]
      rw [if_neg]
      simp only [decide_eq_true_eq, not_le]
      omega
    · simp
    · simp
    · omega
  | succ f ih =>
    intro n hn hlt
    have hmn := midi_of_in_range n hn.1
    have hmb := midi_of_in_range bass hb
    by_cases hc : n.get_midi_pitch ≤ bass.get_midi_pitch
    · have hstep := hn.2 1 (by push_cast; omega)
      have hadd : n.add intervals.P8 = ⟨n.m_fifth, n.m_octave + 1⟩ := by
        unfold note.add intervals.P8
        dsimp only
        rw [add_zero, wrap8_of_fits hn.1.1, wrap8_of_fits (by simpa using hstep.1)]
      have hraw : (n.add intervals.P8).raw_pitch = n.raw_pitch + 12 := by
        rw [hadd]
        unfold note.raw_pitch
        dsimp only
        ring
      have hfits : raise_fits bass (n.add intervals.P8) := by
        refine ⟨⟨?_, ?_, ?_⟩, ?_⟩
        · rw [hadd]; exact hn.1.1
        · rw [hadd]; simpa using hstep.1
        · rw [hraw]; simpa using hstep.2
        · intro k hk
          rw [hraw] at hk ⊢
          have := hn.2 (k + 1) (by push_cast; omega)
          rw [hadd]
          dsimp only
          push_cast at this
          constructor
          · have h1 := this.1
            rw [show n.m_octave + 1 + (k : Int) = n.m_octave + ((k : Int) + 1) by ring]
            exact h1
          · have h2 := this.2
            rw [show n.raw_pitch + 12 + 12 * (k : Int) = n.raw_pitch + 12 * ((k : Int) + 1) by ring]
            exact h2
      obtain ⟨r, hr, k, hk1, hk2, hk3, hk4, hk5⟩ :=
        ih (n.add intervals.P8) hfits (by rw [hraw]; push_cast at hlt; omega)
      have hmn' := midi_of_in_range _ hfits.1
      refine ⟨r, ?_, k + 1, ?_, ?_, ?_, hk4, Or.inr ?_⟩
      · rw [raise_while, if_pos (by simpa using hc)]
        exact hr
      · rw [hk1, hadd]
        dsimp only
        push_cast
        congr 1
        ring
      · rw [hk2]
        exact get_pitch_of_fifth _ _ (by rw [hadd])
      · rw [hk3, hmn', hraw, hmn]
        push_cast
        ring
      · push_cast
        rcases hk5 with h0 | h1
        · subst h0
          simpa using hc
        · rw [hmn', hraw, ← hmn] at h1
          have : n.get_midi_pitch + 12 * ((k : Int) + 1 - 1) =
              n.get_midi_pitch + 12 + 12 * ((k : Int) - 1) := by ring
          rw [this]
          exact h1
    · refine ⟨n, ?_, 0, ?_, rfl, ?_, ?_, Or.inl rfl⟩
      · rw [raise_while, if_neg (by simpa using hc)]
      · simp
      · simp
      · omega

theorem raise_all_spec (bass : note) (hb : bass.in_range) (fuel : Nat) (hfuel : 23 ≤ fuel) :
    ∀ ch : List note, (∀ n ∈ ch, raise_fits bass n) →
      ∃ chord, raise_all fuel bass ch = some chord ∧
        List.Forall₂ (raised_above bass) ch chord := by
  obtain ⟨f, rfl⟩ : ∃ f, fuel = f + 1 := ⟨fuel - 1, by omega⟩
  intro ch
  induction ch with
  | nil => intro _; exact ⟨[], rfl, List.Forall₂.nil⟩
  | cons n rest ih =>
    intro h
    have hn := h n (List.mem_cons_self _ _)
    have hrange : bass.raw_pitch - n.raw_pitch < 12 * (f : Int) := by
      have h1 := hb.2.2
      have h2 := hn.1.2.2
      unfold fits8 at h1 h2
      have : (22 : Int) ≤ f := by omega
      omega
    obtain ⟨r, hr, hrel⟩ := raise_above_spec bass hb f n hn hrange
    obtain ⟨chord, hch, hall⟩ := ih (fun x hx => h x (List.mem_cons_of_mem _ hx))
    refine ⟨r :: chord, ?_, List.Forall₂.cons hrel hall⟩
    simp only [raise_all, hr, hch]

theorem forall₂_mem_right {α β : Type} (R : α → β → Prop) {l : List α} {m : List β}
    (h : List.Forall₂ R l m) {b : β} (hb : b ∈ m) : ∃ a ∈ l, R a b := by
  induction h with
  | nil => cases hb
  | cons hab _ ih =>
    rcases List.mem_cons.mp hb with rfl | hb'
    · exact ⟨_, List.mem_cons_self _ _, hab⟩
    · obtain ⟨a, ha, hr⟩ := ih hb'
      exact ⟨a, List.mem_cons_of_mem _ ha, hr⟩

theorem raise_fits_of_steps (bass n : note) (hb : bass.in_range) (hn : n.in_range)
    (h : ∀ k : Nat, k < 23 → n.raw_pitch + 12 * k ≤ bass.raw_pitch + 12 →
      fits8 (n.m_octave + k) ∧ fits8 (n.raw_pitch + 12 * k)) : raise_fits bass n := by
  refine ⟨hn, ?_⟩
  intro k hk
  apply h k _ hk
  have h1 := hb.2.2
  have h2 := hn.2.2
  unfold fits8 at h1 h2
  omega

/-- Without a tone enharmonic to the bass the constructor runs no loop. -/
theorem slash_make_plain (fuel : Nat) (ch : chord_instance) (bass : note)
    (henh : contains_enharmonic ch bass = false) :
    slash_chord_instance.make fuel ch bass =
      match min_element ch with
      | none => none
      | some low =>
        if bass.get_midi_pitch ≥ low.get_midi_pitch then some (Except.error slash_violation)
        else some (Except.ok ⟨ch, bass⟩) := by
  unfold slash_chord_instance.make
  dsimp only
  rw [henh]
  rfl

/-- With a tone enharmonic to the bass, in range and with enough fuel, the
constructor returns the tones raised above the bass. -/
theorem slash_make_enharmonic (fuel : Nat) (ch : chord_instance) (bass : note)
    (hne : ch ≠ []) (hfuel : 23 ≤ fuel) (hfits : slash_fits ch bass)
    (henh : contains_enharmonic ch bass = true) :
    ∃ chord, slash_chord_instance.make fuel ch bass = some (Except.ok ⟨chord, bass⟩) ∧
      List.Forall₂ (raised_above bass) ch chord := by
  obtain ⟨chord, hch, hall⟩ := raise_all_spec bass hfits.1 fuel hfuel ch (hfits.2.2 henh)
  have hne' : chord ≠ [] := by
    intro h
    rw [h] at hall
    cases hall
    exact hne rfl
  obtain ⟨low, hlow, hmem, _⟩ := min_element_spec chord hne'
  obtain ⟨n, _, k, _, _, _, habove, _⟩ := forall₂_mem_right _ hall hmem
  refine ⟨chord, ?_, hall⟩
  unfold slash_chord_instance.make
  dsimp only
  rw [henh, if_pos rfl, hch]
  dsimp only
  rw [hlow]
  dsimp only
  rw [if_neg (by omega)]

theorem octave_shift_refl (n : note) : octave_shift n n :=
  ⟨0, by simp, rfl, by simp⟩

theorem octave_shift_of_raised (bass n r : note) (h : raised_above bass n r) :
    octave_shift n r := by
  obtain ⟨k, h1, h2, h3, _, _⟩ := h
  exact ⟨k, h1, h2, h3⟩

theorem forall₂_refl_of {α : Type} (R : α → α → Prop) (hR : ∀ a, R a a) (l : List α) :
    List.Forall₂ R l l := by
  induction l with
  | nil => exact List.Forall₂.nil
  | cons a l ih => exact List.Forall₂.cons (hR a) ih

/-! ## C14: correction of a slash chord -/

/-- C14 (as stated, refuted): the C major triad C4, E4, G4 over D5 has no tone
enharmonic to the bass, so no tone is raised and the constructor throws,
whatever the fuel. -/
theorem C14_counterexample :
    ¬ ∃ (fuel : Nat) (s : slash_chord_instance),
      slash_chord_instance.make fuel (chord_of (notes.C.at_octave 4) chord_patterns.major_triad)
        (notes.D.at_octave 5) = some (Except.ok s) := by
  rintro ⟨fuel, s, h⟩
  have hthrow : slash_chord_instance.make 0
      (chord_of (notes.C.at_octave 4) chord_patterns.major_triad) (notes.D.at_octave 5) =
      some (Except.error slash_violation) := by decide
  rw [slash_make_plain fuel _ _ (by decide), ← slash_make_plain 0 _ _ (by decide), hthrow] at h
  cases h

/-- C14 (amended): constructing `chord / bass` for a non-empty chord that
contains a tone enharmonic to the bass, within the `int8` range and with fuel
for 23 loop iterations or more, does not reject the input: it returns the
slash chord with that bass whose tones are the chord tones, each moved up by
the fewest whole octaves (possibly none) that put it strictly above the
bass. -/
theorem C14_slash_correction (ch : chord_instance) (bass : note) (fuel : Nat)
    (hne : ch ≠ []) (hfuel : 23 ≤ fuel) (hfits : slash_fits ch bass)
    (henh : contains_enharmonic ch bass = true) :
    ∃ chord, slash_chord_instance.make fuel ch bass = some (Except.ok ⟨chord, bass⟩) ∧
      List.Forall₂ (raised_above bass) ch chord :=
  slash_make_enharmonic fuel ch bass hne hfuel hfits henh

/-- A decidable sufficient test for `slash_fits`: at most 22 octave steps fit
between two representable pitches. -/
theorem slash_fits_of_steps (ch : chord_instance) (bass : note) (hb : bass.in_range)
    (H : ∀ n ∈ ch, n.in_range ∧ ∀ k : Nat, k < 23 →
      n.raw_pitch + 12 * k ≤ bass.raw_pitch + 12 →
      fits8 (n.m_octave + k) ∧ fits8 (n.raw_pitch + 12 * k)) : slash_fits ch bass :=
  ⟨hb, fun n hn => (H n hn).1,
    fun _ n hn => raise_fits_of_steps bass n hb (H n hn).1 (H n hn).2⟩

theorem C14_witness :
    (∃ chord, slash_chord_instance.make 23
        (chord_of (notes.C.at_octave 4) chord_patterns.major_triad) (notes.E.at_octave 5) =
          some (Except.ok ⟨chord, notes.E.at_octave 5⟩) ∧
      List.Forall₂ (raised_above (notes.E.at_octave 5))
        (chord_of (notes.C.at_octave 4) chord_patterns.major_triad) chord) ∧
    slash_chord_instance.make 23
        (chord_of (notes.C.at_octave 4) chord_patterns.major_triad) (notes.E.at_octave 5) =
      some (Except.ok ⟨[notes.C.at_octave 6, notes.E.at_octave 6, notes.G.at_octave 5],
        notes.E.at_octave 5⟩) :=
  ⟨C14_slash_correction _ _ 23 (by decide) (by decide)
      (slash_fits_of_steps _ _ (by decide) (by decide)) (by decide),
    by decide⟩

/-! ## C15: contract of the slash-chord constructor -/

/-- C15: within the `int8` range and with fuel for 23 loop iterations or more,
the constructor of `chord / bass` for a non-empty chord throws the
precondition violation if and only if the chord contains no tone enharmonic
to the bass and the bass's absolute pitch is greater than or equal to that of
the chord's lowest tone. In every other case it returns a slash chord: its
bass is the given one and is strictly lower than every chord tone, each chord
tone keeps its fifths coordinate (pitch class and spelling) and has moved up
by zero or more whole octaves (the tones are the given ones when none is
enharmonic to the bass, and are raised above the bass by the fewest octaves
when one is), and `all_notes()` is the bass followed by the chord tones in
order. So the constructor always returns or throws, and whatever it returns
has these properties. -/
theorem C15_slash_construction (ch : chord_instance) (bass : note) (fuel : Nat)
    (hne : ch ≠ []) (hfuel : 23 ≤ fuel) (hfits : slash_fits ch bass) :
    slash_chord_instance.make fuel ch bass ≠ none ∧
    (slash_chord_instance.make fuel ch bass = some (Except.error slash_violation) ↔
      (contains_enharmonic ch bass = false ∧
        ∃ low, min_element ch = some low ∧ bass.get_midi_pitch ≥ low.get_midi_pitch)) ∧
    (∀ s, slash_chord_instance.make fuel ch bass = some (Except.ok s) →
      s.bass = bass ∧ (∀ r ∈ s.chord, bass.get_midi_pitch < r.get_midi_pitch) ∧
      List.Forall₂ octave_shift ch s.chord ∧ s.all_notes = bass :: s.chord) ∧
    (¬ (contains_enharmonic ch bass = false ∧
        ∃ low, min_element ch = some low ∧ bass.get_midi_pitch ≥ low.get_midi_pitch) →
      ∃ s, slash_chord_instance.make fuel ch bass = some (Except.ok s) ∧
        s.bass = bass ∧ (∀ r ∈ s.chord, bass.get_midi_pitch < r.get_midi_pitch) ∧
        List.Forall₂ octave_shift ch s.chord ∧
        (contains_enharmonic ch bass = false → s.chord = ch) ∧
        (contains_enharmonic ch bass = true → List.Forall₂ (raised_above bass) ch s.chord) ∧
        s.all_notes = bass :: s.chord) := by
  obtain ⟨low, hlow, hlmem, hlmin⟩ := min_element_spec ch hne
  cases henh : contains_enharmonic ch bass with
  | true =>
    obtain ⟨chord, hmake, hall⟩ := slash_make_enharmonic fuel ch bass hne hfuel hfits henh
    have habove : ∀ r ∈ chord, bass.get_midi_pitch < r.get_midi_pitch := by
      intro r hr
      obtain ⟨n, _, k, _, _, _, h, _⟩ := forall₂_mem_right _ hall hr
      exact h
    have hshift : List.Forall₂ octave_shift ch chord :=
      List.Forall₂.imp (fun a b h => octave_shift_of_raised bass a b h) hall
    rw [hmake]
    refine ⟨by simp, ?_, ?_, ?_⟩
    · constructor
      · intro h
        cases h
      · rintro ⟨h, _⟩
        cases h
    · intro s hs
      cases hs
      exact ⟨rfl, habove, hshift, rfl⟩
    · intro _
      exact ⟨⟨chord, bass⟩, rfl, rfl, habove, hshift, (fun h => by cases h), fun _ => hall, rfl⟩
  | false =>
    rw [slash_make_plain fuel ch bass henh, hlow]
    dsimp only
    by_cases hge : bass.get_midi_pitch ≥ low.get_midi_pitch
    · rw [if_pos hge]
      refine ⟨by simp, ?_, ?_, ?_⟩
      · constructor
        · intro _
          exact ⟨rfl, low, rfl, hge⟩
        · intro _
          rfl
      · intro s hs
        cases hs
      · intro hcond
        exact absurd ⟨rfl, low, rfl, hge⟩ hcond
    · have habove : ∀ r ∈ ch, bass.get_midi_pitch < r.get_midi_pitch := by
        intro r hr
        have := hlmin r hr
        omega
      rw [if_neg hge]
      refine ⟨by simp, ?_, ?_, ?_⟩
      · constructor
        · intro h
          cases h
        · rintro ⟨_, low', hl', hge'⟩
          cases hl'
          exact absurd hge' hge
      · intro s hs
        cases hs
        exact ⟨rfl, habove, forall₂_refl_of _ octave_shift_refl ch, rfl⟩
      · intro _
        exact ⟨⟨ch, bass⟩, rfl, rfl, habove, forall₂_refl_of _ octave_shift_refl ch,
          fun _ => rfl, (fun h => by cases h), rfl⟩

set_option maxRecDepth 1000000 in
theorem C15_witness :
    slash_chord_instance.make 23 (chord_of (notes.C.at_octave 4) chord_patterns.major_triad)
        (notes.G.at_octave 3) =
      some (Except.ok ⟨[notes.C.at_octave 4, notes.E.at_octave 4, notes.G.at_octave 4],
        notes.G.at_octave 3⟩) ∧
    slash_chord_instance.make 23 (chord_of (notes.C.at_octave 4) chord_patterns.major_triad)
        (notes.D.at_octave 5) = some (Except.error slash_violation) ∧
    (∃ s, slash_chord_instance.make 23
        (chord_of (notes.C.at_octave 4) chord_patterns.major_triad) (notes.G.at_octave 3) =
          some (Except.ok s) ∧
      s.bass = notes.G.at_octave 3 ∧
      (∀ r ∈ s.chord, (notes.G.at_octave 3).get_midi_pitch < r.get_midi_pitch) ∧
      List.Forall₂ octave_shift (chord_of (notes.C.at_octave 4) chord_patterns.major_triad)
        s.chord ∧
      (contains_enharmonic (chord_of (notes.C.at_octave 4) chord_patterns.major_triad)
          (notes.G.at_octave 3) = false →
        s.chord = chord_of (notes.C.at_octave 4) chord_patterns.major_triad) ∧
      (contains_enharmonic (chord_of (notes.C.at_octave 4) chord_patterns.major_triad)
          (notes.G.at_octave 3) = true →
        List.Forall₂ (raised_above (notes.G.at_octave 3))
          (chord_of (notes.C.at_octave 4) chord_patterns.major_triad) s.chord) ∧
      s.all_notes = notes.G.at_octave 3 :: s.chord) :=
  ⟨by decide, by decide,
    (C15_slash_construction (chord_of (notes.C.at_octave 4) chord_patterns.major_triad)
      (notes.G.at_octave 3) 23 (by decide) (by decide)
      (slash_fits_of_steps _ _ (by decide) (by decide))).2.2.2 (by decide)⟩

/-! ## C16: text of an interpretation -/

set_option maxRecDepth 1000000 in
set_option maxHeartbeats 0 in
/-- C16: `chord_analysis::str()` is the pitch name of the simplified root
(letter, then sharps or flats, no octave), followed by the quality name,
followed by the omission labels in parentheses joined by commas exactly when
there is at least one, followed by a slash and the pitch name of the
simplified bass exactly when a bass is present; the top interpretation of
C4, E4, Bb4 renders as "C7(no5)" and that of E4, G4, C5 as "C/E". -/
theorem C16_chord_text :
    (∀ a : chord_analysis, a.str = chord_text a) ∧
    (∀ n : note, n.pitch_name = pitch_name_text n) ∧
    (analyze_all [notes.C.at_octave 4, notes.E.at_octave 4,
      notes.Bb.at_octave 4]).head?.map chord_analysis.str = some "C7(no5)" ∧
    (analyze_all [notes.E.at_octave 4, notes.G.at_octave 4,
      notes.C.at_octave 5]).head?.map chord_analysis.str = some "C/E" :=
  ⟨str_eq_chord_text, pitch_name_eq, by decide, by decide⟩

/-! ## C17: range of the degree -/

theorem chromatic_search_offset (p : Int) :
    ∀ (l : List note) (i j : Nat) (off : Int),
      chromatic_search p l i = some (j, off) → off = 1 ∨ off = -1 := by
  intro l
  induction l with
  | nil => intro i j off h; cases h
  | cons n rest ih =>
    intro i j off h
    simp only [chromatic_search] at h
    split_ifs at h with h1 h2
    · cases h
      exact Or.inl rfl
    · cases h
      exact Or.inr rfl
    · exact ih _ _ _ h

theorem degree_search_offset (p : Int) (l : List note) :
    (degree_search p l).2 = -1 ∨ (degree_search p l).2 = 0 ∨ (degree_search p l).2 = 1 := by
  unfold degree_search
  cases exact_search p l 0 with
  | some i => exact Or.inr (Or.inl rfl)
  | none =>
    cases hc : chromatic_search p l 0 with
    | none => exact Or.inr (Or.inl rfl)
    | some r =>
      obtain ⟨j, off⟩ := r
      rcases chromatic_search_offset p l 0 j off hc with h | h
      · exact Or.inr (Or.inr h)
      · exact Or.inl h

/-- The degree of `make_degree_analysis` is the sentinel or a position of the
scale, and its alteration is -1, 0 or +1. -/
theorem make_degree_analysis_range (ca : chord_analysis) (scale : List note) :
    ((make_degree_analysis ca scale).deg = ⟨0, 0⟩ ∨
      (1 ≤ (make_degree_analysis ca scale).deg.num ∧
        (make_degree_analysis ca scale).deg.num ≤ (scale.length : Int))) ∧
    ((make_degree_analysis ca scale).deg.alter = -1 ∨
      (make_degree_analysis ca scale).deg.alter = 0 ∨
      (make_degree_analysis ca scale).deg.alter = 1) := by
  rw [make_degree_analysis_deg]
  have hoff := degree_search_offset ca.root.get_pitch scale
  by_cases hc : (degree_search ca.root.get_pitch scale).1 ≥ 0 ∧
      (degree_search ca.root.get_pitch scale).1 < (scale.length : Int)
  · rw [if_pos hc]
    dsimp only
    exact ⟨Or.inr ⟨by omega, by omega⟩, hoff⟩
  · rw [if_neg hc]
    exact ⟨Or.inl rfl, Or.inr (Or.inl rfl)⟩

set_option maxRecDepth 1000000 in
set_option maxHeartbeats 0 in
/-- C17 (as stated, refuted): against the twelve-note chromatic scale on C4
the B major triad is read on degree 12; and against the three-note scale
C4, E4, G4 the D major triad has no scale note within a semitone of its root
and gets the sentinel degree 0. -/
theorem C17_counterexample :
    (∃ da ∈ analyze_in_key (chord_of (notes.B.at_octave 3) chord_patterns.major_triad)
        (scale_of (notes.C.at_octave 4) scale_patterns.chromatic).notes,
      ¬ (1 ≤ da.deg.num ∧ da.deg.num ≤ 7)) ∧
    (∃ da ∈ analyze_in_key (chord_of (notes.D.at_octave 4) chord_patterns.major_triad)
        (scale_of (notes.C.at_octave 4) chord_patterns.major_triad).notes,
      ¬ (1 ≤ da.deg.num ∧ da.deg.num ≤ 7)) := by
  decide

/-- C17 (amended): every degree analysis produced by `analyze(notes, key)` or
`analyze(notes, key, root)`, for every note collection and every scale
instance of `S` notes, has either the sentinel degree (number 0, alteration
0) or a degree whose number lies in `1..S` (so in 1..7 for a seven-note
scale), and its alteration is -1, 0 or +1. -/
theorem C17_degree_range (notes scale : List note) :
    (∀ da ∈ analyze_in_key notes scale,
      (da.deg = ⟨0, 0⟩ ∨ (1 ≤ da.deg.num ∧ da.deg.num ≤ (scale.length : Int))) ∧
      (da.deg.alter = -1 ∨ da.deg.alter = 0 ∨ da.deg.alter = 1)) ∧
    (∀ (root : note) (da : degree_analysis),
      analyze_in_key_with_root notes root scale = some da →
      (da.deg = ⟨0, 0⟩ ∨ (1 ≤ da.deg.num ∧ da.deg.num ≤ (scale.length : Int))) ∧
      (da.deg.alter = -1 ∨ da.deg.alter = 0 ∨ da.deg.alter = 1)) := by
  constructor
  · intro da hda
    unfold analyze_in_key at hda
    obtain ⟨ca, _, rfl⟩ := List.mem_map.mp hda
    exact make_degree_analysis_range ca scale
  · intro root da h
    unfold analyze_in_key_with_root at h
    cases hr : analyze_with_root notes root with
    | none => rw [hr] at h; cases h
    | some ca =>
      rw [hr] at h
      cases h
      exact make_degree_analysis_range ca scale

/-! ## C18: the pitch class -/

/-- C18: for every note, `get_pitch()` is the non-negative remainder of
`fifths * 7` modulo 12 and lies in `[0, 12)`; C = 0, F = 5, Bb = 10, Eb = 3,
Ab = 8, F# = 6. -/
theorem C18_pitch_class :
    (∀ n : note, n.get_pitch = (n.m_fifth * 7) % 12 ∧ 0 ≤ n.get_pitch ∧ n.get_pitch < 12) ∧
    notes.C.get_pitch = 0 ∧ notes.F.get_pitch = 5 ∧ notes.Bb.get_pitch = 10 ∧
    notes.Eb.get_pitch = 3 ∧ notes.Ab.get_pitch = 8 ∧ notes.Fs.get_pitch = 6 := by
  refine ⟨fun n => ⟨get_pitch_eq n, get_pitch_range n⟩, ?_, ?_, ?_, ?_, ?_, ?_⟩ <;> decide

/-! ## C19: simplification respells -/

theorem wrap8_add_mul256 (x k : Int) : wrap8 (x + 256 * k) = wrap8 x := by
  unfold wrap8
  omega

theorem wrap8_shape (x : Int) : ∃ m : Int, wrap8 x = x + 256 * m := by
  refine ⟨-((x + 128) / 256), ?_⟩
  unfold wrap8
  omega

/-- Both coordinates of the simplified note: `q` times twelve fifths are
traded for `q` times seven octaves. -/
theorem simplify_coords (n : note) (pref : accidental_preference) :
    ∃ q : Int, n.simplify pref = ⟨n.m_fifth - q * 12, wrap8 (n.m_octave + q * 7)⟩ ∧
      -6 ≤ n.m_fifth - q * 12 ∧ n.m_fifth - q * 12 ≤ 10 := by
  unfold note.simplify
  simp only [tdiv_cases _ 12 (by norm_num)]
  generalize hoff : (if pref = accidental_preference.sharp then (1 : Int)
    else if pref = accidental_preference.flat then 6 else 5) = off
  have hoff2 : off = 1 ∨ off = 6 ∨ off = 5 := by
    cases pref <;> simp at hoff <;> omega
  generalize hq : (if n.m_fifth + off ≥ 0 then
      (if 0 ≤ n.m_fifth + off then (n.m_fifth + off) / 12 else -(-(n.m_fifth + off) / 12))
    else (if 0 ≤ n.m_fifth + off - 11 then (n.m_fifth + off - 11) / 12
      else -(-(n.m_fifth + off - 11) / 12))) = q
  have hb : -6 ≤ n.m_fifth - q * 12 ∧ n.m_fifth - q * 12 ≤ 10 := by
    split at hq <;> (try split at hq) <;> omega
  refine ⟨q, ?_, hb⟩
  rw [wrap8_of_fits (x := n.m_fifth - q * 12) ⟨by omega, by omega⟩]

theorem simplify_midi (n : note) (pref : accidental_preference) :
    (n.simplify pref).get_midi_pitch = n.get_midi_pitch := by
  obtain ⟨q, hq, _⟩ := simplify_coords n pref
  obtain ⟨m, hm⟩ := wrap8_shape (n.m_octave + q * 7)
  rw [hq]
  unfold note.get_midi_pitch
  dsimp only
  rw [hm]
  have : (n.m_fifth - q * 12) * 7 + (n.m_octave + q * 7 + 256 * m) * 12 + 12 =
      (n.m_fifth * 7 + n.m_octave * 12 + 12) + 256 * (12 * m) := by ring
  rw [this, wrap8_add_mul256]

/-- C19: for every note `n` and every accidental preference, `n.simplify(pref)`
has the pitch class of `n` (is enharmonic to it) and the absolute ordinal
pitch of `n` (also when the octave coordinate wraps, the pitch being taken
modulo 256): it trades `q` times 12 fifths for `q` times 7 octaves. -/
theorem C19_simplify_respells (n : note) (pref : accidental_preference) :
    (n.simplify pref).get_pitch = n.get_pitch ∧
    (n.simplify pref).is_enharmonic n = true ∧
    (n.simplify pref).get_midi_pitch = n.get_midi_pitch ∧
    ∃ q : Int, n.simplify pref = ⟨n.m_fifth - q * 12, wrap8 (n.m_octave + q * 7)⟩ := by
  refine ⟨simplify_pitch n pref, ?_, simplify_midi n pref, ?_⟩
  · unfold note.is_enharmonic
    rw [simplify_pitch]
    simp
  · obtain ⟨q, hq, _⟩ := simplify_coords n pref
    exact ⟨q, hq⟩

/-! ## C20: exact matches first -/

/-- C20: for every input pitch-class set that is the set of some catalog
quality, `find_matches` returns exactly the catalog entries whose set equals
the input, in catalog order, each with an empty omission list; the list is
not empty and holds no entry with another (larger) set. -/
theorem C20_exact_match_precedence (input_pcs input_count : Nat)
    (h : ∃ info ∈ chord_db, info.pitch_class_set = input_pcs) :
    find_matches input_pcs input_count =
      (chord_db.filter (fun info => input_pcs == info.pitch_class_set)).map
        (fun info => (⟨info, []⟩ : match_result)) ∧
    find_matches input_pcs input_count ≠ [] ∧
    ∀ m ∈ find_matches input_pcs input_count,
      m.info ∈ chord_db ∧ m.info.pitch_class_set = input_pcs ∧ m.omissions = [] := by
  obtain ⟨info, hdb, hpcs⟩ := h
  have hmem : info ∈ chord_db.filter (fun info => input_pcs == info.pitch_class_set) := by
    rw [List.mem_filter]
    exact ⟨hdb, by simp [hpcs]⟩
  have hne : (chord_db.filter (fun info => input_pcs == info.pitch_class_set)).map
      (fun info => (⟨info, []⟩ : match_result)) ≠ [] := by
    intro hnil
    rw [List.map_eq_nil_iff] at hnil
    rw [hnil] at hmem
    cases hmem
  have heq : find_matches input_pcs input_count =
      (chord_db.filter (fun info => input_pcs == info.pitch_class_set)).map
        (fun info => (⟨info, []⟩ : match_result)) := by
    unfold find_matches
    dsimp only
    rw [if_pos]
    simpa [List.isEmpty_iff] using hne
  refine ⟨heq, by rw [heq]; exact hne, ?_⟩
  intro m hm
  rw [heq] at hm
  obtain ⟨i, hi, rfl⟩ := List.mem_map.mp hm
  obtain ⟨hidb, hieq⟩ := List.mem_filter.mp hi
  exact ⟨hidb, by simpa using (beq_iff_eq.mp hieq).symm, rfl⟩

theorem C20_witness :
    find_matches 145 3 =
      (chord_db.filter (fun info => 145 == info.pitch_class_set)).map
        (fun info => (⟨info, []⟩ : match_result)) ∧
    find_matches 145 3 ≠ [] ∧
    ∀ m ∈ find_matches 145 3,
      m.info ∈ chord_db ∧ m.info.pitch_class_set = 145 ∧ m.omissions = [] :=
  C20_exact_match_precedence 145 3 (by decide)

/-! ## C21: the omission labels -/

theorem catalog_semitone_range :
    ∀ info ∈ chord_db, ∀ s ∈ info.interval_semitones, s = -1 ∨ (0 ≤ s ∧ s ≤ 11) := by
  decide

theorem omission_name_mem (s : Int) (h1 : 1 ≤ s) (h2 : s ≤ 11) :
    semitone_to_omission_name s ∈ omission_labels := by
  have : s = 1 ∨ s = 2 ∨ s = 3 ∨ s = 4 ∨ s = 5 ∨ s = 6 ∨ s = 7 ∨ s = 8 ∨ s = 9 ∨ s = 10 ∨
      s = 11 := by omega
  rcases this with h | h | h | h | h | h | h | h | h | h | h <;> subst h <;> decide

/-- The labels of an omission-tolerant match come from offsets 1 to 11. -/
theorem omission_match_labels (input_pcs input_count : Nat) (info : chord_info)
    (hdb : info ∈ chord_db) (m : match_result)
    (h : omission_match input_pcs input_count info = some m) :
    ∀ l ∈ m.omissions, l ∈ omission_labels := by
  unfold omission_match at h
  dsimp only at h
  split_ifs at h with h1 h2 h3 h4 h5
  cases h
  dsimp only
  intro l hl
  obtain ⟨s, hs, rfl⟩ := List.mem_map.mp hl
  obtain ⟨hmem, hcond⟩ := List.mem_filter.mp hs
  have hin : s ∈ info.interval_semitones := List.mem_of_mem_take hmem
  simp only [Bool.and_eq_true, decide_eq_true_eq, bne_iff_ne, ne_eq] at hcond
  obtain ⟨hs0, hbit⟩ := hcond
  have hne : s ≠ 0 := by
    intro h0
    subst h0
    apply hbit
    simpa using h4
  rcases catalog_semitone_range info hdb s hin with hneg | ⟨_, h11⟩
  · omega
  · exact omission_name_mem s (by omega) h11

theorem find_matches_labels (input_pcs input_count : Nat) (m : match_result)
    (h : m ∈ find_matches input_pcs input_count) :
    ∀ l ∈ m.omissions, l ∈ omission_labels := by
  unfold find_matches at h
  dsimp only at h
  have hexact : ∀ x ∈ (chord_db.filter (fun info => input_pcs == info.pitch_class_set)).map
      (fun info => (⟨info, []⟩ : match_result)), ∀ l ∈ x.omissions, l ∈ omission_labels := by
    intro x hx
    obtain ⟨info, _, rfl⟩ := List.mem_map.mp hx
    intro l hl
    cases hl
  have hom : m ∈ chord_db.filterMap (omission_match input_pcs input_count) →
      ∀ l ∈ m.omissions, l ∈ omission_labels := by
    intro h
    obtain ⟨info, hdb, hsome⟩ := List.mem_filterMap.mp h
    exact omission_match_labels _ _ info hdb m hsome
  split_ifs at h
  all_goals first | exact hexact m h | exact hom h

theorem find_matches_root_sounds (input_pcs input_count : Nat) (m : match_result)
    (h : m ∈ find_matches input_pcs input_count) : input_pcs % 2 = 1 := by
  by_contra hne
  rw [find_matches_without_root _ _ (by omega)] at h
  cases h

theorem labels_ne_fallback : ∀ l ∈ omission_labels, l ≠ "no?" := by decide

/-- C21: the label of a semitone offset is "no9" for 1 and 2, "no3" for 3 and
4, "no11" for 5, "no5" for 6 and 7, "no13" for 8 and 9, "no7" for 10 and 11,
and the fallback "no?" for every other value, offset 0 included. Every match of
`find_matches` has the root among the input pitch classes, and each of its
omission labels is one of the six and is not "no?"; the same holds for the
omissions of every interpretation of `analyze()` and of `analyze(root)`. -/
theorem C21_omission_labels :
    (semitone_to_omission_name 1 = "no9" ∧ semitone_to_omission_name 2 = "no9" ∧
      semitone_to_omission_name 3 = "no3" ∧ semitone_to_omission_name 4 = "no3" ∧
      semitone_to_omission_name 5 = "no11" ∧
      semitone_to_omission_name 6 = "no5" ∧ semitone_to_omission_name 7 = "no5" ∧
      semitone_to_omission_name 8 = "no13" ∧ semitone_to_omission_name 9 = "no13" ∧
      semitone_to_omission_name 10 = "no7" ∧ semitone_to_omission_name 11 = "no7") ∧
    (∀ s : Int, s ≤ 0 ∨ 12 ≤ s → semitone_to_omission_name s = "no?") ∧
    (∀ (input_pcs input_count : Nat) (m : match_result),
      m ∈ find_matches input_pcs input_count →
      input_pcs.testBit 0 = true ∧ ∀ l ∈ m.omissions, l ∈ omission_labels ∧ l ≠ "no?") ∧
    (∀ (notes : List note) (a : chord_analysis), a ∈ analyze_all notes →
      ∀ l ∈ a.omissions, l ∈ omission_labels ∧ l ≠ "no?") ∧
    (∀ (notes : List note) (root : note) (a : chord_analysis),
      analyze_with_root notes root = some a →
      ∀ l ∈ a.omissions, l ∈ omission_labels ∧ l ≠ "no?") := by
  refine ⟨by decide, ?_, ?_, ?_, ?_⟩
  · intro s hs
    unfold semitone_to_omission_name
    have h1 : ¬ (s = 1 ∨ s = 2) := by omega
    have h2 : ¬ (s = 3 ∨ s = 4) := by omega
    have h3 : ¬ s = 5 := by omega
    have h4 : ¬ (s = 6 ∨ s = 7) := by omega
    have h5 : ¬ (s = 8 ∨ s = 9) := by omega
    have h6 : ¬ (s = 10 ∨ s = 11) := by omega
    rw [if_neg h1, if_neg h2, if_neg h3, if_neg h4, if_neg h5, if_neg h6]
  · intro pcs cnt m hm
    refine ⟨?_, fun l hl => ?_⟩
    · rw [Nat.testBit_zero]
      exact decide_eq_true (find_matches_root_sounds pcs cnt m hm)
    · have := find_matches_labels pcs cnt m hm l hl
      exact ⟨this, labels_ne_fallback l this⟩
  · intro ns a ha l hl
    obtain ⟨low, _, n, _, m, hm, rfl⟩ := analyze_all_sound ns a ha
    rw [(build_analysis_fields n low m).1] at hl
    have := find_matches_labels _ _ m hm l hl
    exact ⟨this, labels_ne_fallback l this⟩
  · intro ns root a h l hl
    unfold analyze_with_root at h
    dsimp only at h
    cases hmin : min_element ns with
    | none => rw [hmin] at h; cases h
    | some low =>
      rw [hmin] at h
      dsimp only at h
      cases hf : find_matches (build_pcs ns root.get_pitch)
          (popcount (build_pcs ns root.get_pitch)) with
      | nil => rw [hf] at h; cases h
      | cons m rest =>
        rw [hf] at h
        dsimp only at h
        cases h
        rw [(build_analysis_fields root low m).1] at hl
        have hm : m ∈ find_matches (build_pcs ns root.get_pitch)
            (popcount (build_pcs ns root.get_pitch)) := by
          rw [hf]
          exact List.mem_cons_self _ _
        have := find_matches_labels _ _ m hm l hl
        exact ⟨this, labels_ne_fallback l this⟩

/-! ## C22: bass and inversion of an interpretation -/

set_option maxRecDepth 1000000 in
set_option maxHeartbeats 0 in
/-- For every catalog quality and every non-zero semitone offset,
`detect_inversion` gives the position of the offset in the pattern, which is
at least 1, and 0 when no tone of the pattern has that offset. -/
theorem detect_inversion_catalog :
    ∀ e ∈ chord_catalog, ∀ s ∈ ([1, 2, 3, 4, 5, 6, 7, 8, 9, 10, 11] : List Int),
      (∀ i ∈ List.range e.2.length, (e.2.getD i intervals.P1).semitones = s →
        1 ≤ i ∧ detect_inversion s (make_chord_info e.1 e.2) = (i : Int)) ∧
      ((∀ iv ∈ e.2, iv.semitones ≠ s) → detect_inversion s (make_chord_info e.1 e.2) = 0) := by
  decide

/-- The bass offset `build_analysis` computes is the pitch-class difference. -/
theorem bass_semi_eq (r L : note) (h : r.get_pitch ≠ L.get_pitch) :
    wrap8 ((L.get_pitch - r.get_pitch + 12).tmod 12) = (L.get_pitch - r.get_pitch) % 12 ∧
      1 ≤ (L.get_pitch - r.get_pitch) % 12 ∧ (L.get_pitch - r.get_pitch) % 12 ≤ 11 := by
  have hr := get_pitch_range r
  have hl := get_pitch_range L
  have h1 : (L.get_pitch - r.get_pitch + 12).tmod 12 = (L.get_pitch - r.get_pitch + 12) % 12 :=
    Int.tmod_eq_emod (by omega) (by norm_num)
  rw [h1]
  have h2 : (L.get_pitch - r.get_pitch + 12) % 12 = (L.get_pitch - r.get_pitch) % 12 := by omega
  rw [h2]
  refine ⟨wrap8_of_fits ⟨by omega, by omega⟩, by omega, by omega⟩

theorem sorted_head_min (ns : List note) (low : note) (rest : List note)
    (h : sorted_notes ns = low :: rest) :
    low ∈ ns ∧ ∀ n ∈ ns, low.get_midi_pitch ≤ n.get_midi_pitch := by
  obtain ⟨hsorted, hperm⟩ := sorted_notes_spec ns
  rw [h] at hsorted hperm
  refine ⟨hperm.subset (List.mem_cons_self _ _), ?_⟩
  intro n hn
  rcases List.mem_cons.mp (hperm.symm.subset hn) with rfl | hn'
  · exact le_refl _
  · exact (List.pairwise_cons.mp hsorted).1 n hn'

/-- Every interpretation of `analyze()` is built for an input note as root, a
catalog quality, and the first note in ascending pitch order as bass
reference. -/
theorem analyze_all_built (ns : List note) (a : chord_analysis) (ha : a ∈ analyze_all ns) :
    ∃ low rest, sorted_notes ns = low :: rest ∧ ∃ n ∈ ns,
      ∃ m ∈ find_matches (build_pcs ns n.get_pitch) (popcount (build_pcs ns low.get_pitch)),
        a = build_analysis n m low := by
  unfold analyze_all at ha
  rw [List.mem_insertionSort] at ha
  unfold generated at ha
  have hmem : ∀ x ∈ sorted_notes ns, x ∈ ns := fun x hx =>
    (List.mem_insertionSort midi_le).mp hx
  cases hs : sorted_notes ns with
  | nil => rw [hs] at ha; cases ha
  | cons low rest =>
    rw [hs] at ha hmem
    obtain ⟨n, hn, m, hm, rfl⟩ := candidate_loop_sound ns _ low _ _ a ha
    exact ⟨low, rest, rfl, n, hmem n hn, m, hm, rfl⟩

/-- C22: for an interpretation built for root `r`, a catalog quality and bass
reference `L`: when the pitch classes of `r` and `L` differ, the bass is `L`
and the inversion is the position of the offset `(pc(L) - pc(r)) mod 12` in the
quality's pattern, a position of at least 1, or 0 when no tone of the pattern
has that offset; when they are equal the bass is absent and the inversion is 0.
Every interpretation of `analyze()` is built this way, with an input note as
root and an input note of minimum absolute pitch as bass reference; so is the
interpretation of `analyze(root)`, for the given root. -/
theorem C22_bass_and_inversion :
    (∀ e ∈ chord_catalog, ∀ (r L : note) (oms : List String),
      (r.get_pitch ≠ L.get_pitch →
        (build_analysis r ⟨make_chord_info e.1 e.2, oms⟩ L).bass = some L ∧
        (∀ i : Nat, i < e.2.length →
          (e.2.getD i intervals.P1).semitones = (L.get_pitch - r.get_pitch) % 12 →
          1 ≤ i ∧ (build_analysis r ⟨make_chord_info e.1 e.2, oms⟩ L).inversion = (i : Int)) ∧
        ((∀ iv ∈ e.2, iv.semitones ≠ (L.get_pitch - r.get_pitch) % 12) →
          (build_analysis r ⟨make_chord_info e.1 e.2, oms⟩ L).inversion = 0)) ∧
      (r.get_pitch = L.get_pitch →
        (build_analysis r ⟨make_chord_info e.1 e.2, oms⟩ L).bass = none ∧
        (build_analysis r ⟨make_chord_info e.1 e.2, oms⟩ L).inversion = 0)) ∧
    (∀ (notes : List note) (a : chord_analysis), a ∈ analyze_all notes →
      ∃ L ∈ notes, (∀ n ∈ notes, L.get_midi_pitch ≤ n.get_midi_pitch) ∧
        ∃ r ∈ notes, ∃ e ∈ chord_catalog, ∃ oms : List String,
          a = build_analysis r ⟨make_chord_info e.1 e.2, oms⟩ L) ∧
    (∀ (notes : List note) (root : note) (a : chord_analysis),
      analyze_with_root notes root = some a →
      ∃ L ∈ notes, (∀ n ∈ notes, L.get_midi_pitch ≤ n.get_midi_pitch) ∧
        ∃ e ∈ chord_catalog, ∃ oms : List String,
          a = build_analysis root ⟨make_chord_info e.1 e.2, oms⟩ L) := by
  refine ⟨?_, ?_, ?_⟩
  · intro e he r L oms
    constructor
    · intro hne
      obtain ⟨hsemi, h1, h11⟩ := bass_semi_eq r L hne
      have hs : (L.get_pitch - r.get_pitch) % 12 ∈
          ([1, 2, 3, 4, 5, 6, 7, 8, 9, 10, 11] : List Int) := by
        simp only [List.mem_cons, List.mem_singleton]
        omega
      obtain ⟨hfound, hnone⟩ := detect_inversion_catalog e he _ hs
      unfold build_analysis
      dsimp only
      rw [if_pos hne, hsemi]
      exact ⟨rfl, fun i hi h => hfound i (List.mem_range.mpr hi) h, hnone⟩
    · intro heq
      unfold build_analysis
      dsimp only
      rw [if_neg (by simpa using heq)]
      exact ⟨rfl, rfl⟩
  · intro ns a ha
    obtain ⟨low, rest, hs, n, hn, m, hm, rfl⟩ := analyze_all_built ns a ha
    obtain ⟨hlow, hmin⟩ := sorted_head_min ns low rest hs
    have hdb := (find_matches_sound _ _ m hm).1
    unfold chord_db at hdb
    obtain ⟨e, he, heq⟩ := List.mem_map.mp hdb
    refine ⟨low, hlow, hmin, n, hn, e, he, m.omissions, ?_⟩
    rw [heq]
  · intro ns root a h
    unfold analyze_with_root at h
    dsimp only at h
    cases hmin : min_element ns with
    | none => rw [hmin] at h; cases h
    | some low =>
      rw [hmin] at h
      dsimp only at h
      have hne : ns ≠ [] := by
        intro hnil
        rw [hnil] at hmin
        cases hmin
      obtain ⟨low', hlow', hmem, hle⟩ := min_element_spec ns hne
      rw [hmin] at hlow'
      cases hlow'
      cases hf : find_matches (build_pcs ns root.get_pitch)
          (popcount (build_pcs ns root.get_pitch)) with
      | nil => rw [hf] at h; cases h
      | cons m rest =>
        rw [hf] at h
        dsimp only at h
        cases h
        have hm : m ∈ find_matches (build_pcs ns root.get_pitch)
            (popcount (build_pcs ns root.get_pitch)) := by
          rw [hf]
          exact List.mem_cons_self _ _
        have hdb := (find_matches_sound _ _ m hm).1
        unfold chord_db at hdb
        obtain ⟨e, he, heq⟩ := List.mem_map.mp hdb
        refine ⟨low, hmem, hle, e, he, m.omissions, ?_⟩
        rw [heq]

/-! ## C23: the tone count does not depend on the reference root -/

/-- Position of pitch class `c` in the set relative to `r`. -/
theorem rel_bit_eq (c r : Int) (hc : 0 ≤ c ∧ c < 12) (hr : 0 ≤ r ∧ r < 12) :
    (c - r + 12).tmod 12 = (c - r) % 12 := by
  rw [Int.tmod_eq_emod (by omega) (by norm_num)]
  omega

theorem build_pcs_fold_testBit (r : Int) (j : Nat) (hj : j < 16) :
    ∀ (l : List note) (acc : Nat),
      (l.foldl (fun set n =>
        (set ||| (1 <<< ((n.get_pitch - r + 12).tmod 12).toNat)) % 65536) acc).testBit j = true ↔
      (acc.testBit j = true ∨ ∃ n ∈ l, ((n.get_pitch - r + 12).tmod 12).toNat = j) := by
  intro l
  induction l with
  | nil => intro acc; simp
  | cons n rest ih =>
    intro acc
    simp only [List.foldl_cons]
    rw [ih, ← and_bit_ne_zero, tried_update _ _ _ hj, and_bit_ne_zero]
    simp only [List.mem_cons, exists_eq_or_imp]
    constructor
    · rintro ((h | h) | h)
      · exact Or.inl h
      · exact Or.inr (Or.inl h.symm)
      · exact Or.inr (Or.inr h)
    · rintro (h | h | h)
      · exact Or.inl (Or.inl h)
      · exact Or.inl (Or.inr h.symm)
      · exact Or.inr h

/-- Bit `j` of the relative set is set exactly when some note lies `j`
semitones above the reference pitch class. -/
theorem build_pcs_testBit (ns : List note) (r : Int) (hr : 0 ≤ r ∧ r < 12) (j : Nat)
    (hj : j < 16) :
    (build_pcs ns r).testBit j = true ↔ ∃ n ∈ ns, ((n.get_pitch - r) % 12).toNat = j := by
  unfold build_pcs
  rw [build_pcs_fold_testBit r j hj]
  simp only [Nat.zero_testBit, Bool.false_eq_true, false_or]
  constructor
  · rintro ⟨n, hn, h⟩
    rw [rel_bit_eq _ _ (get_pitch_range n) hr] at h
    exact ⟨n, hn, h⟩
  · rintro ⟨n, hn, h⟩
    refine ⟨n, hn, ?_⟩
    rw [rel_bit_eq _ _ (get_pitch_range n) hr]
    exact h

/-- The popcount of a relative set is the number of distinct pitch classes. -/
theorem popcount_build_pcs (ns : List note) (r : Int) (hr : 0 ≤ r ∧ r < 12) :
    popcount (build_pcs ns r) = ((ns.map note.get_pitch).dedup).length := by
  unfold popcount
  have hnd1 : ((List.range 16).filter (fun i => (build_pcs ns r).testBit i)).Nodup :=
    (List.nodup_range 16).filter _
  have hmemP : ∀ c, c ∈ (ns.map note.get_pitch).dedup ↔ ∃ n ∈ ns, n.get_pitch = c := by
    intro c
    rw [List.mem_dedup, List.mem_map]
  have hnd2 : (((ns.map note.get_pitch).dedup).map (fun c => ((c - r) % 12).toNat)).Nodup := by
    apply List.Nodup.map_on _ (List.nodup_dedup _)
    intro x hx y hy hxy
    obtain ⟨n, _, rfl⟩ := (hmemP x).mp hx
    obtain ⟨n', _, rfl⟩ := (hmemP y).mp hy
    have h1 := get_pitch_range n
    have h2 := get_pitch_range n'
    omega
  have hperm : ((List.range 16).filter (fun i => (build_pcs ns r).testBit i)).Perm
      (((ns.map note.get_pitch).dedup).map (fun c => ((c - r) % 12).toNat)) := by
    rw [List.perm_ext_iff_of_nodup hnd1 hnd2]
    intro j
    rw [List.mem_filter, List.mem_range, List.mem_map]
    constructor
    · rintro ⟨hj, hbit⟩
      obtain ⟨n, hn, h⟩ := (build_pcs_testBit ns r hr j hj).mp hbit
      exact ⟨n.get_pitch, (hmemP _).mpr ⟨n, hn, rfl⟩, h⟩
    · rintro ⟨c, hc, h⟩
      obtain ⟨n, hn, rfl⟩ := (hmemP c).mp hc
      have h1 := get_pitch_range n
      have hj : j < 16 := by omega
      exact ⟨hj, (build_pcs_testBit ns r hr j hj).mpr ⟨n, hn, h⟩⟩
  rw [hperm.length_eq, List.length_map]

/-- C23: for every note collection the popcount of the pitch-class set
relative to any reference pitch class is the number of distinct pitch classes
among the notes, so it is the same for any two reference pitch classes; the
count `analyze()` takes against the lowest note is the count against any
candidate root, and `analyze(notes, root)` returns what it would return with
the count taken against the lowest note. -/
theorem C23_tone_count_fixed :
    (∀ (notes : List note) (p q : Int), 0 ≤ p ∧ p < 12 → 0 ≤ q ∧ q < 12 →
      popcount (build_pcs notes p) = ((notes.map note.get_pitch).dedup).length ∧
      popcount (build_pcs notes p) = popcount (build_pcs notes q)) ∧
    (∀ (notes : List note) (r lowest : note),
      popcount (build_pcs notes r.get_pitch) = popcount (build_pcs notes lowest.get_pitch)) ∧
    (∀ (notes : List note) (root : note),
      analyze_with_root notes root =
        (min_element notes).bind (fun lowest =>
          (find_matches (build_pcs notes root.get_pitch)
            (popcount (build_pcs notes lowest.get_pitch))).head?.map
            (fun m => build_analysis root m lowest))) := by
  refine ⟨?_, ?_, ?_⟩
  · intro ns p q hp hq
    exact ⟨popcount_build_pcs ns p hp,
      by rw [popcount_build_pcs ns p hp, popcount_build_pcs ns q hq]⟩
  · intro ns r low
    rw [popcount_build_pcs ns _ (get_pitch_range r), popcount_build_pcs ns _ (get_pitch_range low)]
  · intro ns root
    unfold analyze_with_root
    dsimp only
    cases min_element ns with
    | none => rfl
    | some low =>
      dsimp only [Option.bind]
      rw [popcount_build_pcs ns _ (get_pitch_range root),
        popcount_build_pcs ns _ (get_pitch_range low)]
      cases find_matches (build_pcs ns root.get_pitch) ((ns.map note.get_pitch).dedup).length with
      | nil => rfl
      | cons m rest => rfl

/-! ## C24: candidate roots -/

theorem candidate_roots_mem :
    ∀ (l : List note) (seen : List Int) (r : note), r ∈ candidate_roots l seen →
      r ∈ l ∧ r.get_pitch ∉ seen := by
  intro l
  induction l with
  | nil => intro _ r h; cases h
  | cons n rest ih =>
    intro seen r h
    simp only [candidate_roots] at h
    by_cases hn : n.get_pitch ∈ seen
    · rw [if_pos hn] at h
      obtain ⟨h1, h2⟩ := ih seen r h
      exact ⟨List.mem_cons_of_mem _ h1, h2⟩
    · rw [if_neg hn] at h
      rcases List.mem_cons.mp h with rfl | h'
      · exact ⟨List.mem_cons_self _ _, hn⟩
      · obtain ⟨h1, h2⟩ := ih _ r h'
        exact ⟨List.mem_cons_of_mem _ h1, fun hmem => h2 (List.mem_cons_of_mem _ hmem)⟩

theorem candidate_roots_sublist :
    ∀ (l : List note) (seen : List Int), (candidate_roots l seen).Sublist l := by
  intro l
  induction l with
  | nil => intro _; exact List.Sublist.slnil
  | cons n rest ih =>
    intro seen
    simp only [candidate_roots]
    by_cases hn : n.get_pitch ∈ seen
    · rw [if_pos hn]
      exact List.Sublist.cons _ (ih seen)
    · rw [if_neg hn]
      exact List.Sublist.cons₂ _ (ih _)

theorem candidate_roots_nodup :
    ∀ (l : List note) (seen : List Int),
      ((candidate_roots l seen).map note.get_pitch).Nodup := by
  intro l
  induction l with
  | nil => intro _; exact List.nodup_nil
  | cons n rest ih =>
    intro seen
    simp only [candidate_roots]
    by_cases hn : n.get_pitch ∈ seen
    · rw [if_pos hn]
      exact ih seen
    · rw [if_neg hn, List.map_cons, List.nodup_cons]
      refine ⟨?_, ih _⟩
      intro hmem
      obtain ⟨r, hr, hpc⟩ := List.mem_map.mp hmem
      exact (candidate_roots_mem rest _ r hr).2 (by rw [hpc]; exact List.mem_cons_self _ _)

/-- A candidate root is the first note of its pitch class in the list walked. -/
theorem candidate_roots_first :
    ∀ (l : List note) (seen : List Int) (r : note), r ∈ candidate_roots l seen →
      ∃ pre post, l = pre ++ r :: post ∧ ∀ x ∈ pre, x.get_pitch ≠ r.get_pitch := by
  intro l
  induction l with
  | nil => intro _ r h; cases h
  | cons n rest ih =>
    intro seen r h
    simp only [candidate_roots] at h
    by_cases hn : n.get_pitch ∈ seen
    · rw [if_pos hn] at h
      obtain ⟨pre, post, hl, hpre⟩ := ih seen r h
      refine ⟨n :: pre, post, by rw [hl]; rfl, ?_⟩
      intro x hx
      rcases List.mem_cons.mp hx with rfl | hx'
      · intro heq
        exact (candidate_roots_mem rest seen r h).2 (heq ▸ hn)
      · exact hpre x hx'
    · rw [if_neg hn] at h
      rcases List.mem_cons.mp h with rfl | h'
      · exact ⟨[], rest, rfl, fun x hx => by cases hx⟩
      · obtain ⟨pre, post, hl, hpre⟩ := ih _ r h'
        refine ⟨n :: pre, post, by rw [hl]; rfl, ?_⟩
        intro x hx
        rcases List.mem_cons.mp hx with rfl | hx'
        · intro heq
          exact (candidate_roots_mem rest _ r h').2 (by rw [heq]; exact List.mem_cons_self _ _)
        · exact hpre x hx'

/-- Every pitch class of the list not seen before has a candidate root. -/
theorem candidate_roots_cover :
    ∀ (l : List note) (seen : List Int) (n : note), n ∈ l → n.get_pitch ∉ seen →
      ∃ r ∈ candidate_roots l seen, r.get_pitch = n.get_pitch := by
  intro l
  induction l with
  | nil => intro _ n h; cases h
  | cons x rest ih =>
    intro seen n hn hseen
    simp only [candidate_roots]
    by_cases hx : x.get_pitch ∈ seen
    · rw [if_pos hx]
      rcases List.mem_cons.mp hn with rfl | hn'
      · exact absurd hx hseen
      · exact ih seen n hn' hseen
    · rw [if_neg hx]
      by_cases heq : n.get_pitch = x.get_pitch
      · exact ⟨x, List.mem_cons_self _ _, heq.symm⟩
      · rcases List.mem_cons.mp hn with rfl | hn'
        · exact absurd rfl heq
        · obtain ⟨r, hr, hpc⟩ := ih (x.get_pitch :: seen) n hn'
            (by
              intro hmem
              rcases List.mem_cons.mp hmem with h | h
              · exact heq h
              · exact hseen h)
          exact ⟨r, List.mem_cons_of_mem _ hr, hpc⟩

theorem catalog_names_nodup : (chord_db.map (fun info => info.name)).Nodup := by
  decide

theorem find_matches_names_nodup (input_pcs input_count : Nat) :
    ((find_matches input_pcs input_count).map (fun m => m.info.name)).Nodup := by
  have h := (find_matches_catalog_order input_pcs input_count).map (fun info => info.name)
  rw [List.map_map] at h
  exact List.Nodup.sublist h catalog_names_nodup

/-- Interpretations generated for roots of distinct pitch classes, each from
matches of distinct quality names, differ in root pitch class or quality. -/
theorem flatMap_keys_nodup (low : note) (F : note → List match_result)
    (hF : ∀ n, ((F n).map (fun m => m.info.name)).Nodup) :
    ∀ roots : List note, (roots.map note.get_pitch).Nodup →
      ((roots.flatMap (fun n => (F n).map (fun m => build_analysis n m low))).map
        (fun a => (a.root.get_pitch, a.quality))).Nodup := by
  intro roots
  induction roots with
  | nil => intro _; exact List.nodup_nil
  | cons r rest ih =>
    intro hnd
    rw [List.map_cons, List.nodup_cons] at hnd
    rw [List.flatMap_cons, List.map_append, List.nodup_append]
    refine ⟨?_, ih hnd.2, ?_⟩
    · rw [List.map_map]
      have : ((fun a : chord_analysis => (a.root.get_pitch, a.quality)) ∘
          fun m => build_analysis r m low) =
          (fun s : String => (r.get_pitch, s)) ∘ (fun m : match_result => m.info.name) := by
        funext m
        simp only [Function.comp]
        rw [(build_analysis_fields r low m).2.1, (build_analysis_fields r low m).2.2,
          simplify_pitch]
      rw [this, ← List.map_map]
      apply List.Nodup.map _ (hF r)
      intro a b hab
      exact (Prod.mk.inj hab).2
    · intro k hk1 hk2
      obtain ⟨a, ha, rfl⟩ := List.mem_map.mp hk1
      obtain ⟨m, _, rfl⟩ := List.mem_map.mp ha
      obtain ⟨b, hb, hkb⟩ := List.mem_map.mp hk2
      obtain ⟨x, hx, hbx⟩ := List.mem_flatMap.mp hb
      obtain ⟨m', _, rfl⟩ := List.mem_map.mp hbx
      have h1 := (Prod.mk.inj hkb).1
      rw [(build_analysis_fields r low m).2.2, (build_analysis_fields x low m').2.2,
        simplify_pitch, simplify_pitch] at h1
      apply hnd.1
      rw [← h1]
      exact List.mem_map.mpr ⟨x, hx, rfl⟩

/-- C24: the candidate-root loop of `analyze()` visits exactly the candidate
roots, the notes that are the first of their pitch class in ascending order of
absolute pitch. The candidate roots are input notes in ascending order of
absolute pitch, no two share a pitch class, and every input note has a
candidate root of its pitch class that is not higher than it. Hence every
interpretation's root has the pitch class of an input note, and no two
interpretations of one result share both root pitch class and quality name. -/
theorem C24_candidate_roots (notes : List note) :
    generated notes = generated_in_order notes ∧
    (candidate_roots (sorted_notes notes) []).Sublist (sorted_notes notes) ∧
    (candidate_roots (sorted_notes notes) []).Pairwise midi_le ∧
    ((candidate_roots (sorted_notes notes) []).map note.get_pitch).Nodup ∧
    (∀ r ∈ candidate_roots (sorted_notes notes) [], r ∈ notes) ∧
    (∀ n ∈ notes, ∃ r ∈ candidate_roots (sorted_notes notes) [],
      r.get_pitch = n.get_pitch ∧ r.get_midi_pitch ≤ n.get_midi_pitch) ∧
    (∀ a ∈ analyze_all notes, ∃ n ∈ notes, a.root.get_pitch = n.get_pitch) ∧
    ((analyze_all notes).map (fun a => (a.root.get_pitch, a.quality))).Nodup := by
  obtain ⟨hsorted, hperm⟩ := sorted_notes_spec notes
  have hsub := candidate_roots_sublist (sorted_notes notes) []
  refine ⟨generated_eq notes, hsub, hsorted.sublist hsub, candidate_roots_nodup _ _, ?_, ?_, ?_, ?_⟩
  · intro r hr
    exact hperm.subset (candidate_roots_mem _ _ r hr).1
  · intro n hn
    have hn' : n ∈ sorted_notes notes := hperm.symm.subset hn
    obtain ⟨r, hr, hpc⟩ := candidate_roots_cover (sorted_notes notes) [] n hn' (by simp)
    refine ⟨r, hr, hpc, ?_⟩
    obtain ⟨pre, post, hl, hpre⟩ := candidate_roots_first _ _ r hr
    rw [hl] at hn' hsorted
    rcases List.mem_append.mp hn' with h | h
    · exact absurd hpc.symm (hpre n h)
    · rcases List.mem_cons.mp h with rfl | h'
      · exact le_refl _
      · exact (List.pairwise_cons.mp (List.pairwise_append.mp hsorted).2.1).1 n h'
  · intro a ha
    obtain ⟨low, _, n, hn, m, _, rfl⟩ := analyze_all_sound notes a ha
    exact ⟨n, hn, by rw [(build_analysis_fields n low m).2.2, simplify_pitch]⟩
  · have hp : (analyze_all notes).Perm (generated_in_order notes) := by
      rw [← generated_eq]
      exact List.perm_insertionSort _ _
    rw [(hp.map _).nodup_iff]
    unfold generated_in_order
    cases hs : sorted_notes notes with
    | nil => exact List.nodup_nil
    | cons low rest =>
      dsimp only
      exact flatMap_keys_nodup low
        (fun n => find_matches (build_pcs notes n.get_pitch)
          (popcount (build_pcs notes low.get_pitch)))
        (fun n => find_matches_names_nodup _ _) _ (candidate_roots_nodup _ _)

/-! ## C25: the pitch-class sets of the catalog -/

set_option maxRecDepth 1000000 in
set_option maxHeartbeats 0 in
theorem catalog_sets_low_bits :
    ∀ e ∈ chord_catalog,
      (make_chord_info e.1 e.2).pitch_class_set < 4096 ∧
      ∀ i ∈ List.range 12, ((make_chord_info e.1 e.2).pitch_class_set.testBit i = true ↔
        ∃ iv ∈ e.2, ((iv.fifths * 7) % 12).toNat = i) := by
  decide

set_option maxRecDepth 1000000 in
set_option maxHeartbeats 0 in
theorem catalog_tone_counts :
    ∀ e ∈ chord_catalog,
      (make_chord_info e.1 e.2).tone_count = e.2.length ∧ 2 ≤ e.2.length ∧ e.2.length ≤ 7 ∧
      (make_chord_info e.1 e.2).pitch_class_set.testBit 0 = true ∧
      popcount (make_chord_info e.1 e.2).pitch_class_set = (make_chord_info e.1 e.2).tone_count ∧
      (e.2.map (fun iv => (iv.fifths * 7) % 12)).Nodup := by
  decide

/-- C25: for every catalog entry the pitch-class set has exactly the bits
`(fifths * 7) mod 12` of the pattern's intervals, the tone count is the pattern
length, which lies between 2 and 7, bit 0 is set, the popcount of the set is
the tone count, and no two tones of the pattern share a pitch class. -/
theorem C25_catalog_sets (e : String × chord_pattern) (he : e ∈ chord_catalog) :
    make_chord_info e.1 e.2 ∈ chord_db ∧
    (∀ i : Nat, (make_chord_info e.1 e.2).pitch_class_set.testBit i = true ↔
      ∃ iv ∈ e.2, ((iv.fifths * 7) % 12).toNat = i) ∧
    (make_chord_info e.1 e.2).tone_count = e.2.length ∧ 2 ≤ e.2.length ∧ e.2.length ≤ 7 ∧
    (make_chord_info e.1 e.2).pitch_class_set.testBit 0 = true ∧
    popcount (make_chord_info e.1 e.2).pitch_class_set = (make_chord_info e.1 e.2).tone_count ∧
    (e.2.map (fun iv => (iv.fifths * 7) % 12)).Nodup := by
  refine ⟨List.mem_map.mpr ⟨e, he, rfl⟩, ?_, catalog_tone_counts e he⟩
  obtain ⟨hlt, hbits⟩ := catalog_sets_low_bits e he
  intro i
  by_cases hi : i < 12
  · exact hbits i (List.mem_range.mpr hi)
  · have hfalse : (make_chord_info e.1 e.2).pitch_class_set.testBit i = false := by
      apply Nat.testBit_lt_two_pow
      calc (make_chord_info e.1 e.2).pitch_class_set < 4096 := hlt
        _ = 2 ^ 12 := by norm_num
        _ ≤ 2 ^ i := Nat.pow_le_pow_right (by norm_num) (by omega)
    rw [hfalse]
    constructor
    · intro h
      cases h
    · rintro ⟨iv, _, h⟩
      omega

theorem C25_witness :
    make_chord_info "7" chord_patterns.dom7 ∈ chord_db ∧
    (∀ i : Nat, (make_chord_info "7" chord_patterns.dom7).pitch_class_set.testBit i = true ↔
      ∃ iv ∈ chord_patterns.dom7, ((iv.fifths * 7) % 12).toNat = i) ∧
    (make_chord_info "7" chord_patterns.dom7).tone_count = chord_patterns.dom7.length ∧
    2 ≤ chord_patterns.dom7.length ∧ chord_patterns.dom7.length ≤ 7 ∧
    (make_chord_info "7" chord_patterns.dom7).pitch_class_set.testBit 0 = true ∧
    popcount (make_chord_info "7" chord_patterns.dom7).pitch_class_set =
      (make_chord_info "7" chord_patterns.dom7).tone_count ∧
    (chord_patterns.dom7.map (fun iv => (iv.fifths * 7) % 12)).Nodup :=
  C25_catalog_sets ("7", chord_patterns.dom7) (by decide)

/-! ## C26: the order of the catalog -/

/-- C26: along `chord_db` the tone count never increases: four qualities of 7
tones, five of 6, fourteen of 5, fifteen of 4, the six triads, and last the
two-note power chord "5". -/
theorem C26_catalog_order :
    (chord_db.map (fun info => info.tone_count)).Pairwise (fun a b => a ≥ b) ∧
    chord_db.map (fun info => info.tone_count) =
      List.replicate 4 7 ++ List.replicate 5 6 ++ List.replicate 14 5 ++
        List.replicate 15 4 ++ List.replicate 6 3 ++ [2] ∧
    chord_db.getLast?.map (fun info => info.name) = some "5" ∧
    ((chord_db.take 4).map (fun info => info.name) = ["13", "maj13", "m13", "13#11"]) ∧
    ((chord_db.drop 38).map (fun info => info.name) =
      ["", "m", "dim", "aug", "sus2", "sus4", "5"]) := by
  decide

/-! ## C27: the case of the numeral -/

theorem append_data (a b : String) : (a ++ b).data = a.data ++ b.data := String.data_append a b

theorem starts_with_append (pre rest : String) : starts_with (pre ++ rest) pre = true := by
  unfold starts_with
  rw [append_data]
  simp

/-- C27: `is_major_quality` is true for the empty name and for every name
starting with "maj", false for every other name starting with 'm' and for
every name starting with "dim", and true for every remaining name, such as "7",
"aug", "sus4" and "6"; the catalog names it is false for are listed. -/
theorem C27_numeral_case :
    is_major_quality "" = true ∧
    (∀ rest : String, is_major_quality ("maj" ++ rest) = true) ∧
    (∀ rest : String, starts_with ("m" ++ rest) "maj" = false →
      is_major_quality ("m" ++ rest) = false) ∧
    (∀ rest : String, is_major_quality ("dim" ++ rest) = false) ∧
    (∀ q : String, q ≠ "" → q.data.head? ≠ some 'm' → starts_with q "dim" = false →
      is_major_quality q = true) ∧
    (is_major_quality "7" = true ∧ is_major_quality "aug" = true ∧
      is_major_quality "sus4" = true ∧ is_major_quality "6" = true) ∧
    (chord_db.filter (fun info => !is_major_quality info.name)).map (fun info => info.name) =
      ["m13", "m11", "m9", "m(maj9)", "m6/9", "m(add9)", "m6", "m7", "m(maj7)", "dim7", "m7b5",
        "m", "dim"] := by
  refine ⟨by decide, ?_, ?_, ?_, ?_, by decide, ?_⟩
  · intro rest
    unfold is_major_quality
    rw [starts_with_append]
    simp [append_data]
  · intro rest h
    unfold is_major_quality
    rw [h]
    simp [append_data]
  · intro rest
    unfold is_major_quality
    rw [starts_with_append]
    simp [append_data, starts_with]
  · intro q h1 h2 h3
    unfold is_major_quality
    rw [h3]
    have : q.data.isEmpty = false := by
      cases hq : q.data with
      | nil => exact absurd (String.ext hq) h1
      | cons c cs => rfl
    simp [this, h2]
  · decide

/-! ## C28: the quality suffix of the roman numeral -/

/-- The numeral text of a resolved degree. -/
theorem roman_numeral_resolved (ca : chord_analysis) (scale : List note)
    (h : (make_degree_analysis ca scale).deg.num ≠ 0) :
    (make_degree_analysis ca scale).roman_numeral =
      (make_degree_analysis ca scale).deg.prefix_of ++
        (if is_major_quality ca.quality then roman_upper else roman_lower).getD
          ((((make_degree_analysis ca scale).deg.num - 1) % 7).toNat) "" ++
        roman_quality_suffix ca.quality ++
        (if 1 ≤ ca.omissions.length then "(" ++ ",".intercalate ca.omissions ++ ")" else "") := by
  have hom : omission_text ca.omissions =
      (if 1 ≤ ca.omissions.length then "(" ++ ",".intercalate ca.omissions ++ ")" else "") := by
    unfold omission_text
    rw [join_commas_eq]
    cases ca.omissions with
    | nil => rfl
    | cons x r => simp
  unfold make_degree_analysis at h ⊢
  dsimp only at h ⊢
  by_cases hc : (degree_search ca.root.simplify.get_pitch scale).1 ≥ 0 ∧
      (degree_search ca.root.simplify.get_pitch scale).1 < (scale.length : Int)
  · rw [if_pos hc]
    dsimp only
    have h7 : (degree_search ca.root.simplify.get_pitch scale).1.tmod 7 =
        (degree_search ca.root.simplify.get_pitch scale).1 % 7 :=
      Int.tmod_eq_emod hc.1 (by norm_num)
    have hlt : ((degree_search ca.root.simplify.get_pitch scale).1 % 7).toNat < 7 := by omega
    rw [h7, if_pos hlt, hom, add_sub_cancel_right]
    by_cases hq : is_major_quality ca.quality = true
    · rw [if_pos hq, if_pos hq]
    · rw [if_neg hq, if_neg hq]
  · rw [if_neg hc] at h
    exact absurd rfl h

set_option maxRecDepth 1000000 in
set_option maxHeartbeats 0 in
/-- C28: the quality suffix is empty for "" and "m", "°" for "dim", "+" for
"aug", "ø7" for "m7b5", "°7" for "dim7"; a name starting with "maj" is kept;
any other name starting with 'm' but "m7b5" loses that letter; a name starting
with "aug" becomes "+" and the remainder; every other name is unchanged. For a resolved
degree the roman numeral is the alteration sign, the numeral in the case
`is_major_quality` selects, the suffix, and the omissions in parentheses,
joined by commas, when there are any. In C major the seventh chords on degrees
1, 4 and 5 have the readings "Imaj7", "IVmaj7" and "V7". -/
theorem C28_roman_suffix :
    (roman_quality_suffix "" = "" ∧ roman_quality_suffix "m" = "" ∧
      roman_quality_suffix "dim" = "°" ∧ roman_quality_suffix "aug" = "+" ∧
      roman_quality_suffix "m7b5" = "ø7" ∧ roman_quality_suffix "dim7" = "°7") ∧
    (∀ rest : String, roman_quality_suffix ("maj" ++ rest) = "maj" ++ rest) ∧
    (∀ rest : String, rest ≠ "7b5" → starts_with ("m" ++ rest) "maj" = false →
      roman_quality_suffix ("m" ++ rest) = rest) ∧
    (roman_quality_suffix "m7" = "7" ∧ roman_quality_suffix "m(maj7)" = "(maj7)") ∧
    (∀ rest : String, roman_quality_suffix ("aug" ++ rest) = "+" ++ rest) ∧
    roman_quality_suffix "aug7" = "+7" ∧
    (∀ q : String, q ≠ "dim" → q ≠ "dim7" → q.data.head? ≠ some 'm' →
      starts_with q "aug" = false → roman_quality_suffix q = q) ∧
    (∀ (ca : chord_analysis) (scale : List note),
      (make_degree_analysis ca scale).deg.num ≠ 0 →
      (make_degree_analysis ca scale).roman_numeral =
        (make_degree_analysis ca scale).deg.prefix_of ++
          (if is_major_quality ca.quality then roman_upper else roman_lower).getD
            ((((make_degree_analysis ca scale).deg.num - 1) % 7).toNat) "" ++
          roman_quality_suffix ca.quality ++
          (if 1 ≤ ca.omissions.length then "(" ++ ",".intercalate ca.omissions ++ ")"
            else "")) ∧
    ((∃ da ∈ analyze_in_key (chord_of (notes.C.at_octave 4) chord_patterns.maj7)
        (scale_of (notes.C.at_octave 4) scale_patterns.major).notes,
        da.roman_numeral = "Imaj7") ∧
      (∃ da ∈ analyze_in_key (chord_of (notes.F.at_octave 4) chord_patterns.maj7)
        (scale_of (notes.C.at_octave 4) scale_patterns.major).notes,
        da.roman_numeral = "IVmaj7") ∧
      (∃ da ∈ analyze_in_key (chord_of (notes.G.at_octave 4) chord_patterns.dom7)
        (scale_of (notes.C.at_octave 4) scale_patterns.major).notes,
        da.roman_numeral = "V7")) := by
  refine ⟨by decide, ?_, ?_, by decide, ?_, by decide, ?_, roman_numeral_resolved, by decide⟩
  · intro rest
    unfold roman_quality_suffix
    rw [starts_with_append]
    simp [String.ext_iff, append_data]
  · intro rest h2 h3
    by_cases h1 : rest = ""
    · subst h1
      decide
    · have hd1 : rest.data ≠ [] := fun h => h1 (String.ext h)
      have hd2 : rest.data ≠ ['7', 'b', '5'] := fun h => h2 (String.ext h)
      unfold roman_quality_suffix
      rw [h3]
      simp [String.ext_iff, append_data, hd1, hd2, substr_from]
  · intro rest
    unfold roman_quality_suffix
    rw [starts_with_append]
    simp [String.ext_iff, append_data, starts_with, substr_from]
  · intro q h1 h2 h3 h4
    unfold roman_quality_suffix
    by_cases hq : q.data = []
    · simp only [hq, List.isEmpty_nil, if_true]
      exact (String.ext hq).symm
    · have hm : q ≠ "m" := fun h => h3 (by rw [h]; rfl)
      have hm7 : q ≠ "m7b5" := fun h => h3 (by rw [h]; rfl)
      have haug : q ≠ "aug" := fun h => by rw [h] at h4; exact absurd h4 (by decide)
      have hparen : starts_with q "m(" = false := by
        unfold starts_with
        cases hd : q.data with
        | nil => exact absurd hd hq
        | cons c cs =>
          rw [hd] at h3
          have hc : c ≠ 'm' := fun h => h3 (by rw [h]; rfl)
          simp only [List.isPrefixOf, show "m(".data = ['m', '('] from rfl,
            Bool.and_eq_false_imp, beq_iff_eq]
          intro h
          exact absurd h.symm hc
      have hempty : q.data.isEmpty = false := by
        cases hd : q.data with
        | nil => exact absurd hd hq
        | cons c cs => rfl
      rw [hempty, h4, hparen]
      simp [h1, h2, h3, hm, hm7, haug]

/-! ## C29: the modes of the major scale -/

set_option maxRecDepth 1000000 in
set_option maxHeartbeats 0 in
/-- C29: for every `M` in `0..6` the mode `M` of the major pattern has seven
intervals and starts with the unison; its `i`-th interval has diatonic step
number `i`, ascends by less than an octave, and its semitone value is
`(s[(i + M) mod 7] - s[M]) mod 12` for the major pattern's semitones `s`. Mode
0 is the major pattern, mode 5 is the natural minor P1, M2, m3, P4, P5, m6, m7,
and A3 with the natural minor spells A B C D E F G. -/
theorem C29_modes_of_major :
    (∀ M ∈ List.range 7,
      (scale_patterns.major.mode M).length = 7 ∧
      (scale_patterns.major.mode M).head? = some intervals.P1 ∧
      ∀ i ∈ List.range 7,
        ((scale_patterns.major.mode M).getD i intervals.P1).fifths * 4 +
          ((scale_patterns.major.mode M).getD i intervals.P1).octaves * 7 = (i : Int) ∧
        0 ≤ ((scale_patterns.major.mode M).getD i intervals.P1).size ∧
        ((scale_patterns.major.mode M).getD i intervals.P1).size < 12 ∧
        ((scale_patterns.major.mode M).getD i intervals.P1).semitones =
          ((scale_patterns.major.getD ((i + M) % 7) intervals.P1).semitones -
            (scale_patterns.major.getD M intervals.P1).semitones) % 12) ∧
    scale_patterns.major.mode 0 = scale_patterns.major ∧
    scale_patterns.natural_minor = scale_patterns.major.mode 5 ∧
    scale_patterns.natural_minor =
      [intervals.P1, intervals.M2, intervals.m3, intervals.P4, intervals.P5, intervals.m6,
        intervals.m7] ∧
    (scale_of (notes.A.at_octave 3) scale_patterns.natural_minor).notes.map note.pitch_name =
      ["A", "B", "C", "D", "E", "F", "G"] ∧
    (scale_of (notes.A.at_octave 3) scale_patterns.natural_minor).notes.map note.get_pitch =
      [notes.A, notes.B, notes.C, notes.D, notes.E, notes.F, notes.G].map note.get_pitch ∧
    (scale_of (notes.D.at_octave 4) scale_patterns.dorian).notes.map note.pitch_name =
      ["D", "E", "F", "G", "A", "B", "C"] ∧
    (scale_of (notes.E.at_octave 4) scale_patterns.phrygian).notes.map note.pitch_name =
      ["E", "F", "G", "A", "B", "C", "D"] ∧
    (scale_of (notes.F.at_octave 4) scale_patterns.lydian).notes.map note.pitch_name =
      ["F", "G", "A", "B", "C", "D", "E"] ∧
    (scale_of (notes.G.at_octave 4) scale_patterns.mixolydian).notes.map note.pitch_name =
      ["G", "A", "B", "C", "D", "E", "F"] ∧
    (scale_of (notes.B.at_octave 3) scale_patterns.locrian).notes.map note.pitch_name =
      ["B", "C", "D", "E", "F", "G", "A"] := by
  decide

/-! ## C30: chords stacked on a scale degree -/

/-- A note in range lifted past `B` to a representable pitch is in range and
is the note raised by the fewest octaves. -/
theorem lift_past_spec (B : Int) (n : note) (hn : n.in_range)
    (hr : fits8 (lift_past B n).raw_pitch) :
    (lift_past B n).in_range ∧ raised_past B n (lift_past B n) := by
  obtain ⟨hf, ho, hraw⟩ := hn
  have hf' := hf
  have ho' := ho
  have hraw' := hraw
  unfold fits8 at hf' ho' hraw'
  have hraw0 : n.raw_pitch = n.m_fifth * 7 + n.m_octave * 12 + 12 := rfl
  have hk : ∃ k : Int, (if B < n.raw_pitch then (0 : Int) else (B - n.raw_pitch) / 12 + 1) = k ∧
      0 ≤ k ∧ B < n.raw_pitch + 12 * k ∧ (k = 0 ∨ n.raw_pitch + 12 * (k - 1) ≤ B) := by
    by_cases hc : B < n.raw_pitch
    · exact ⟨0, by rw [if_pos hc], le_refl _, by omega, Or.inl rfl⟩
    · refine ⟨(B - n.raw_pitch) / 12 + 1, by rw [if_neg hc], by omega, by omega, Or.inr (by omega)⟩
  obtain ⟨k, hkeq, hk0, hkB, hkmin⟩ := hk
  have hlift : lift_past B n = ⟨n.m_fifth, n.m_octave + k⟩ := by
    unfold lift_past
    rw [hkeq]
  have hlraw : (lift_past B n).raw_pitch = n.raw_pitch + 12 * k := by
    rw [hlift]
    unfold note.raw_pitch
    dsimp only
    ring
  rw [hlraw] at hr
  have hr' := hr
  unfold fits8 at hr'
  have hin : (lift_past B n).in_range := by
    refine ⟨?_, ?_, ?_⟩
    · rw [hlift]; exact hf
    · rw [hlift]
      unfold fits8
      dsimp only
      omega
    · rw [hlraw]; exact hr
  refine ⟨hin, k.toNat, ?_, ?_, ?_, ?_, ?_⟩
  · rw [hlift, Int.toNat_of_nonneg hk0]
  · exact get_pitch_of_fifth _ _ (by rw [hlift])
  · rw [midi_of_in_range _ hin, midi_of_in_range n ⟨hf, ho, hraw⟩, hlraw,
      Int.toNat_of_nonneg hk0]
  · rw [midi_of_in_range _ hin, hlraw]
    exact hkB
  · rw [midi_of_in_range n ⟨hf, ho, hraw⟩, Int.toNat_of_nonneg hk0]
    rcases hkmin with h | h
    · left
      rw [h]
      rfl
    · exact Or.inr h

/-- The raising loops of `chord_on` on one tone: with enough fuel the loop
returns the tone lifted past `B`, provided that tone is representable. -/
theorem raise_while_lift (B : Int) :
    ∀ (f : Nat) (n : note), n.in_range → fits8 (lift_past B n).raw_pitch →
      B - n.raw_pitch < 12 * (f : Int) →
      raise_while (fun x => decide (x.get_midi_pitch ≤ B)) (f + 1) n = some (lift_past B n) := by
  intro f
  induction f with
  | zero =>
    intro n hn _ hlt
    have hmn := midi_of_in_range n hn
    have hB : B < n.raw_pitch := by omega
    have hl : lift_past B n = n := by
      unfold lift_past
      rw [if_pos hB, add_zero]
    rw [hl]
    simp only [raise_while]
    rw [if_neg]
    simp only [decide_eq_true_eq, not_le]
    omega
  | succ f ih =>
    intro n hn hr hlt
    have hmn := midi_of_in_range n hn
    by_cases hc : n.get_midi_pitch ≤ B
    · obtain ⟨hf1, hf2, hf3⟩ := hn
      have hf1' := hf1
      have hf2' := hf2
      have hf3' := hf3
      unfold fits8 at hf1' hf2' hf3'
      have hraw0 : n.raw_pitch = n.m_fifth * 7 + n.m_octave * 12 + 12 := rfl
      have hnB : ¬ B < n.raw_pitch := by omega
      have hlraw : (lift_past B n).raw_pitch =
          n.raw_pitch + 12 * ((B - n.raw_pitch) / 12 + 1) := by
        unfold lift_past
        rw [if_neg hnB]
        unfold note.raw_pitch
        dsimp only
        ring
      have hr' := hr
      rw [hlraw] at hr'
      unfold fits8 at hr'
      have hadd : n.add intervals.P8 = ⟨n.m_fifth, n.m_octave + 1⟩ := by
        unfold note.add intervals.P8
        dsimp only
        rw [add_zero, wrap8_of_fits hf1, wrap8_of_fits ⟨by omega, by omega⟩]
      have hraw : (n.add intervals.P8).raw_pitch = n.raw_pitch + 12 := by
        rw [hadd]
        unfold note.raw_pitch
        dsimp only
        ring
      have hin : (n.add intervals.P8).in_range := by
        refine ⟨?_, ?_, ?_⟩
        · rw [hadd]; exact hf1
        · rw [hadd]; exact ⟨by dsimp only; omega, by dsimp only; omega⟩
        · rw [hraw]; exact ⟨by omega, by omega⟩
      have hsame : lift_past B (n.add intervals.P8) = lift_past B n := by
        unfold lift_past
        rw [hraw, if_neg hnB, hadd]
        dsimp only
        congr 1
        by_cases h12 : B < n.raw_pitch + 12
        · rw [if_pos h12]
          omega
        · rw [if_neg h12]
          omega
      rw [raise_while, if_pos (by simpa using hc), ← hsame]
      exact ih (n.add intervals.P8) hin (by rw [hsame]; exact hr)
        (by rw [hraw]; push_cast at hlt; omega)
    · have hB : B < n.raw_pitch := by omega
      have hl : lift_past B n = n := by
        unfold lift_past
        rw [if_pos hB, add_zero]
      rw [hl, raise_while, if_neg (by simpa using hc)]

/-- The tone loop of `chord_on`: with enough fuel, and when the notes it reads
are in range and the tones of the stack are representable, it returns the
stack, whose tones are raised by the fewest octaves past the threshold `B` the
loop compares with. -/
theorem chord_on_loop_ideal (f : Nat) (hf : 22 ≤ f) (s : scale_instance) (d : Nat) :
    ∀ (k i : Nat) (prev : Option note) (B : Int),
      (match prev with
        | some p => p.get_midi_pitch
        | none => s.root.get_midi_pitch - 1) = B →
      B ≤ 127 →
      (∀ j < k, (s.notes.getD ((d + (i + j) * 2) % s.notes.length) ⟨0, 0⟩).in_range) →
      (∀ r ∈ ideal_stack s d k i B, fits8 r.raw_pitch) →
      chord_on_loop (f + 1) s d k i prev = some (ideal_stack s d k i B) ∧
        stacked_from s d i B (ideal_stack s d k i B) := by
  intro k
  induction k with
  | zero =>
    intro i prev B _ _ _ _
    exact ⟨rfl, trivial⟩
  | succ k ih =>
    intro i prev B hB hhigh hnotes hfit
    have hin := hnotes 0 (by omega)
    rw [Nat.add_zero] at hin
    have hraw := hin.2.2
    unfold fits8 at hraw
    simp only [ideal_stack] at hfit ⊢
    have hrfit := hfit _ (List.mem_cons_self _ _)
    obtain ⟨hrin, hrel⟩ := lift_past_spec B _ hin hrfit
    have hr := raise_while_lift B f _ hin hrfit (by omega)
    have hmr := midi_of_in_range _ hrin
    have hrhigh := hrin.2.2.2
    obtain ⟨hrest, hst⟩ := ih (i + 1)
      (some (lift_past B (s.notes.getD ((d + i * 2) % s.notes.length) ⟨0, 0⟩)))
      (lift_past B (s.notes.getD ((d + i * 2) % s.notes.length) ⟨0, 0⟩)).raw_pitch
      hmr hrhigh
      (fun j hj => by
        have := hnotes (j + 1) (by omega)
        rw [show i + (j + 1) = i + 1 + j by omega] at this
        exact this)
      (fun r hr' => hfit r (List.mem_cons_of_mem _ hr'))
    refine ⟨?_, hrel, by rw [hmr]; exact hst⟩
    cases prev with
    | some p =>
      dsimp only at hB
      subst hB
      rw [chord_on_loop]
      simp only [hr, hrest]
    | none =>
      dsimp only at hB
      have hcond : (fun x : note => decide (x.get_midi_pitch < s.root.get_midi_pitch)) =
          (fun x : note => decide (x.get_midi_pitch ≤ B)) := by
        funext x
        apply decide_eq_decide.mpr
        omega
      rw [chord_on_loop]
      simp only [hcond, hr, hrest]

theorem ideal_stack_length (s : scale_instance) (d : Nat) :
    ∀ (k i : Nat) (B : Int), (ideal_stack s d k i B).length = k := by
  intro k
  induction k with
  | zero => intro _ _; rfl
  | succ k ih =>
    intro i B
    simp only [ideal_stack, List.length_cons, ih]

/-- The stacking relation read tone by tone. -/
theorem stacked_index (s : scale_instance) (d : Nat) :
    ∀ (chord : List note) (i : Nat) (B : Int), stacked_from s d i B chord →
      ∀ j < chord.length,
        raised_past (if j = 0 then B else (chord.getD (j - 1) ⟨0, 0⟩).get_midi_pitch)
          (s.notes.getD ((d + (i + j) * 2) % s.notes.length) ⟨0, 0⟩) (chord.getD j ⟨0, 0⟩) := by
  intro chord
  induction chord with
  | nil => intro i B _ j hj; cases hj
  | cons r rest ih =>
    intro i B h j hj
    obtain ⟨h1, h2⟩ := h
    cases j with
    | zero => simpa using h1
    | succ j =>
      have hj' : j < rest.length := by simpa using hj
      have := ih (i + 1) r.get_midi_pitch h2 j hj'
      rw [if_neg (by omega), Nat.add_sub_cancel, List.getD_cons_succ]
      rw [show i + (j + 1) = i + 1 + j by omega]
      cases j with
      | zero => simpa using this
      | succ j =>
        rw [if_neg (by omega), Nat.add_sub_cancel] at this
        rw [List.getD_cons_succ]
        exact this

/-- C30: for every scale instance of `N` notes, every degree in `1..N` and
every tone count `T` for which no conversion wraps (the root's pitch, the
scale notes read and the tones of the stack are representable), and with
enough fuel, `chord_on` returns `T` tones; tone `i` is scale note
`(d - 1 + 2 i) mod N` with its fifths coordinate and pitch class, moved up by
the fewest whole octaves that put the first tone at or above the scale root
and each further tone strictly above the tone before it. -/
theorem C30_chord_on_stacks (fuel : Nat) (s : scale_instance) (deg : degree) (T : Nat)
    (hfuel : 23 ≤ fuel) (hdeg : 1 ≤ deg.num ∧ deg.num ≤ (s.notes.length : Int))
    (hfits : stack_in_range s (deg.num - 1).toNat T) :
    ∃ chord, s.chord_on fuel deg T = some chord ∧ chord.length = T ∧
      ∀ i < T,
        raised_past
          (if i = 0 then s.root.get_midi_pitch - 1
            else (chord.getD (i - 1) ⟨0, 0⟩).get_midi_pitch)
          (s.notes.getD (((deg.num - 1).toNat + i * 2) % s.notes.length) ⟨0, 0⟩)
          (chord.getD i ⟨0, 0⟩) := by
  obtain ⟨f, rfl⟩ : ∃ f, fuel = f + 1 := ⟨fuel - 1, by omega⟩
  obtain ⟨hroot, hnotes, hstack⟩ := hfits
  have hmr : s.root.get_midi_pitch = s.root.raw_pitch := wrap8_of_fits hroot
  have hrr := hroot
  unfold fits8 at hrr
  rw [← hmr] at hstack
  obtain ⟨hch, hst⟩ := chord_on_loop_ideal f (by omega) s (deg.num - 1).toNat T 0 none
    (s.root.get_midi_pitch - 1) rfl (by omega)
    (fun j hj => by rw [Nat.zero_add]; exact hnotes j hj) hstack
  refine ⟨ideal_stack s (deg.num - 1).toNat T 0 (s.root.get_midi_pitch - 1), ?_,
    ideal_stack_length s _ T 0 _, ?_⟩
  · unfold scale_instance.chord_on
    rw [if_pos ⟨hdeg.1, hdeg.2⟩]
    exact hch
  · intro i hi
    have := stacked_index s (deg.num - 1).toNat _ 0 _ hst i
      (by rw [ideal_stack_length]; exact hi)
    rw [Nat.zero_add] at this
    exact this

set_option maxRecDepth 1000000 in
theorem C30_witness :
    stack_in_range (scale_of (notes.C.at_octave 4) scale_patterns.major) 0 7 ∧
    ((scale_of (notes.C.at_octave 4) scale_patterns.major).chord_on 23 ⟨1, 0⟩ 7).map
        (fun chord => chord.map note.get_midi_pitch) = some [60, 64, 67, 71, 74, 77, 81] ∧
    (scale_of (notes.C.at_octave 4) scale_patterns.major).chord_on 23 ⟨5, 0⟩ 4 =
      some [notes.G.at_octave 4, notes.B.at_octave 4, notes.D.at_octave 5,
        notes.F.at_octave 5] ∧
    ∃ chord, (scale_of (notes.C.at_octave 4) scale_patterns.major).chord_on 23 ⟨1, 0⟩ 7
        = some chord ∧ chord.length = 7 ∧
      ∀ i < 7,
        raised_past
          (if i = 0 then (scale_of (notes.C.at_octave 4) scale_patterns.major).root.get_midi_pitch - 1
            else (chord.getD (i - 1) ⟨0, 0⟩).get_midi_pitch)
          ((scale_of (notes.C.at_octave 4) scale_patterns.major).notes.getD
            ((((⟨1, 0⟩ : degree).num - 1).toNat + i * 2) %
              (scale_of (notes.C.at_octave 4) scale_patterns.major).notes.length) ⟨0, 0⟩)
          (chord.getD i ⟨0, 0⟩) :=
  ⟨by decide, by decide, by decide,
    C30_chord_on_stacks 23 (scale_of (notes.C.at_octave 4) scale_patterns.major) ⟨1, 0⟩ 7
      (by decide) (by decide) (by decide)⟩

/-! ## C31: inversions of a pattern -/

theorem semitones_eq (iv : interval) : iv.semitones = (iv.fifths * 7) % 12 := by
  unfold interval.semitones
  exact fold12_eq _

theorem add_octave_coords (iv : interval) (hf : fits8 iv.fifths) (ho : fits8 (iv.octaves + 1)) :
    iv.add intervals.P8 = ⟨iv.fifths, iv.octaves + 1⟩ := by
  unfold interval.add intervals.P8
  dsimp only
  rw [add_zero, wrap8_of_fits hf, wrap8_of_fits ho]

theorem add_octave_semitones (iv : interval) (hf : fits8 iv.fifths) :
    (iv.add intervals.P8).semitones = iv.semitones := by
  rw [semitones_eq, semitones_eq]
  unfold interval.add intervals.P8
  dsimp only
  rw [add_zero, wrap8_of_fits hf]

/-- Positions of the inverted pattern. -/
theorem inversion_index (p : chord_pattern) (M : Nat) (hM : M ≤ p.length) :
    (p.inversion M).length = p.length ∧
    (∀ i, i < p.length - M → (p.inversion M)[i]? = p[M + i]?) ∧
    (∀ i, i < M → (p.inversion M)[p.length - M + i]? =
      p[i]?.map (fun iv => iv.add intervals.P8)) := by
  unfold chord_pattern.inversion
  refine ⟨?_, ?_, ?_⟩
  · rw [List.length_append, List.length_map, List.length_drop, List.length_take]
    omega
  · intro i hi
    rw [List.getElem?_append_left (by rw [List.length_drop]; exact hi), List.getElem?_drop]
  · intro i hi
    rw [List.getElem?_append_right (by rw [List.length_drop]; omega), List.length_drop,
      List.getElem?_map, List.getElem?_take]
    have : p.length - M + i - (p.length - M) = i := by omega
    rw [this, if_pos hi]

theorem inversion_semitones (p : chord_pattern) (M : Nat)
    (hp : ∀ iv ∈ p, fits8 iv.fifths) :
    ((p.inversion M).map interval.semitones).Perm (p.map interval.semitones) := by
  unfold chord_pattern.inversion
  rw [List.map_append, List.map_map]
  have h1 : (p.take M).map (interval.semitones ∘ fun iv => iv.add intervals.P8) =
      (p.take M).map interval.semitones := by
    apply List.map_congr_left
    intro iv hiv
    exact add_octave_semitones iv (hp iv (List.mem_of_mem_take hiv))
  rw [h1]
  have h2 : p.map interval.semitones =
      (p.take M).map interval.semitones ++ (p.drop M).map interval.semitones := by
    rw [← List.map_append, List.take_append_drop]
  rw [h2]
  exact List.perm_append_comm

/-- The sizes of an inverted pattern ascend when the pattern ascends within
one octave. -/
theorem inversion_sizes (p : chord_pattern) (M : Nat) (hp : ascends_within_octave p) :
    (p.inversion M).Pairwise (fun a b => a.size < b.size) := by
  obtain ⟨hasc, hspan, hfit⟩ := hp
  unfold chord_pattern.inversion
  have hsize : ∀ iv ∈ p, (iv.add intervals.P8).size = iv.size + 12 := by
    intro iv hiv
    rw [add_octave_coords iv (hfit iv hiv).1 (hfit iv hiv).2.2]
    unfold interval.size
    dsimp only
    ring
  rw [List.pairwise_append]
  refine ⟨hasc.sublist (List.drop_sublist M p), ?_, ?_⟩
  · rw [List.pairwise_map]
    apply (hasc.sublist (List.take_sublist M p)).imp_of_mem
    intro a b ha hb hab
    rw [hsize a (List.mem_of_mem_take ha), hsize b (List.mem_of_mem_take hb)]
    omega
  · intro a ha b hb
    obtain ⟨c, hc, rfl⟩ := List.mem_map.mp hb
    rw [hsize c (List.mem_of_mem_take hc)]
    have := hspan c (List.mem_of_mem_take hc) a (List.mem_of_mem_drop ha)
    omega

/-- The notes of a chord ascend when the sizes of its pattern do and no
conversion wraps. -/
theorem chord_of_ascending (R : note) (q : chord_pattern) (hR : no_overflow R q)
    (hq : q.Pairwise (fun a b => a.size < b.size)) : strictly_ascending (chord_of R q) := by
  unfold strictly_ascending chord_of
  rw [List.pairwise_map]
  apply hq.imp_of_mem
  intro a b ha hb hab
  rw [get_midi_pitch_add R a (hR a ha), get_midi_pitch_add R b (hR b hb)]
  unfold interval.size at hab
  linarith

/-- C31 (as stated, refuted): on the root C9 the first inversion of the major
triad is E9, G9, C10 with absolute pitches 124, 127 and 132, and 132 wraps to
-124, so the notes do not ascend. -/
theorem C31_counterexample :
    ascends_within_octave chord_patterns.major_triad ∧
    (chord_of (notes.C.at_octave 9) (chord_patterns.major_triad.inversion 1)).map
        note.get_midi_pitch = [124, 127, -124] ∧
    ¬ strictly_ascending
        (chord_of (notes.C.at_octave 9) (chord_patterns.major_triad.inversion 1)) := by
  decide

/-- C31 (amended): for every pattern `p` of `N` tones and `M ≤ N`,
`p.inversion<M>()` has `N` tones, tone `i < N - M` is tone `M + i` of `p`, and
tone `N - M + i`, for `i < M`, is tone `i` of `p` plus P8; its pitch classes
are a permutation of those of `p`, and `p.inversion<0>() = p`. For a pattern
whose tones ascend within one octave, and a root such that no conversion wraps
for the inverted pattern, the notes of the inverted chord ascend strictly in
absolute pitch. -/
theorem C31_inversion_structure (p : chord_pattern) (M : Nat) (hM : M ≤ p.length)
    (hp : ∀ iv ∈ p, fits8 iv.fifths) :
    (p.inversion M).length = p.length ∧
    (∀ i, i < p.length - M → (p.inversion M)[i]? = p[M + i]?) ∧
    (∀ i, i < M → (p.inversion M)[p.length - M + i]? =
      p[i]?.map (fun iv => iv.add intervals.P8)) ∧
    ((p.inversion M).map interval.semitones).Perm (p.map interval.semitones) ∧
    p.inversion 0 = p ∧
    (ascends_within_octave p → ∀ R : note, no_overflow R (p.inversion M) →
      strictly_ascending (chord_of R (p.inversion M))) := by
  obtain ⟨h1, h2, h3⟩ := inversion_index p M hM
  refine ⟨h1, h2, h3, inversion_semitones p M hp, ?_, ?_⟩
  · unfold chord_pattern.inversion
    simp
  · intro hasc R hR
    exact chord_of_ascending R _ hR (inversion_sizes p M hasc)

theorem C31_witness :
    ascends_within_octave chord_patterns.major_triad ∧
    no_overflow (notes.C.at_octave 4) (chord_patterns.major_triad.inversion 1) ∧
    (chord_of (notes.C.at_octave 4) (chord_patterns.major_triad.inversion 1)).map
        note.pitch_name = ["E", "G", "C"] ∧
    strictly_ascending
      (chord_of (notes.C.at_octave 4) (chord_patterns.major_triad.inversion 1)) :=
  ⟨by decide, by decide, by decide,
    (C31_inversion_structure chord_patterns.major_triad 1 (by decide) (by decide)).2.2.2.2.2
      (by decide) (notes.C.at_octave 4) (by decide)⟩

/-! ## C32: bass and inversion go together -/

/-- Every pitch class of the input belongs to the quality of a match. -/
theorem find_matches_superset (input_pcs input_count : Nat) (m : match_result)
    (h : m ∈ find_matches input_pcs input_count) (j : Nat) (hj : input_pcs.testBit j = true) :
    m.info.pitch_class_set.testBit j = true := by
  unfold find_matches at h
  dsimp only at h
  have hexact : ∀ x ∈ (chord_db.filter (fun info => input_pcs == info.pitch_class_set)).map
      (fun info => (⟨info, []⟩ : match_result)), x.info.pitch_class_set.testBit j = true := by
    intro x hx
    obtain ⟨info, hinfo, rfl⟩ := List.mem_map.mp hx
    have heq : input_pcs = info.pitch_class_set := by
      simpa using (List.mem_filter.mp hinfo).2
    dsimp only
    rw [← heq]
    exact hj
  have hom : m ∈ chord_db.filterMap (omission_match input_pcs input_count) →
      m.info.pitch_class_set.testBit j = true := by
    intro hm
    obtain ⟨info, _, hsome⟩ := List.mem_filterMap.mp hm
    have hi := (omission_match_sound _ _ _ _ hsome).1
    unfold omission_match at hsome
    dsimp only at hsome
    split_ifs at hsome with h1 h2 h3 h4 h5
    have hand : (input_pcs &&& info.pitch_class_set) = input_pcs := by
      by_contra hne
      exact h2 hne
    have hbit : (input_pcs &&& info.pitch_class_set).testBit j = true := by
      rw [hand]
      exact hj
    rw [Nat.testBit_and, Bool.and_eq_true] at hbit
    rw [hi]
    exact hbit.2
  split_ifs at h
  all_goals first | exact hexact m h | exact hom h

set_option maxRecDepth 1000000 in
set_option maxHeartbeats 0 in
/-- For a catalog quality, a non-zero offset that belongs to the pitch-class
set is found by `detect_inversion`. -/
theorem detect_inversion_finds :
    ∀ e ∈ chord_catalog, ∀ s ∈ ([1, 2, 3, 4, 5, 6, 7, 8, 9, 10, 11] : List Int),
      (make_chord_info e.1 e.2).pitch_class_set.testBit s.toNat = true →
      1 ≤ detect_inversion s (make_chord_info e.1 e.2) := by
  decide

/-- An interpretation built for a match of the input set relative to the
root, with a sounding note as bass reference, has a bass exactly when its
inversion is at least 1. -/
theorem built_bass_iff (ns : List note) (cnt : Nat) (r low : note) (hlow : low ∈ ns)
    (m : match_result) (hm : m ∈ find_matches (build_pcs ns r.get_pitch) cnt) :
    ((build_analysis r m low).bass ≠ none ↔ 1 ≤ (build_analysis r m low).inversion) ∧
    ((build_analysis r m low).bass = none ↔ (build_analysis r m low).inversion = 0) := by
  unfold build_analysis
  dsimp only
  by_cases hne : r.get_pitch ≠ low.get_pitch
  · rw [if_pos hne]
    dsimp only
    obtain ⟨hsemi, h1, h11⟩ := bass_semi_eq r low hne
    rw [hsemi]
    have hs : (low.get_pitch - r.get_pitch) % 12 ∈
        ([1, 2, 3, 4, 5, 6, 7, 8, 9, 10, 11] : List Int) := by
      simp only [List.mem_cons, List.mem_singleton]
      omega
    have hbit : (build_pcs ns r.get_pitch).testBit ((low.get_pitch - r.get_pitch) % 12).toNat
        = true :=
      (build_pcs_testBit ns _ (get_pitch_range r) _ (by omega)).mpr ⟨low, hlow, rfl⟩
    have hdb := (find_matches_sound _ _ m hm).1
    unfold chord_db at hdb
    obtain ⟨e, he, heq⟩ := List.mem_map.mp hdb
    have hfound := detect_inversion_finds e he _ hs
      (by rw [heq]; exact find_matches_superset _ _ m hm _ hbit)
    rw [heq] at hfound
    constructor
    · exact ⟨fun _ => hfound, fun _ => by simp⟩
    · constructor
      · intro h
        cases h
      · intro h
        omega
  · rw [if_neg hne]
    dsimp only
    constructor
    · constructor
      · intro h
        exact absurd rfl h
      · intro h
        omega
    · exact ⟨fun _ => rfl, fun _ => rfl⟩

/-- C32: in every interpretation returned by `analyze()` or by
`analyze(notes, root)` a bass is present exactly when the inversion is at
least 1, and absent exactly when the inversion is 0. -/
theorem C32_bass_iff_inversion :
    (∀ (notes : List note) (a : chord_analysis), a ∈ analyze_all notes →
      (a.bass ≠ none ↔ 1 ≤ a.inversion) ∧ (a.bass = none ↔ a.inversion = 0)) ∧
    (∀ (notes : List note) (root : note) (a : chord_analysis),
      analyze_with_root notes root = some a →
      (a.bass ≠ none ↔ 1 ≤ a.inversion) ∧ (a.bass = none ↔ a.inversion = 0)) := by
  constructor
  · intro ns a ha
    obtain ⟨low, hlow, n, _, m, hm, rfl⟩ := analyze_all_sound ns a ha
    exact built_bass_iff ns _ n low hlow m hm
  · intro ns root a h
    unfold analyze_with_root at h
    dsimp only at h
    cases hmin : min_element ns with
    | none => rw [hmin] at h; cases h
    | some low =>
      rw [hmin] at h
      dsimp only at h
      have hne : ns ≠ [] := by
        intro hnil
        rw [hnil] at hmin
        cases hmin
      obtain ⟨low', hlow', hmem, _⟩ := min_element_spec ns hne
      rw [hmin] at hlow'
      cases hlow'
      cases hf : find_matches (build_pcs ns root.get_pitch)
          (popcount (build_pcs ns root.get_pitch)) with
      | nil => rw [hf] at h; cases h
      | cons m rest =>
        rw [hf] at h
        dsimp only at h
        cases h
        exact built_bass_iff ns _ root low hmem m (by rw [hf]; exact List.mem_cons_self _ _)

/-! ## Canonical spelling -/

/-- The simplified note: `q` is the floor of `(fifths + offset) / 12`. -/
theorem simplify_window (n : note) (pref : accidental_preference) :
    ∃ q : Int, n.simplify pref = ⟨n.m_fifth - q * 12, wrap8 (n.m_octave + q * 7)⟩ ∧
      0 ≤ n.m_fifth + preference_offset pref - q * 12 ∧
      n.m_fifth + preference_offset pref - q * 12 ≤ 11 := by
  unfold note.simplify preference_offset
  simp only [tdiv_cases _ 12 (by norm_num)]
  generalize hoff : (if pref = accidental_preference.sharp then (1 : Int)
    else if pref = accidental_preference.flat then 6 else 5) = off
  have hoff2 : off = 1 ∨ off = 6 ∨ off = 5 := by
    cases pref <;> simp at hoff <;> omega
  generalize hq : (if n.m_fifth + off ≥ 0 then
      (if 0 ≤ n.m_fifth + off then (n.m_fifth + off) / 12 else -(-(n.m_fifth + off) / 12))
    else (if 0 ≤ n.m_fifth + off - 11 then (n.m_fifth + off - 11) / 12
      else -(-(n.m_fifth + off - 11) / 12))) = q
  have hb : 0 ≤ n.m_fifth + off - q * 12 ∧ n.m_fifth + off - q * 12 ≤ 11 := by
    split at hq <;> (try split at hq) <;> omega
  refine ⟨q, ?_, hb⟩
  rw [wrap8_of_fits (x := n.m_fifth - q * 12) ⟨by omega, by omega⟩]

theorem wrap8_idem (x : Int) : wrap8 (wrap8 x) = wrap8 x := by
  unfold wrap8
  omega

theorem simplify_idem (n : note) (pref : accidental_preference) :
    (n.simplify pref).simplify pref = n.simplify pref := by
  obtain ⟨q, hq, h1, h2⟩ := simplify_window n pref
  obtain ⟨q', hq', h1', h2'⟩ := simplify_window (n.simplify pref) pref
  rw [hq] at hq' h1' h2' ⊢
  dsimp only at hq' h1' h2'
  have hzero : q' = 0 := by omega
  rw [hq', hzero]
  simp only [zero_mul, sub_zero, add_zero, wrap8_idem]

/-- Notes of equal absolute ordinal pitch have the same simplified note. -/
theorem simplify_of_raw_eq (a b : note) (pref : accidental_preference)
    (h : a.raw_pitch = b.raw_pitch) : a.simplify pref = b.simplify pref := by
  obtain ⟨qa, hqa, ha1, ha2⟩ := simplify_window a pref
  obtain ⟨qb, hqb, hb1, hb2⟩ := simplify_window b pref
  unfold note.raw_pitch at h
  have hf : a.m_fifth - qa * 12 = b.m_fifth - qb * 12 := by omega
  have ho : a.m_octave + qa * 7 = b.m_octave + qb * 7 := by omega
  rw [hqa, hqb, hf, ho]

/-! ## C33: the order of the input notes -/

theorem forall₂_imp_mem {α β : Type} (R S : α → β → Prop) {l : List α} {m : List β}
    (h : List.Forall₂ R l m) (hRS : ∀ a ∈ l, ∀ b ∈ m, R a b → S a b) : List.Forall₂ S l m := by
  induction h with
  | nil => exact List.Forall₂.nil
  | cons hab _ ih =>
    exact List.Forall₂.cons (hRS _ (List.mem_cons_self _ _) _ (List.mem_cons_self _ _) hab)
      (ih (fun a ha b hb => hRS a (List.mem_cons_of_mem _ ha) b (List.mem_cons_of_mem _ hb)))

theorem or_bit_comm (s x y : Nat) :
    ((s ||| (1 <<< x)) % 65536 ||| (1 <<< y)) % 65536 =
      ((s ||| (1 <<< y)) % 65536 ||| (1 <<< x)) % 65536 := by
  apply Nat.eq_of_testBit_eq
  intro i
  have h16 : (65536 : Nat) = 2 ^ 16 := by norm_num
  simp only [h16, Nat.testBit_mod_two_pow, Nat.testBit_or]
  cases decide (i < 16) <;> cases s.testBit i <;> cases (1 <<< x).testBit i <;>
    cases (1 <<< y).testBit i <;> rfl

/-- The pitch-class set does not depend on the order of the notes. -/
theorem build_pcs_perm (ns ns' : List note) (h : ns.Perm ns') (r : Int) :
    build_pcs ns r = build_pcs ns' r := by
  unfold build_pcs
  haveI : RightCommutative (fun (set : Nat) (n : note) =>
      (set ||| (1 <<< ((n.get_pitch - r + 12).tmod 12).toNat)) % 65536) :=
    ⟨fun s a b => or_bit_comm s _ _⟩
  exact h.foldl_eq 0

/-- Notes of equal, representable absolute pitch: same pitch class and same
simplified note. -/
theorem same_pitch_facts (a b : note) (ha : fits8 a.raw_pitch) (hb : fits8 b.raw_pitch)
    (h : a.get_midi_pitch = b.get_midi_pitch) :
    a.get_pitch = b.get_pitch ∧ a.simplify = b.simplify := by
  have h1 : a.get_midi_pitch = a.raw_pitch := wrap8_of_fits ha
  have h2 : b.get_midi_pitch = b.raw_pitch := wrap8_of_fits hb
  have hraw : a.raw_pitch = b.raw_pitch := by rw [← h1, ← h2]; exact h
  refine ⟨?_, simplify_of_raw_eq a b _ hraw⟩
  rw [get_pitch_eq, get_pitch_eq]
  unfold note.raw_pitch at hraw
  omega

/-- The sorted notes of two orderings of the same notes agree in absolute
pitch position by position. -/
theorem sorted_notes_perm (ns ns' : List note) (h : ns.Perm ns') :
    List.Forall₂ (fun a b : note => a.get_midi_pitch = b.get_midi_pitch)
      (sorted_notes ns) (sorted_notes ns') := by
  obtain ⟨hs, hp⟩ := sorted_notes_spec ns
  obtain ⟨hs', hp'⟩ := sorted_notes_spec ns'
  have hperm : ((sorted_notes ns).map note.get_midi_pitch).Perm
      ((sorted_notes ns').map note.get_midi_pitch) :=
    ((hp.trans h).trans hp'.symm).map _
  have hsorted : ((sorted_notes ns).map note.get_midi_pitch).Sorted (fun x y : Int => x ≤ y) :=
    List.pairwise_map.mpr hs
  have hsorted' : ((sorted_notes ns').map note.get_midi_pitch).Sorted (fun x y : Int => x ≤ y) :=
    List.pairwise_map.mpr hs'
  have heq := List.eq_of_perm_of_sorted hperm hsorted hsorted'
  have h2 : List.Forall₂ (fun x y : Int => x = y) ((sorted_notes ns).map note.get_midi_pitch)
      ((sorted_notes ns').map note.get_midi_pitch) := by
    rw [heq]
    exact forall₂_refl_of _ (fun _ => rfl) _
  rw [List.forall₂_map_left_iff, List.forall₂_map_right_iff] at h2
  exact h2

theorem build_analysis_same (n n' low low' : note) (m : match_result)
    (hn : n.get_pitch = n'.get_pitch ∧ n.simplify = n'.simplify)
    (hl : low.get_pitch = low'.get_pitch) (hlm : low.get_midi_pitch = low'.get_midi_pitch) :
    same_reading (build_analysis n m low) (build_analysis n' m low') := by
  unfold build_analysis same_reading
  dsimp only
  rw [← hn.1, ← hl, ← hn.2]
  by_cases hc : n.get_pitch ≠ low.get_pitch
  · rw [if_pos hc, if_pos hc]
    exact ⟨rfl, rfl, rfl, rfl, by simp [hlm]⟩
  · rw [if_neg hc, if_neg hc]
    exact ⟨rfl, rfl, rfl, rfl, rfl⟩

theorem candidate_loop_perm (ns ns' : List note) (hperm : ns.Perm ns') (cnt : Nat)
    (low low' : note) (hl : low.get_pitch = low'.get_pitch)
    (hlm : low.get_midi_pitch = low'.get_midi_pitch) :
    ∀ (l l' : List note),
      List.Forall₂ (fun a b : note => a.get_midi_pitch = b.get_midi_pitch ∧
        a.get_pitch = b.get_pitch ∧ a.simplify = b.simplify) l l' →
      ∀ tried : Nat, List.Forall₂ same_reading (candidate_loop ns cnt low l tried)
        (candidate_loop ns' cnt low' l' tried) := by
  intro l l' h
  induction h with
  | nil => intro _; exact List.Forall₂.nil
  | @cons n n' rest rest' hnn _ ih =>
    intro tried
    simp only [candidate_loop]
    rw [← hnn.2.1, ← build_pcs_perm ns ns' hperm]
    by_cases ht : tried &&& (1 <<< n.get_pitch.toNat) ≠ 0
    · rw [if_pos ht, if_pos ht]
      exact ih tried
    · rw [if_neg ht, if_neg ht]
      apply forall₂_append
      · apply forall₂_map_same
        intro m _
        exact build_analysis_same n n' low low' m hnn.2 hl hlm
      · exact ih _

theorem analysis_le_same (a b x y : chord_analysis) (hax : same_reading a x)
    (hby : same_reading b y) : analysis_le a b ↔ analysis_le x y := by
  obtain ⟨_, q1, i1, o1, _⟩ := hax
  obtain ⟨_, q2, i2, o2, _⟩ := hby
  unfold analysis_le analysis_less
  rw [q1, i1, o1, q2, i2, o2]

/-- C33: for every note collection whose absolute pitches are representable
and every permutation of it, `analyze()` returns for both the same number of
interpretations, and position by position they have equal root, quality,
inversion and omissions, and basses of equal absolute pitch. -/
theorem C33_order_independent (notes notes' : List note) (hperm : notes.Perm notes')
    (hfit : ∀ n ∈ notes, fits8 n.raw_pitch) :
    (analyze_all notes').length = (analyze_all notes).length ∧
    List.Forall₂ same_reading (analyze_all notes) (analyze_all notes') := by
  have hmain : List.Forall₂ same_reading (analyze_all notes) (analyze_all notes') := by
    unfold analyze_all
    apply forall₂_insertionSort _ _ _ analysis_le_same
    have hsorted : List.Forall₂ (fun a b : note => a.get_midi_pitch = b.get_midi_pitch ∧
        a.get_pitch = b.get_pitch ∧ a.simplify = b.simplify)
        (sorted_notes notes) (sorted_notes notes') := by
      apply forall₂_imp_mem _ _ (sorted_notes_perm notes notes' hperm)
      intro a ha b hb hab
      have ha' : a ∈ notes := (sorted_notes_spec notes).2.subset ha
      have hb' : b ∈ notes := hperm.symm.subset ((sorted_notes_spec notes').2.subset hb)
      exact ⟨hab, same_pitch_facts a b (hfit a ha') (hfit b hb') hab⟩
    unfold generated
    revert hsorted
    generalize sorted_notes notes = s
    generalize sorted_notes notes' = s'
    intro hsorted
    cases hsorted with
    | nil => exact List.Forall₂.nil
    | @cons low low' rest rest' hlow hrest =>
      dsimp only
      rw [← hlow.2.1, ← build_pcs_perm notes notes' hperm]
      exact candidate_loop_perm notes notes' hperm _ low low' hlow.2.1 hlow.1 _ _
        (List.Forall₂.cons hlow hrest) 0
  exact ⟨hmain.length_eq.symm, hmain⟩

set_option maxRecDepth 1000000 in
theorem C33_witness :
    [notes.G.at_octave 4, notes.Bb.at_octave 4, notes.C.at_octave 4, notes.E.at_octave 4].Perm
      (chord_of (notes.C.at_octave 4) chord_patterns.dom7) ∧
    (analyze_all (chord_of (notes.C.at_octave 4) chord_patterns.dom7)).length =
      (analyze_all
        [notes.G.at_octave 4, notes.Bb.at_octave 4, notes.C.at_octave 4,
          notes.E.at_octave 4]).length ∧
    List.Forall₂ same_reading
      (analyze_all
        [notes.G.at_octave 4, notes.Bb.at_octave 4, notes.C.at_octave 4, notes.E.at_octave 4])
      (analyze_all (chord_of (notes.C.at_octave 4) chord_patterns.dom7)) :=
  ⟨by decide,
    C33_order_independent
      [notes.G.at_octave 4, notes.Bb.at_octave 4, notes.C.at_octave 4, notes.E.at_octave 4]
      (chord_of (notes.C.at_octave 4) chord_patterns.dom7) (by decide) (by decide)⟩

/-! ## C34: transposition -/

/-- The bass of an interpretation is one of the input notes. -/
theorem analyze_all_bass_mem (ns : List note) (a : chord_analysis) (ha : a ∈ analyze_all ns)
    (x : note) (hx : a.bass = some x) : x ∈ ns := by
  obtain ⟨low, hlow, n, _, m, _, rfl⟩ := analyze_all_sound ns a ha
  unfold build_analysis at hx
  dsimp only at hx
  split_ifs at hx
  cases hx
  exact hlow

theorem transposed_note (n : note) (iv : interval)
    (h : fits8 n.raw_pitch ∧ fits8 (n.m_fifth + iv.fifths) ∧ fits8 (n.m_octave + iv.octaves) ∧
      fits8 ((n.m_fifth + iv.fifths) * 7 + (n.m_octave + iv.octaves) * 12 + 12)) :
    (n.add iv).get_midi_pitch = n.get_midi_pitch + iv.size ∧
    (n.add iv).get_pitch = (n.get_pitch + iv.semitones) % 12 := by
  have hm : n.get_midi_pitch = n.raw_pitch := wrap8_of_fits h.1
  rw [get_midi_pitch_add n iv h.2, get_pitch_add n iv h.2.1, hm, get_pitch_eq, semitones_eq]
  unfold note.raw_pitch interval.size
  constructor
  · ring
  · omega

/-- C34: for every note collection and interval such that no coordinate and no
absolute pitch wraps, `analyze()` of the transposed notes returns a list of the
same length whose interpretations are, position by position, those of the
original with the same quality, inversion and omissions, the root's pitch
class shifted by the interval's semitones modulo 12, and the bass absent in
both or shifted likewise. -/
theorem C34_transposition (notes : List note) (iv : interval)
    (h : transposition_fits notes iv) :
    (analyze_all (notes.map (fun n => n.add iv))).length = (analyze_all notes).length ∧
    List.Forall₂ (transposed_reading iv.semitones) (analyze_all notes)
      (analyze_all (notes.map (fun n => n.add iv))) := by
  have hshift := analyze_all_transpose notes (fun n => n.add iv) iv.size iv.semitones
    (fun n hn => (transposed_note n iv (h n hn)).1)
    (fun n hn => (transposed_note n iv (h n hn)).2)
  refine ⟨hshift.length_eq.symm, ?_⟩
  apply forall₂_imp_mem _ _ hshift
  intro a ha b _ hab
  obtain ⟨hq, hi, ho, hr, hb⟩ := hab
  refine ⟨hq, hi, ho, hr, ?_⟩
  rw [hb]
  cases hbass : a.bass with
  | none => rfl
  | some x =>
    have hx := analyze_all_bass_mem notes a ha x hbass
    simp only [Option.map_some']
    rw [(transposed_note x iv (h x hx)).2]

set_option maxRecDepth 1000000 in
theorem C34_witness :
    transposition_fits (chord_of (notes.C.at_octave 4) chord_patterns.dom7) intervals.M2 ∧
    (analyze_all ((chord_of (notes.C.at_octave 4) chord_patterns.dom7).map
        (fun n => n.add intervals.M2))).length =
      (analyze_all (chord_of (notes.C.at_octave 4) chord_patterns.dom7)).length ∧
    List.Forall₂ (transposed_reading intervals.M2.semitones)
      (analyze_all (chord_of (notes.C.at_octave 4) chord_patterns.dom7))
      (analyze_all ((chord_of (notes.C.at_octave 4) chord_patterns.dom7).map
        (fun n => n.add intervals.M2))) :=
  ⟨by decide, C34_transposition _ intervals.M2 (by decide)⟩

/-! ## C35: catalog sets are pairwise distinct -/

theorem catalog_sets_nodup : (chord_db.map (fun info => info.pitch_class_set)).Nodup := by
  decide

/-- At most one entry of a table with pairwise distinct sets has a given set. -/
theorem filter_set_length (db : List chord_info)
    (hdb : (db.map (fun info => info.pitch_class_set)).Nodup) (pcs : Nat) :
    (db.filter (fun info => pcs == info.pitch_class_set)).length ≤ 1 := by
  induction db with
  | nil => simp
  | cons x xs ih =>
    rw [List.map_cons, List.nodup_cons] at hdb
    rw [List.filter_cons]
    by_cases hx : (pcs == x.pitch_class_set) = true
    · rw [if_pos hx]
      have heq : pcs = x.pitch_class_set := by simpa using hx
      have hnil : xs.filter (fun info => pcs == info.pitch_class_set) = [] := by
        rw [List.filter_eq_nil_iff]
        intro y hy hy'
        have : pcs = y.pitch_class_set := by simpa using hy'
        apply hdb.1
        rw [← heq, this]
        exact List.mem_map.mpr ⟨y, hy, rfl⟩
      rw [hnil]
      simp
    · rw [if_neg hx]
      exact ih hdb.2

theorem perm_short_eq {α : Type} {l m : List α} (h : l.Perm m) (hl : l.length ≤ 1) : l = m := by
  cases l with
  | nil => exact (List.nil_perm.mp h).symm
  | cons a l' =>
    cases l' with
    | nil => exact List.singleton_perm.mp h
    | cons b l'' => simp at hl

theorem missing_none_subset (q inp : Nat) (h : missing_count q inp = 0) (i : Nat) (hi : i < 16)
    (hq : q.testBit i = true) : inp.testBit i = true := by
  unfold missing_count at h
  rw [List.length_eq_zero, List.filter_eq_nil_iff] at h
  have := h i (List.mem_range.mpr hi)
  rw [hq] at this
  simpa using this

/-- A match without omissions has the input set as its set. -/
theorem exact_of_no_omission (input_pcs input_count : Nat) (m : match_result)
    (hm : m ∈ find_matches input_pcs input_count) (hom : m.omissions = []) :
    m.info.pitch_class_set = input_pcs := by
  obtain ⟨hdb, _, hmiss⟩ := find_matches_sound _ _ m hm
  rw [hom, List.length_nil] at hmiss
  unfold chord_db at hdb
  obtain ⟨e, he, heq⟩ := List.mem_map.mp hdb
  have hlt := (catalog_sets_low_bits e he).1
  rw [heq] at hlt
  apply Nat.eq_of_testBit_eq
  intro i
  by_cases hi : i < 16
  · cases hq : m.info.pitch_class_set.testBit i with
    | true => exact (missing_none_subset _ _ hmiss.symm i hi hq).symm
    | false =>
      cases hin : input_pcs.testBit i with
      | false => rfl
      | true =>
        have := find_matches_superset _ _ m hm i hin
        rw [hq] at this
        cases this
  · have h1 : m.info.pitch_class_set.testBit i = false := by
      apply Nat.testBit_lt_two_pow
      calc m.info.pitch_class_set < 4096 := hlt
        _ = 2 ^ 12 := by norm_num
        _ ≤ 2 ^ i := Nat.pow_le_pow_right (by norm_num) (by omega)
    cases hin : input_pcs.testBit i with
    | false => exact h1
    | true =>
      have := find_matches_superset _ _ m hm i hin
      rw [h1] at this
      cases this

/-- With a match without omissions, the result of `find_matches` is that
match alone. -/
theorem find_matches_exact_single (input_pcs input_count : Nat) (m : match_result)
    (hm : m ∈ find_matches input_pcs input_count) (hom : m.omissions = []) :
    find_matches input_pcs input_count = [m] := by
  have hset := exact_of_no_omission _ _ m hm hom
  have hdb := (find_matches_sound _ _ m hm).1
  have hfilter : m.info ∈ chord_db.filter (fun info => input_pcs == info.pitch_class_set) :=
    List.mem_filter.mpr ⟨hdb, by simp [hset]⟩
  have hlen := filter_set_length chord_db catalog_sets_nodup input_pcs
  have hsingle : chord_db.filter (fun info => input_pcs == info.pitch_class_set) = [m.info] := by
    cases hf : chord_db.filter (fun info => input_pcs == info.pitch_class_set) with
    | nil => rw [hf] at hfilter; cases hfilter
    | cons x xs =>
      rw [hf] at hfilter hlen
      cases xs with
      | nil =>
        rcases List.mem_singleton.mp hfilter with h
        rw [h]
      | cons y ys => simp at hlen
  unfold find_matches
  dsimp only
  rw [hsingle]
  simp only [List.map_cons, List.map_nil, List.isEmpty_cons, Bool.false_eq_true,
    not_false_eq_true, if_true]
  congr 1
  cases m with
  | mk info oms =>
    dsimp only at hom ⊢
    rw [hom]

/-- The pairs of root pitch class and quality name of a result are distinct. -/
theorem analyze_all_keys_nodup (ns : List note) :
    ((analyze_all ns).map (fun a => (a.root.get_pitch, a.quality))).Nodup := by
  have hp : (analyze_all ns).Perm (generated_in_order ns) := by
    rw [← generated_eq]
    exact List.perm_insertionSort _ _
  rw [(hp.map _).nodup_iff]
  unfold generated_in_order
  cases hs : sorted_notes ns with
  | nil => exact List.nodup_nil
  | cons low rest =>
    dsimp only
    exact flatMap_keys_nodup low
      (fun n => find_matches (build_pcs ns n.get_pitch)
        (popcount (build_pcs ns low.get_pitch)))
      (fun n => find_matches_names_nodup _ _) _ (candidate_roots_nodup _ _)

theorem filter_key_length {α β : Type} (key : α → β) (P : α → Bool) :
    ∀ l : List α, (l.map key).Nodup →
      (∀ a ∈ l, ∀ b ∈ l, P a = true → P b = true → key a = key b) →
      (l.filter P).length ≤ 1 := by
  intro l
  induction l with
  | nil => intro _ _; simp
  | cons x xs ih =>
    intro hnd hkey
    rw [List.map_cons, List.nodup_cons] at hnd
    rw [List.filter_cons]
    by_cases hx : P x = true
    · rw [if_pos hx]
      have hnil : xs.filter P = [] := by
        rw [List.filter_eq_nil_iff]
        intro y hy hy'
        apply hnd.1
        rw [hkey x (List.mem_cons_self _ _) y (List.mem_cons_of_mem _ hy) hx hy']
        exact List.mem_map.mpr ⟨y, hy, rfl⟩
      rw [hnil]
      simp
    · rw [if_neg hx]
      exact ih hnd.2 (fun a ha b hb => hkey a (List.mem_cons_of_mem _ ha) b
        (List.mem_cons_of_mem _ hb))

/-- C35: no two entries of the catalog have the same pitch-class set. Hence
the entries with a given set are the same whatever the order of the catalog;
a match of `find_matches` without omissions is the catalog entry with the
input set and is the whole result; for a catalog set the result is that entry
alone; and `analyze()` returns, for each root pitch class, at most one
interpretation without omissions. -/
theorem C35_exact_match_unique :
    (chord_db.map (fun info => info.pitch_class_set)).Nodup ∧
    (∀ (db : List chord_info) (pcs : Nat), db.Perm chord_db →
      db.filter (fun info => pcs == info.pitch_class_set) =
        chord_db.filter (fun info => pcs == info.pitch_class_set)) ∧
    (∀ (input_pcs input_count : Nat) (m : match_result),
      m ∈ find_matches input_pcs input_count → m.omissions = [] →
      m.info.pitch_class_set = input_pcs ∧ find_matches input_pcs input_count = [m]) ∧
    (∀ info ∈ chord_db, ∀ input_count : Nat,
      find_matches info.pitch_class_set input_count = [⟨info, []⟩]) ∧
    (∀ (notes : List note) (c : Int),
      ((analyze_all notes).filter
        (fun a => a.omissions.isEmpty && a.root.get_pitch == c)).length ≤ 1) := by
  refine ⟨catalog_sets_nodup, ?_, ?_, ?_, ?_⟩
  · intro db pcs hperm
    apply perm_short_eq (hperm.filter _)
    apply filter_set_length
    rw [(hperm.map _).nodup_iff]
    exact catalog_sets_nodup
  · intro pcs cnt m hm hom
    exact ⟨exact_of_no_omission pcs cnt m hm hom, find_matches_exact_single pcs cnt m hm hom⟩
  · intro info hinfo cnt
    have hmem : (⟨info, []⟩ : match_result) ∈ find_matches info.pitch_class_set cnt := by
      unfold find_matches
      dsimp only
      have hf : info ∈ chord_db.filter
          (fun i => info.pitch_class_set == i.pitch_class_set) :=
        List.mem_filter.mpr ⟨hinfo, by simp⟩
      have hne : ((chord_db.filter
          (fun i => info.pitch_class_set == i.pitch_class_set)).map
          (fun i => (⟨i, []⟩ : match_result))).isEmpty = false := by
        cases hfl : chord_db.filter (fun i => info.pitch_class_set == i.pitch_class_set) with
        | nil => rw [hfl] at hf; cases hf
        | cons x xs => rfl
      rw [hne]
      simp only [Bool.false_eq_true, not_false_eq_true, if_true]
      exact List.mem_map.mpr ⟨info, hf, rfl⟩
    exact find_matches_exact_single _ _ _ hmem rfl
  · intro ns c
    apply filter_key_length (fun a : chord_analysis => (a.root.get_pitch, a.quality)) _ _
      (analyze_all_keys_nodup ns)
    intro a ha b hb hPa hPb
    simp only [Bool.and_eq_true, List.isEmpty_iff, beq_iff_eq] at hPa hPb
    obtain ⟨la, ra, hsa, na, _, ma, hma, rfl⟩ := analyze_all_built ns a ha
    obtain ⟨lb, rb, hsb, nb, _, mb, hmb, rfl⟩ := analyze_all_built ns b hb
    rw [hsa] at hsb
    obtain ⟨hlow, _⟩ := List.cons.inj hsb
    subst hlow
    rw [(build_analysis_fields na la ma).1, (build_analysis_fields na la ma).2.2,
      simplify_pitch] at hPa
    rw [(build_analysis_fields nb la mb).1, (build_analysis_fields nb la mb).2.2,
      simplify_pitch] at hPb
    rw [(build_analysis_fields na la ma).2.1, (build_analysis_fields na la ma).2.2,
      (build_analysis_fields nb la mb).2.1, (build_analysis_fields nb la mb).2.2,
      simplify_pitch, simplify_pitch, hPa.2, hPb.2]
    rw [hPb.2, ← hPa.2] at hmb
    have h1 := find_matches_exact_single _ _ ma hma hPa.1
    have h2 := find_matches_exact_single _ _ mb hmb hPb.1
    rw [h1] at h2
    rw [List.cons.inj h2 |>.1]

/-! ## C36: degrees in a major key -/

set_option maxRecDepth 1000000 in
set_option maxHeartbeats 0 in
theorem major_degrees_at_origin :
    ∀ p ∈ ([0, 1, 2, 3, 4, 5, 6, 7, 8, 9, 10, 11] : List Int),
      0 ≤ (degree_search p (scale_of ⟨0, 0⟩ scale_patterns.major).notes).1 ∧
      (degree_search p (scale_of ⟨0, 0⟩ scale_patterns.major).notes).1 < 7 ∧
      (⟨(degree_search p (scale_of ⟨0, 0⟩ scale_patterns.major).notes).1 + 1,
        (degree_search p (scale_of ⟨0, 0⟩ scale_patterns.major).notes).2⟩ : degree) =
        major_degrees.getD p.toNat ⟨0, 0⟩ ∧
      1 ≤ (major_degrees.getD p.toNat ⟨0, 0⟩).num ∧ (major_degrees.getD p.toNat ⟨0, 0⟩).num ≤ 7 ∧
      ((major_degrees.getD p.toNat ⟨0, 0⟩).alter = 0 ∨
        (major_degrees.getD p.toNat ⟨0, 0⟩).alter = 1) := by
  decide

/-- The search of `make_degree_analysis` in the major key on `R`, when no
fifths coordinate of the key wraps, is the search on the origin key for the
root's pitch class relative to `R`. -/
theorem major_key_search (R : note) (hR : fits8 (R.m_fifth - 1) ∧ fits8 (R.m_fifth + 5))
    (c : Int) (hc : 0 ≤ c ∧ c < 12) :
    degree_search c (scale_of R scale_patterns.major).notes =
      degree_search ((c - R.get_pitch) % 12) (scale_of ⟨0, 0⟩ scale_patterns.major).notes := by
  have hnotes : (scale_of R scale_patterns.major).notes =
      (scale_of ⟨0, 0⟩ scale_patterns.major).notes.map (transpose_by R) :=
    chord_of_transpose R scale_patterns.major
  have hRr := get_pitch_range R
  have hfit : ∀ iv ∈ scale_patterns.major, fits8 (R.m_fifth + iv.fifths) ∧
      fits8 ((0 : Int) + iv.fifths) := by
    obtain ⟨h1, h2⟩ := hR
    unfold fits8 at h1 h2
    intro iv hiv
    have hb : -1 ≤ iv.fifths ∧ iv.fifths ≤ 5 := by
      revert iv
      decide
    unfold fits8
    omega
  have hl : ∀ n ∈ (scale_of ⟨0, 0⟩ scale_patterns.major).notes,
      (transpose_by R n).get_pitch = (n.get_pitch + R.get_pitch) % 12 := by
    intro n hn
    obtain ⟨iv, hiv, rfl⟩ := List.mem_map.mp hn
    rw [transpose_add_zero, get_pitch_add R iv (hfit iv hiv).1,
      get_pitch_add ⟨0, 0⟩ iv (hfit iv hiv).2, get_pitch_eq R]
    dsimp only
    omega
  have hshift := degree_search_shift (transpose_by R) R.get_pitch ((c - R.get_pitch) % 12)
    (by omega) _ hl
  rw [hnotes, ← hshift]
  congr 1
  omega

/-- C36 (as stated, refuted): the note with fifths coordinate -128 plus the
major pattern has a fourth tone whose fifths coordinate -129 wraps to 127; in
that key a chord on C reads degree 4 with alteration -1, "bIV". -/
theorem C36_counterexample :
    (make_degree_analysis ⟨notes.C, "", none, 0, []⟩
        (scale_of ⟨-128, 0⟩ scale_patterns.major).notes).deg = ⟨4, -1⟩ ∧
    (make_degree_analysis ⟨notes.C, "", none, 0, []⟩
        (scale_of ⟨-128, 0⟩ scale_patterns.major).notes).roman_numeral = "bIV" := by
  decide

/-- C36 (amended): in the major key on a root `R` whose fifths coordinate lies
in -127..122 (no fifths coordinate of the key wraps), every chord root
resolves to a degree from 1 to 7, given by the distance of its pitch class
above the key's: the scale degrees with alteration 0, the five other pitch
classes as degrees 1, 2, 4, 5 and 6 with alteration +1. The alteration is never
-1, the sign is never "b", and the roman numeral is built from the degree, not
the chord-name fallback. -/
theorem C36_major_key_degrees (R : note) (hR : fits8 (R.m_fifth - 1) ∧ fits8 (R.m_fifth + 5))
    (ca : chord_analysis) :
    (make_degree_analysis ca (scale_of R scale_patterns.major).notes).deg =
      major_degrees.getD ((ca.root.get_pitch - R.get_pitch) % 12).toNat ⟨0, 0⟩ ∧
    1 ≤ (make_degree_analysis ca (scale_of R scale_patterns.major).notes).deg.num ∧
    (make_degree_analysis ca (scale_of R scale_patterns.major).notes).deg.num ≤ 7 ∧
    ((make_degree_analysis ca (scale_of R scale_patterns.major).notes).deg.alter = 0 ∨
      (make_degree_analysis ca (scale_of R scale_patterns.major).notes).deg.alter = 1) ∧
    (make_degree_analysis ca (scale_of R scale_patterns.major).notes).deg.prefix_of ≠ "b" ∧
    (make_degree_analysis ca (scale_of R scale_patterns.major).notes).roman_numeral =
      (make_degree_analysis ca (scale_of R scale_patterns.major).notes).deg.prefix_of ++
        (if is_major_quality ca.quality then roman_upper else roman_lower).getD
          ((((make_degree_analysis ca (scale_of R scale_patterns.major).notes).deg.num - 1)
            % 7).toNat) "" ++
        roman_quality_suffix ca.quality ++
        (if 1 ≤ ca.omissions.length then "(" ++ ",".intercalate ca.omissions ++ ")"
          else "") := by
  have hc := get_pitch_range ca.root
  have hRr := get_pitch_range R
  have hmem : (ca.root.get_pitch - R.get_pitch) % 12 ∈
      ([0, 1, 2, 3, 4, 5, 6, 7, 8, 9, 10, 11] : List Int) := by
    simp only [List.mem_cons, List.mem_singleton]
    omega
  obtain ⟨h0, h7, htab, hn1, hn7, halt⟩ := major_degrees_at_origin _ hmem
  have hlen : (scale_of R scale_patterns.major).notes.length = 7 := by
    unfold scale_of
    simp [scale_patterns.major]
  have hdeg : (make_degree_analysis ca (scale_of R scale_patterns.major).notes).deg =
      major_degrees.getD ((ca.root.get_pitch - R.get_pitch) % 12).toNat ⟨0, 0⟩ := by
    rw [make_degree_analysis_deg, major_key_search R hR _ hc, hlen, if_pos ⟨h0, by simpa using h7⟩]
    exact htab
  have hnum : (make_degree_analysis ca (scale_of R scale_patterns.major).notes).deg.num ≠ 0 := by
    rw [hdeg]
    omega
  refine ⟨hdeg, ?_, ?_, ?_, ?_, roman_numeral_resolved ca _ hnum⟩
  · rw [hdeg]; exact hn1
  · rw [hdeg]; exact hn7
  · rw [hdeg]; exact halt
  · rw [hdeg]
    unfold degree.prefix_of
    rcases halt with h | h
    · rw [h]
      decide
    · rw [h]
      decide

set_option maxRecDepth 1000000 in
theorem C36_witness :
    (fits8 ((notes.C.at_octave 4).m_fifth - 1) ∧ fits8 ((notes.C.at_octave 4).m_fifth + 5)) ∧
    (make_degree_analysis ⟨notes.Ab, "", none, 0, []⟩
        (scale_of (notes.C.at_octave 4) scale_patterns.major).notes).deg = ⟨5, 1⟩ ∧
    [notes.Db, notes.Eb, notes.Gb, notes.Ab, notes.Bb].map (fun r =>
        (make_degree_analysis ⟨r, "", none, 0, []⟩
          (scale_of (notes.C.at_octave 4) scale_patterns.major).notes).roman_numeral) =
      ["#I", "#II", "#IV", "#V", "#VI"] :=
  ⟨by decide,
    (C36_major_key_degrees (notes.C.at_octave 4) (by decide) ⟨notes.Ab, "", none, 0, []⟩).1.trans
      (by decide),
    by decide⟩

/-! ## C37: the pattern of "13#11" -/

set_option maxRecDepth 1000000 in
set_option maxHeartbeats 0 in
/-- C37 (the code): `dom13_sharp11` is `dom13.alter<4>(A11)`, and tone 4 of
`dom13` is the major ninth, not the eleventh (tone 5): the pattern is P1, M3,
P5, m7, A11, P11, M13. It keeps the perfect eleventh, has no major ninth, and
the pitch-class set of the catalog quality "13#11" is {0, 4, 5, 6, 7, 9, 10}
(1777), not {0, 2, 4, 6, 7, 9, 10} (1749). On C4 the pattern spells C, E, G,
Bb, F#, F, A, which `analyze()` names "C13#11", while the chord C, E, G, Bb, D,
F#, A with ninth and raised eleventh gets no interpretation. -/
theorem C37_sharp_eleven_replaces_ninth :
    chord_patterns.dom13 =
      [intervals.P1, intervals.M3, intervals.P5, intervals.m7, intervals.M9, intervals.P11,
        intervals.M13] ∧
    chord_patterns.dom13_sharp11 =
      [intervals.P1, intervals.M3, intervals.P5, intervals.m7, intervals.A11, intervals.P11,
        intervals.M13] ∧
    chord_patterns.dom13_sharp11 ≠
      [intervals.P1, intervals.M3, intervals.P5, intervals.m7, intervals.M9, intervals.A11,
        intervals.M13] ∧
    intervals.M9 ∉ chord_patterns.dom13_sharp11 ∧
    intervals.P11 ∈ chord_patterns.dom13_sharp11 ∧
    make_chord_info "13#11" chord_patterns.dom13_sharp11 ∈ chord_db ∧
    (make_chord_info "13#11" chord_patterns.dom13_sharp11).pitch_class_set = 1777 ∧
    (List.range 12).filter
        (fun i => (make_chord_info "13#11" chord_patterns.dom13_sharp11).pitch_class_set.testBit i)
      = [0, 4, 5, 6, 7, 9, 10] ∧
    chord_patterns.dom13.alter 5 intervals.A11 =
      [intervals.P1, intervals.M3, intervals.P5, intervals.m7, intervals.M9, intervals.A11,
        intervals.M13] ∧
    (chord_of (notes.C.at_octave 4) chord_patterns.dom13_sharp11).map note.pitch_name =
      ["C", "E", "G", "Bb", "F#", "F", "A"] ∧
    (analyze_all (chord_of (notes.C.at_octave 4) chord_patterns.dom13_sharp11)).map
      chord_analysis.str = ["C13#11"] ∧
    analyze_all (chord_of (notes.C.at_octave 4)
      [intervals.P1, intervals.M3, intervals.P5, intervals.m7, intervals.M9, intervals.A11,
        intervals.M13]) = [] := by
  decide

/-! ## C38: the pattern without fifth and eleventh -/

theorem omit_at_index (p : chord_pattern) (I : Nat) (hI : I < p.length) :
    (p.omit_at I).length = p.length - 1 ∧
    (∀ i, i < I → (p.omit_at I)[i]? = p[i]?) ∧
    (∀ i, I ≤ i → (p.omit_at I)[i]? = p[i + 1]?) := by
  unfold chord_pattern.omit_at
  refine ⟨?_, ?_, ?_⟩
  · rw [List.length_append, List.length_take, List.length_drop]
    omega
  · intro i hi
    rw [List.getElem?_append_left (by rw [List.length_take]; omega), List.getElem?_take,
      if_pos hi]
  · intro i hi
    rw [List.getElem?_append_right (by rw [List.length_take]; omega), List.length_take,
      List.getElem?_drop]
    congr 1
    omega

/-- C38 (the code): `omit<I>()` removes the tone at index `I` and keeps the
others in order; `dom13_no5` is P1, M3, m7, M9, P11, M13, whose tone 3 is the
major ninth, so `dom13_no5_no11 = dom13_no5.omit<3>()` is P1, M3, m7, P11, M13:
it keeps the perfect eleventh and drops the major ninth; on C4 it spells C, E,
Bb, F, A. -/
theorem C38_no_eleven_drops_ninth :
    (∀ (p : chord_pattern) (I : Nat), I < p.length →
      (p.omit_at I).length = p.length - 1 ∧
      (∀ i, i < I → (p.omit_at I)[i]? = p[i]?) ∧
      (∀ i, I ≤ i → (p.omit_at I)[i]? = p[i + 1]?)) ∧
    chord_patterns.dom13_no5 =
      [intervals.P1, intervals.M3, intervals.m7, intervals.M9, intervals.P11, intervals.M13] ∧
    chord_patterns.dom13_no5_no11 =
      [intervals.P1, intervals.M3, intervals.m7, intervals.P11, intervals.M13] ∧
    chord_patterns.dom13_no5_no11 ≠
      [intervals.P1, intervals.M3, intervals.m7, intervals.M9, intervals.M13] ∧
    intervals.P11 ∈ chord_patterns.dom13_no5_no11 ∧
    intervals.M9 ∉ chord_patterns.dom13_no5_no11 ∧
    chord_patterns.dom13_no5.omit_at 4 =
      [intervals.P1, intervals.M3, intervals.m7, intervals.M9, intervals.M13] ∧
    (chord_of (notes.C.at_octave 4) chord_patterns.dom13_no5_no11).map note.pitch_name =
      ["C", "E", "Bb", "F", "A"] :=
  ⟨omit_at_index, by decide⟩

/-! ## C39: simplification is a canonical form -/

/-- C39: for every note the fifths coordinate of the simplified note lies in
[-5, 6] for the natural preference, [-1, 10] for sharp and [-6, 5] for flat;
simplifying twice gives what simplifying once gives; two notes of equal
absolute ordinal pitch simplify to the same note; and the root of every
interpretation of `analyze()` and of `analyze(notes, root)` has its fifths
coordinate in [-5, 6] and is its own simplification. -/
theorem C39_simplify_canonical :
    (∀ n : note,
      (-5 ≤ (n.simplify accidental_preference.natural).m_fifth ∧
        (n.simplify accidental_preference.natural).m_fifth ≤ 6) ∧
      (-1 ≤ (n.simplify accidental_preference.sharp).m_fifth ∧
        (n.simplify accidental_preference.sharp).m_fifth ≤ 10) ∧
      (-6 ≤ (n.simplify accidental_preference.flat).m_fifth ∧
        (n.simplify accidental_preference.flat).m_fifth ≤ 5)) ∧
    (∀ (n : note) (pref : accidental_preference),
      (n.simplify pref).simplify pref = n.simplify pref) ∧
    (∀ (a b : note) (pref : accidental_preference),
      a.m_fifth * 7 + a.m_octave * 12 + 12 = b.m_fifth * 7 + b.m_octave * 12 + 12 →
      a.simplify pref = b.simplify pref) ∧
    (∀ (a b : note) (pref : accidental_preference), fits8 a.raw_pitch → fits8 b.raw_pitch →
      a.get_midi_pitch = b.get_midi_pitch → a.simplify pref = b.simplify pref) ∧
    (∀ (notes : List note) (x : chord_analysis), x ∈ analyze_all notes →
      -5 ≤ x.root.m_fifth ∧ x.root.m_fifth ≤ 6 ∧ x.root.simplify = x.root) ∧
    (∀ (notes : List note) (root : note) (x : chord_analysis),
      analyze_with_root notes root = some x →
      -5 ≤ x.root.m_fifth ∧ x.root.m_fifth ≤ 6 ∧ x.root.simplify = x.root) := by
  have hrange : ∀ (n : note) (pref : accidental_preference),
      -preference_offset pref ≤ (n.simplify pref).m_fifth ∧
        (n.simplify pref).m_fifth ≤ 11 - preference_offset pref := by
    intro n pref
    obtain ⟨q, hq, h1, h2⟩ := simplify_window n pref
    rw [hq]
    dsimp only
    omega
  have hbuilt : ∀ (n low : note) (m : match_result),
      -5 ≤ (build_analysis n m low).root.m_fifth ∧ (build_analysis n m low).root.m_fifth ≤ 6 ∧
        (build_analysis n m low).root.simplify = (build_analysis n m low).root := by
    intro n low m
    rw [(build_analysis_fields n low m).2.2]
    have := hrange n accidental_preference.natural
    have hoff : preference_offset accidental_preference.natural = 5 := by decide
    rw [hoff] at this
    exact ⟨by omega, by omega, simplify_idem n accidental_preference.natural⟩
  refine ⟨?_, simplify_idem, ?_, ?_, ?_, ?_⟩
  · intro n
    have h1 := hrange n accidental_preference.natural
    have h2 := hrange n accidental_preference.sharp
    have h3 := hrange n accidental_preference.flat
    have o1 : preference_offset accidental_preference.natural = 5 := by decide
    have o2 : preference_offset accidental_preference.sharp = 1 := by decide
    have o3 : preference_offset accidental_preference.flat = 6 := by decide
    rw [o1] at h1
    rw [o2] at h2
    rw [o3] at h3
    exact ⟨⟨by omega, by omega⟩, ⟨by omega, by omega⟩, ⟨by omega, by omega⟩⟩
  · intro a b pref h
    exact simplify_of_raw_eq a b pref h
  · intro a b pref ha hb h
    apply simplify_of_raw_eq
    have h1 : a.get_midi_pitch = a.raw_pitch := wrap8_of_fits ha
    have h2 : b.get_midi_pitch = b.raw_pitch := wrap8_of_fits hb
    rw [← h1, ← h2]
    exact h
  · intro ns x hx
    obtain ⟨low, _, n, _, m, _, rfl⟩ := analyze_all_sound ns x hx
    exact hbuilt n low m
  · intro ns root x h
    unfold analyze_with_root at h
    dsimp only at h
    cases hmin : min_element ns with
    | none => rw [hmin] at h; cases h
    | some low =>
      rw [hmin] at h
      dsimp only at h
      cases hf : find_matches (build_pcs ns root.get_pitch)
          (popcount (build_pcs ns root.get_pitch)) with
      | nil => rw [hf] at h; cases h
      | cons m rest =>
        rw [hf] at h
        dsimp only at h
        cases h
        exact hbuilt root low m

/-! ## C40: the absolute pitch -/

theorem octave_of_pitch_fits (n : note) (hf : fits8 n.m_fifth) (hr : fits8 n.raw_pitch) :
    fits8 (n.m_octave + 1) := by
  unfold fits8 note.raw_pitch at *
  omega

/-- C40: for every note whose absolute ordinal pitch
`fifths * 7 + octave * 12 + 12` fits in `int8`, `get_midi_pitch` is that value
and `get_pitch` is its non-negative remainder modulo 12; two such notes of
equal absolute pitch are enharmonic; for such a note with `int8` coordinates,
adding P8 gives a note whose absolute ordinal pitch is 12 more, and whose
`get_midi_pitch` is 12 more when that still fits; C4 is 60 and A4 is 69. -/
theorem C40_absolute_pitch :
    (∀ n : note, fits8 n.raw_pitch →
      n.get_midi_pitch = n.m_fifth * 7 + n.m_octave * 12 + 12 ∧
      n.get_pitch = n.get_midi_pitch % 12) ∧
    (∀ a b : note, fits8 a.raw_pitch → fits8 b.raw_pitch →
      a.get_midi_pitch = b.get_midi_pitch → a.is_enharmonic b = true) ∧
    (∀ n : note, fits8 n.m_fifth → fits8 n.m_octave → fits8 n.raw_pitch →
      (n.add intervals.P8).raw_pitch = n.raw_pitch + 12 ∧
      (fits8 (n.raw_pitch + 12) →
        (n.add intervals.P8).get_midi_pitch = n.get_midi_pitch + 12)) ∧
    (notes.C.at_octave 4).get_midi_pitch = 60 ∧ (notes.A.at_octave 4).get_midi_pitch = 69 ∧
    notes.C.get_midi_pitch = 12 ∧
    (notes.C.at_octave 4).get_midi_pitch - (notes.C.at_octave 3).get_midi_pitch = 12 ∧
    (notes.C.at_octave 5).get_midi_pitch - (notes.C.at_octave 4).get_midi_pitch = 12 := by
  have hmidi : ∀ n : note, fits8 n.raw_pitch →
      n.get_midi_pitch = n.m_fifth * 7 + n.m_octave * 12 + 12 := by
    intro n hn
    unfold note.get_midi_pitch
    exact wrap8_of_fits hn
  have hpc : ∀ n : note, fits8 n.raw_pitch → n.get_pitch = n.get_midi_pitch % 12 := by
    intro n hn
    rw [hmidi n hn, get_pitch_eq]
    omega
  refine ⟨fun n hn => ⟨hmidi n hn, hpc n hn⟩, ?_, ?_, by decide, by decide, by decide,
    by decide, by decide⟩
  · intro a b ha hb hab
    unfold note.is_enharmonic
    rw [hpc a ha, hpc b hb, hab]
    simp
  · intro n hf ho hr
    have ho1 := octave_of_pitch_fits n hf hr
    have hadd : n.add intervals.P8 = ⟨n.m_fifth, n.m_octave + 1⟩ := by
      unfold note.add intervals.P8
      dsimp only
      rw [add_zero, wrap8_of_fits hf, wrap8_of_fits ho1]
    have hraw : (n.add intervals.P8).raw_pitch = n.raw_pitch + 12 := by
      rw [hadd]
      unfold note.raw_pitch
      dsimp only
      ring
    refine ⟨hraw, ?_⟩
    intro h12
    have h1 := hmidi (n.add intervals.P8) (by rw [hraw]; exact h12)
    have h2 := hmidi n hr
    unfold note.raw_pitch at hraw
    rw [h1, h2]
    exact hraw

end musicpp
